import Mathlib

/-!
The POSIX file abstraction layer of `util/env_posix.cc`.

A shallow embedding of the readers, the two append-writers, the recursive
delete and the background queue of `src/util/env_posix.cc`.

Conventions of the embedding.

* A file on disk is the list of its bytes.  A slice handed to a writer is the
  list of its bytes: `data.size()` is the length and `data.data()` the list.
* The result of a system call is a `SysRet`: `ok v` for a non-negative return
  value `v`, `fail e` for a return of `-1` with `errno = e`.  The results are
  inputs of the operation that issues the calls.
* Pointers are addresses (natural numbers), `NULL` is `0`.
* `size_t` and `uint64_t` quantities are natural numbers; the one place where
  the 64-bit wrap-around is reachable (the bounds check of the mapped reader)
  reduces modulo `2 ^ 64` explicitly.  File offsets stay below `2 ^ 63`
  (`off_t`), so sums of offsets and lengths of data held on disk do not wrap.
* A loop whose termination depends on the results of system calls takes a
  fuel argument and answers `none` when the fuel runs out.
-/

namespace kudu

/-! ## System calls and statuses -/

abbrev Byte := Nat

/-- Result of one system call: `ok v` is the return value `v ≥ 0`, `fail e` is
the return value `-1` with `errno` set to `e`. -/
inductive SysRet where
  | ok (val : Nat)
  | fail (errno : Nat)
deriving DecidableEq, Repr

/-- The C test `call(...) < 0`. -/
def SysRet.isFail : SysRet → Bool
  | .ok _ => false
  | .fail _ => true

/-- The value of `errno` after the call, given its value before. -/
def SysRet.errnoAfter (r : SysRet) (errno : Nat) : Nat :=
  match r with
  | .ok _ => errno
  | .fail e => e

def ENOENT : Nat := 2
def EEXIST : Nat := 17
def EINVAL : Nat := 22
def ENOSYS : Nat := 38
def EOPNOTSUPP : Nat := 95

/-- The statuses this file produces.  `posix_code` is the errno the status
carries, `-1` when it was built from a message alone. -/
inductive Status where
  | OK
  | NotFound (msg : String) (posix_code : Int)
  | AlreadyPresent (msg : String) (posix_code : Int)
  | IOError (msg : String) (posix_code : Int)
deriving DecidableEq, Repr

def Status.ok : Status → Bool
  | .OK => true
  | _ => false

/-- `IOError(context, err_number)` of the anonymous namespace. -/
def IOError (context : String) (err_number : Nat) : Status :=
  if err_number = ENOENT then Status.NotFound context err_number
  else if err_number = EEXIST then Status.AlreadyPresent context err_number
  else Status.IOError context err_number

/-! ## Files as byte lists -/

/-- `ftruncate(fd, n)`: cut the file to `n` bytes, or extend it with zeros. -/
def ftruncateFile (f : List Byte) (n : Nat) : List Byte :=
  f.take n ++ List.replicate (n - f.length) 0

/-- `fallocate(fd, 0, offset, len)` (mode 0): the file grows to `offset + len`
bytes when it was shorter, the new bytes read as zero. -/
def fallocateFile (f : List Byte) (offset len : Nat) : List Byte :=
  f ++ List.replicate (offset + len - f.length) 0

/-- A store of `data` through a shared mapping at file position `off`: the
bytes of the file under the store are replaced, the file length is unchanged
(bytes stored past the end of file never reach the file). -/
def storeAt (f : List Byte) (off : Nat) (data : List Byte) : List Byte :=
  f.take off ++ data.take (f.length - off) ++ f.drop (off + data.length)

/-- `pwrite`/`pwritev` of `data` at file position `off`: a hole between the
end of file and `off` reads as zeros; writing nothing changes nothing. -/
def pwriteFile (f : List Byte) (off : Nat) (data : List Byte) : List Byte :=
  if data = [] then f
  else (f ++ List.replicate (off - f.length) 0).take off ++ data ++ f.drop (off + data.length)

/-! ## PosixMmapFile -/

def NULL : Nat := 0

/-- Object state of `PosixMmapFile`, together with the part of the world it
acts on: the bytes of the file behind `fd_` and the thread's `errno`. -/
structure PosixMmapFile where
  filename : String
  fd : Int
  page_size : Nat
  map_size : Nat
  base : Nat
  limit : Nat
  dst : Nat
  last_sync : Nat
  file_offset : Nat
  pre_allocated_size : Nat
  pending_sync : Bool
  disk : List Byte
  errno : Nat
deriving DecidableEq, Repr

namespace PosixMmapFile

/-- `Roundup(x, y)`. -/
def Roundup (x y : Nat) : Nat := ((x + y - 1) / y) * y

/-- `TruncateToPageBoundary(s)`. -/
def TruncateToPageBoundary (page_size s : Nat) : Nat :=
  s - (s &&& (page_size - 1))

/-- The constructor `PosixMmapFile(fname, fd, page_size)` on a file that
`NewWritableFile` has just opened with `O_CREAT | O_RDWR | O_TRUNC`. -/
def create (fname : String) (fd : Int) (page_size : Nat) : PosixMmapFile :=
  { filename := fname, fd := fd, page_size := page_size,
    map_size := Roundup 65536 page_size,
    base := NULL, limit := NULL, dst := NULL, last_sync := NULL,
    file_offset := 0, pre_allocated_size := 0, pending_sync := false,
    disk := [], errno := 0 }

/-- A freshly created writer whose first window is forced to `w` bytes. -/
def createWithWindow (fname : String) (fd : Int) (page_size w : Nat) : PosixMmapFile :=
  { create fname fd page_size with map_size := w }

/-- `UnmapCurrentRegion()`, given the result of `munmap`. -/
def UnmapCurrentRegion (munmap : SysRet) (s : PosixMmapFile) : Bool × PosixMmapFile :=
  if s.base ≠ NULL then
    (!munmap.isFail,
     { s with pending_sync := if s.last_sync < s.limit then true else s.pending_sync,
              errno := munmap.errnoAfter s.errno,
              file_offset := s.file_offset + (s.limit - s.base),
              base := NULL, limit := NULL, last_sync := NULL, dst := NULL,
              map_size := if s.map_size < 2 ^ 20 then s.map_size * 2 else s.map_size })
  else (true, s)

/-- `MapNewRegion()`, given the results of `ftruncate` and `mmap` (`ok a` is
the address `a` of the new mapping, `fail e` is `MAP_FAILED`). -/
def MapNewRegion (ftruncate mmap : SysRet) (s : PosixMmapFile) : Bool × PosixMmapFile :=
  let required_space := s.file_offset + s.map_size
  if required_space ≥ s.pre_allocated_size ∧ ftruncate.isFail = true then
    (false, { s with errno := ftruncate.errnoAfter s.errno })
  else
    let disk1 := if required_space ≥ s.pre_allocated_size
      then ftruncateFile s.disk required_space else s.disk
    match mmap with
    | .fail e => (false, { s with disk := disk1, errno := e })
    | .ok ptr =>
      (true, { s with disk := disk1, base := ptr, limit := ptr + s.map_size, dst := ptr,
                      last_sync := ptr })

/-- Results of the system calls of one window switch. -/
structure RemapRet where
  munmap : SysRet
  ftruncate : SysRet
  mmap : SysRet

/-- The condition `!UnmapCurrentRegion() || !MapNewRegion()`: `true` when the
window switch failed. -/
def remapFails (r : RemapRet) (s : PosixMmapFile) : Bool × PosixMmapFile :=
  let u := UnmapCurrentRegion r.munmap s
  if !u.1 then (true, u.2)
  else
    let m := MapNewRegion r.ftruncate r.mmap u.2
    (!m.1, m.2)

/-- `PreAllocate(size)`, given the result of `fallocate`. -/
def PreAllocate (fallocate : SysRet) (size : Nat) (s : PosixMmapFile) : Status × PosixMmapFile :=
  let offset := max s.file_offset s.pre_allocated_size
  match fallocate with
  | .fail e => (IOError s.filename e, { s with errno := e })
  | .ok _ =>
    (Status.OK, { s with disk := fallocateFile s.disk offset size,
                         pre_allocated_size := offset + size })

/-- The loop of `Append`: `src` is what is left of the slice, `os i` gives the
results of the system calls of iteration `i`. -/
def AppendLoop (os : Nat → RemapRet) :
    Nat → Nat → PosixMmapFile → List Byte → Option (Status × PosixMmapFile)
  | 0, _, _, _ => none
  | fuel + 1, i, s, src =>
    let left := src.length
    if left > 0 then
      let avail := s.limit - s.dst
      let r := if avail = 0 then remapFails (os i) s else (false, s)
      if r.1 then some (IOError r.2.filename r.2.errno, r.2)
      else
        let n := if left ≤ avail then left else avail
        let s1 := { r.2 with disk := storeAt r.2.disk (r.2.file_offset + (r.2.dst - r.2.base))
                                        (src.take n),
                             dst := r.2.dst + n }
        AppendLoop os fuel (i + 1) s1 (src.drop n)
    else some (Status.OK, s)

/-- `Append(data)`. -/
def Append (os : Nat → RemapRet) (fuel : Nat) (data : List Byte) (s : PosixMmapFile) :
    Option (Status × PosixMmapFile) :=
  AppendLoop os fuel 0 s data

/-- The window-advancing loop of `DoWritev`: like the loop of `Append` without
the copy. -/
def AdvanceLoop (os : Nat → RemapRet) :
    Nat → Nat → PosixMmapFile → Nat → Option (Bool × PosixMmapFile)
  | 0, _, _, _ => none
  | fuel + 1, i, s, left =>
    if left > 0 then
      let avail := s.limit - s.dst
      let r := if avail = 0 then remapFails (os i) s else (false, s)
      if r.1 then some (false, r.2)
      else
        let n := if left ≤ avail then left else avail
        AdvanceLoop os fuel (i + 1) { r.2 with dst := r.2.dst + n } (left - n)
    else some (true, s)

/-- Results of the system calls of one `DoWritev`. -/
structure WritevRet where
  remap : Nat → RemapRet
  /-- Result of `pwritev`, given the number of bytes it is asked to write. -/
  pwritev : Nat → SysRet

/-- `DoWritev(data_vector, offset, n)`; the slices `offset .. offset + n - 1`
are passed as `slices`. -/
def DoWritev (os : WritevRet) (fuel : Nat) (slices : List (List Byte)) (s : PosixMmapFile) :
    Option (Status × PosixMmapFile) :=
  let nbytes := (slices.map List.length).sum
  let mem_offset := s.dst - s.base
  let actual_offset := s.file_offset + mem_offset
  match AdvanceLoop os.remap fuel 0 s nbytes with
  | none => none
  | some (false, s1) => some (IOError s1.filename s1.errno, s1)
  | some (true, s1) =>
    match os.pwritev nbytes with
    | .fail err => some (IOError "writev error" err, { s1 with errno := err })
    | .ok written =>
      let s2 := { s1 with disk := pwriteFile s1.disk actual_offset (slices.flatten.take written) }
      if written ≠ nbytes then
        some (Status.IOError ("writev error: expected to write " ++ toString nbytes ++
                " bytes, wrote " ++ toString written ++ " bytes instead") (-1), s2)
      else some (Status.OK, s2)

/-- The loop of `AppendVector` over batches of at most `iov_max` slices; `rest`
is `data_vector` from index `i` on, `os b` serves batch number `b`. -/
def AppendVectorLoop (iov_max : Nat) (os : Nat → WritevRet) (fuel : Nat) :
    Nat → Nat → List (List Byte) → PosixMmapFile → Option (Status × PosixMmapFile)
  | 0, _, _, _ => none
  | k + 1, b, rest, s =>
    if rest.length > 0 then
      let n := min rest.length iov_max
      match DoWritev (os b) fuel (rest.take n) s with
      | none => none
      | some (st, s1) =>
        if st.ok then AppendVectorLoop iov_max os fuel k (b + 1) (rest.drop n) s1
        else some (st, s1)
    else some (Status.OK, s)

/-- `AppendVector(data_vector)`; `iov_max` is the platform's `IOV_MAX`. -/
def AppendVector (iov_max : Nat) (os : Nat → WritevRet) (fuel : Nat)
    (data_vector : List (List Byte)) (s : PosixMmapFile) : Option (Status × PosixMmapFile) :=
  match AppendVectorLoop iov_max os fuel fuel 0 data_vector s with
  | none => none
  | some (st, s1) =>
    if st.ok then some (Status.OK, { s1 with pending_sync := true })
    else some (st, s1)

/-- `Close()`, given the results of `munmap`, `ftruncate` and `close`. -/
def Close (munmap ftruncate close : SysRet) (s : PosixMmapFile) : Status × PosixMmapFile :=
  let unused := s.limit - s.dst
  let u := UnmapCurrentRegion munmap s
  let r : Status × PosixMmapFile :=
    if !u.1 then (IOError u.2.filename u.2.errno, u.2)
    else if unused > 0 then
      match ftruncate with
      | .fail e => (IOError u.2.filename e, { u.2 with errno := e })
      | .ok _ => (Status.OK, { u.2 with disk := ftruncateFile u.2.disk (u.2.file_offset - unused) })
    else (Status.OK, u.2)
  let r2 : Status × PosixMmapFile :=
    match close with
    | .fail e => (if r.1.ok then IOError r.2.filename e else r.1, { r.2 with errno := e })
    | .ok _ => r
  (r2.1, { r2.2 with fd := -1, base := NULL, limit := NULL })

/-- `Sync()`, given the results of `fdatasync` and `msync`.  The third
component is the range `(p1, p2 - p1 + page_size)` handed to `msync`, as an
offset from `base_` and a length, when `msync` is called. -/
def Sync (fdatasync msync : SysRet) (s : PosixMmapFile) :
    Status × PosixMmapFile × Option (Nat × Nat) :=
  let r : Status × PosixMmapFile :=
    if s.pending_sync then
      let s1 := { s with pending_sync := false }
      match fdatasync with
      | .fail e => (IOError s1.filename e, { s1 with errno := e })
      | .ok _ => (Status.OK, s1)
    else (Status.OK, s)
  let s1 := r.2
  if s1.dst > s1.last_sync then
    let p1 := TruncateToPageBoundary s1.page_size (s1.last_sync - s1.base)
    let p2 := TruncateToPageBoundary s1.page_size (s1.dst - s1.base - 1)
    let s2 := { s1 with last_sync := s1.dst }
    match msync with
    | .fail e => (IOError s2.filename e, { s2 with errno := e }, some (p1, p2 - p1 + s2.page_size))
    | .ok _ => (r.1, s2, some (p1, p2 - p1 + s2.page_size))
  else (r.1, s1, none)

/-- `Size()`. -/
def Size (s : PosixMmapFile) : Nat := s.file_offset + (s.dst - s.base)

end PosixMmapFile

/-! ### The mapped writer seen through offsets -/

/-- What scalar and vectored appends act on, with addresses abstracted to
offsets: `win = limit_ - base_`, `pos = dst_ - base_`. -/
structure View where
  disk : List Byte
  file_offset : Nat
  map_size : Nat
  win : Nat
  pos : Nat
  pre : Nat
deriving DecidableEq, Repr

namespace View

/-- `Size()` on a view. -/
def size (v : View) : Nat := v.file_offset + v.pos

/-- A successful window switch. -/
def remap (v : View) : View :=
  let fo := v.file_offset + v.win
  let ms := if v.win ≠ 0 ∧ v.map_size < 2 ^ 20 then v.map_size * 2 else v.map_size
  { disk := if fo + ms ≥ v.pre then ftruncateFile v.disk (fo + ms) else v.disk,
    file_offset := fo, map_size := ms, win := ms, pos := 0, pre := v.pre }

/-- Advance the write cursor by one byte, switching windows when the current
one is full. -/
def step (v : View) : View :=
  let v1 := if v.win - v.pos = 0 then v.remap else v
  { v1 with pos := v1.pos + 1 }

/-- Advance the write cursor by `n` bytes. -/
def skip (v : View) : Nat → View
  | 0 => v
  | n + 1 => skip v.step n

/-- Advance by one byte and store `b` where the cursor was. -/
def put (v : View) (b : Byte) : View :=
  { v.step with disk := storeAt v.step.disk v.size [b] }

/-- Append `data`, byte by byte. -/
def puts (v : View) (data : List Byte) : View := data.foldl put v

/-- The view with another disk. -/
def withDisk (v : View) (d : List Byte) : View := { v with disk := d }

/-- Well-formed views: the cursor is inside the window, the window inside the
file, the next window is not empty. -/
structure WF (v : View) : Prop where
  pos_le : v.pos ≤ v.win
  map_pos : 0 < v.map_size
  win_le : v.file_offset + v.win ≤ v.disk.length
  pre_le : v.pre ≤ v.disk.length

end View

/-- The view of a writer state. -/
def PosixMmapFile.view (s : PosixMmapFile) : View :=
  { disk := s.disk, file_offset := s.file_offset, map_size := s.map_size,
    win := s.limit - s.base, pos := s.dst - s.base, pre := s.pre_allocated_size }

namespace PosixMmapFile

/-- The states the writer can be in: the cursors are all null or delimit a
non-empty window that lies inside the file, and the file is at least as long
as the recorded pre-allocation. -/
structure WF (s : PosixMmapFile) : Prop where
  null : s.base = NULL → s.limit = NULL ∧ s.dst = NULL
  mapped : s.base ≠ NULL → s.base ≤ s.dst ∧ s.dst ≤ s.limit ∧ s.base < s.limit
  map_pos : 0 < s.map_size
  win_le : s.file_offset + (s.limit - s.base) ≤ s.disk.length
  pre_le : s.pre_allocated_size ≤ s.disk.length

/-- Every system call of a window switch succeeds. -/
def RemapRet.AllOk (r : RemapRet) : Prop :=
  r.munmap.isFail = false ∧ r.ftruncate.isFail = false ∧ ∃ a, r.mmap = SysRet.ok a ∧ a ≠ NULL

/-- Every system call of a `DoWritev` succeeds, `pwritev` writing in full. -/
def WritevRet.AllOk (w : WritevRet) : Prop :=
  (∀ i, (w.remap i).AllOk) ∧ ∀ n, w.pwritev n = SysRet.ok n

end PosixMmapFile

/-- A call on the mapped writer, together with the results of the system calls
it will see. -/
inductive MmapCall where
  | PreAllocate (fallocate : SysRet) (size : Nat)
  | Append (os : Nat → PosixMmapFile.RemapRet) (data : List Byte)
  | AppendVector (os : Nat → PosixMmapFile.WritevRet) (data_vector : List (List Byte))
  | Sync (fdatasync msync : SysRet)
  | Close (munmap ftruncate close : SysRet)

namespace MmapCall

def exec (iov_max fuel : Nat) : MmapCall → PosixMmapFile → Option (Status × PosixMmapFile)
  | PreAllocate r size, s => some (PosixMmapFile.PreAllocate r size s)
  | Append os data, s => PosixMmapFile.Append os fuel data s
  | AppendVector os dv, s => PosixMmapFile.AppendVector iov_max os fuel dv s
  | Sync a b, s => some ((PosixMmapFile.Sync a b s).1, (PosixMmapFile.Sync a b s).2.1)
  | Close a b c, s => some (PosixMmapFile.Close a b c s)

/-- The bytes the call appends. -/
def bytes : MmapCall → List Byte
  | Append _ data => data
  | AppendVector _ dv => dv.flatten
  | _ => []

def isAppend : MmapCall → Bool
  | Append _ _ => true
  | AppendVector _ _ => true
  | _ => false

/-- Every system call the call issues succeeds. -/
def AllOk : MmapCall → Prop
  | PreAllocate r _ => r.isFail = false
  | Append os _ => ∀ i, (os i).AllOk
  | AppendVector os _ => ∀ b, (os b).AllOk
  | Sync a b => a.isFail = false ∧ b.isFail = false
  | Close a b c => a.isFail = false ∧ b.isFail = false ∧ c.isFail = false

/-- Fuel that lets the loops of the call run to their end when its system
calls succeed. -/
def cost : MmapCall → Nat
  | Append _ data => 2 * data.length + 2
  | AppendVector _ dv => 2 * dv.flatten.length + dv.length + 2
  | _ => 0

end MmapCall

/-- Run a sequence of calls, collecting the statuses they return. -/
def PosixMmapFile.run (iov_max fuel : Nat) :
    List MmapCall → PosixMmapFile → Option (List Status × PosixMmapFile)
  | [], s => some ([], s)
  | c :: cs, s =>
    match c.exec iov_max fuel s with
    | none => none
    | some (st, s1) =>
      match PosixMmapFile.run iov_max fuel cs s1 with
      | none => none
      | some (sts, s2) => some (st :: sts, s2)

/-! ## PosixMmapReadableFile -/

/-- A `Slice`: the address of its first byte and its size.  `Slice()` is the
empty slice; the address it carries is immaterial and is written `0`. -/
structure Slice where
  data : Nat
  size : Nat
deriving DecidableEq, Repr

/-- Object state of `PosixMmapReadableFile`: `base[0, length - 1]` holds the
mapped contents of the file. -/
structure PosixMmapReadableFile where
  filename : String
  mmapped_region : Nat
  length : Nat
deriving DecidableEq, Repr

/-- `PosixMmapReadableFile::Read(offset, n, result, scratch)`: the status and
`*result`.  `offset` is a `uint64_t` and `n` a `size_t`, so `offset + n` is
computed modulo `2 ^ 64`, and so is the address `mmapped_region_ + offset`. -/
def PosixMmapReadableFile.Read (f : PosixMmapReadableFile) (offset n : Nat) : Status × Slice :=
  if (offset + n) % 2 ^ 64 > f.length then
    (IOError f.filename EINVAL, { data := 0, size := 0 })
  else
    (Status.OK, { data := (f.mmapped_region + offset) % 2 ^ 64, size := n })

/-! ## PosixWritableFile -/

inductive SyncType where
  | NONE
  | FSYNC
  | FDATASYNC
deriving DecidableEq, Repr

/-- The system calls `Sync` and `Close` of the descriptor writer may issue. -/
inductive Syscall where
  | ftruncate (length : Nat)
  | fsync
  | fdatasync
  | close
deriving DecidableEq, Repr

/-- Object state of `PosixWritableFile`, together with the part of the world
it acts on: the bytes of the file, the file position of the descriptor, the
thread's `errno` and the static flag `logged_fallocate_warning_`. -/
structure PosixWritableFile where
  filename : String
  fd : Int
  filesize : Nat
  pre_allocated_size : Nat
  pending_sync_type : SyncType
  disk : List Byte
  pos : Nat
  errno : Nat
  logged_fallocate_warning : Bool
deriving DecidableEq, Repr

namespace PosixWritableFile

/-- The constructor `PosixWritableFile(fname, fd)` on a file that
`NewWritableFile` has just opened with `O_CREAT | O_RDWR | O_TRUNC`. -/
def create (fname : String) (fd : Int) : PosixWritableFile :=
  { filename := fname, fd := fd, filesize := 0, pre_allocated_size := 0,
    pending_sync_type := SyncType.NONE, disk := [], pos := 0, errno := 0,
    logged_fallocate_warning := false }

/-- The `write` loop of `Append`: `src` is what is left of the slice;
`write i left` is the result of the `i`-th call, asked to write `left` bytes
(`ok done` with `done ≤ left`). -/
def AppendLoop (write : Nat → Nat → SysRet) :
    Nat → Nat → PosixWritableFile → List Byte → Option (Status × PosixWritableFile)
  | 0, _, _, _ => none
  | fuel + 1, i, s, src =>
    let left := src.length
    if left ≠ 0 then
      match write i left with
      | .fail e => some (IOError s.filename e, { s with errno := e })
      | .ok done =>
        AppendLoop write fuel (i + 1)
          { s with disk := pwriteFile s.disk s.pos (src.take done),
                   pos := s.pos + (src.take done).length }
          (src.drop done)
    else some (Status.OK, s)

/-- `Append(data)`. -/
def Append (write : Nat → Nat → SysRet) (fuel : Nat) (data : List Byte) (s : PosixWritableFile) :
    Option (Status × PosixWritableFile) :=
  let left := data.length
  let s1 := { s with pending_sync_type :=
    if s.filesize + left > s.pre_allocated_size then SyncType.FSYNC else SyncType.FDATASYNC }
  match AppendLoop write fuel 0 s1 data with
  | none => none
  | some (st, s2) =>
    if st.ok then some (Status.OK, { s2 with filesize := s2.filesize + data.length })
    else some (st, s2)

/-- `DoWritev(data_vector, offset, n)`; the slices `offset .. offset + n - 1`
are passed as `slices`, `writev nbytes` is the result of `writev` asked to
write `nbytes` bytes. -/
def DoWritev (writev : Nat → SysRet) (slices : List (List Byte)) (s : PosixWritableFile) :
    Status × PosixWritableFile :=
  let nbytes := (slices.map List.length).sum
  match writev nbytes with
  | .fail err => (IOError "writev error" err, { s with errno := err })
  | .ok written =>
    let s1 := { s with disk := pwriteFile s.disk s.pos (slices.flatten.take written),
                       pos := s.pos + (slices.flatten.take written).length,
                       filesize := s.filesize + written }
    if written ≠ nbytes then
      (Status.IOError ("writev error: expected to write " ++ toString nbytes ++
          " bytes, wrote " ++ toString written ++ " bytes instead") (-1), s1)
    else (Status.OK, s1)

/-- The loop of `AppendVector` over batches of at most `iov_max` slices; `rest`
is `data_vector` from index `i` on, `writev b` serves batch number `b`. -/
def AppendVectorLoop (iov_max : Nat) (writev : Nat → Nat → SysRet) :
    Nat → Nat → List (List Byte) → PosixWritableFile → Option (Status × PosixWritableFile)
  | 0, _, _, _ => none
  | k + 1, b, rest, s =>
    if rest.length > 0 then
      let n := min rest.length iov_max
      let r := DoWritev (writev b) (rest.take n) s
      if r.1.ok then AppendVectorLoop iov_max writev k (b + 1) (rest.drop n) r.2
      else some r
    else some (Status.OK, s)

/-- `AppendVector(data_vector)`; `iov_max` is the platform's `IOV_MAX`. -/
def AppendVector (iov_max : Nat) (writev : Nat → Nat → SysRet) (fuel : Nat)
    (data_vector : List (List Byte)) (s : PosixWritableFile) :
    Option (Status × PosixWritableFile) :=
  match AppendVectorLoop iov_max writev fuel 0 data_vector s with
  | none => none
  | some (st, s1) =>
    if st.ok then
      some (Status.OK, { s1 with pending_sync_type :=
        if s1.filesize > s1.pre_allocated_size then SyncType.FSYNC else SyncType.FDATASYNC })
    else some (st, s1)

/-- `PreAllocate(size)`, given the result of `fallocate`. -/
def PreAllocate (fallocate : SysRet) (size : Nat) (s : PosixWritableFile) :
    Status × PosixWritableFile :=
  let offset := max s.filesize s.pre_allocated_size
  match fallocate with
  | .fail e =>
    if e = EOPNOTSUPP then
      (Status.OK, { s with errno := e, logged_fallocate_warning := true })
    else if e = ENOSYS then
      (Status.OK, { s with errno := e, logged_fallocate_warning := true })
    else (IOError s.filename e, { s with errno := e })
  | .ok _ =>
    (Status.OK, { s with disk := fallocateFile s.disk offset size,
                         pre_allocated_size := s.filesize + size })

/-- `Sync()`, given the result of the sync call it issues, if any.  The third
component lists the system calls issued. -/
def Sync (sync : SysRet) (s : PosixWritableFile) : Status × PosixWritableFile × List Syscall :=
  match s.pending_sync_type with
  | SyncType.FSYNC =>
    match sync with
    | .fail e => (IOError s.filename e, { s with errno := e }, [Syscall.fsync])
    | .ok _ => (Status.OK, { s with pending_sync_type := SyncType.NONE }, [Syscall.fsync])
  | SyncType.FDATASYNC =>
    match sync with
    | .fail e => (IOError s.filename e, { s with errno := e }, [Syscall.fdatasync])
    | .ok _ => (Status.OK, { s with pending_sync_type := SyncType.NONE }, [Syscall.fdatasync])
  | SyncType.NONE => (Status.OK, { s with pending_sync_type := SyncType.NONE }, [])

/-- The first part of `Close()`: truncation to the logical size.  Returns the
status `s` so far, the state and the system calls issued. -/
def CloseTruncate (ftruncate : SysRet) (s : PosixWritableFile) :
    Status × PosixWritableFile × List Syscall :=
  if s.filesize < s.pre_allocated_size then
    match ftruncate with
    | .fail e =>
      (IOError s.filename e, { s with errno := e, pending_sync_type := SyncType.FSYNC },
        [Syscall.ftruncate s.filesize])
    | .ok _ =>
      (Status.OK, { s with disk := ftruncateFile s.disk s.filesize },
        [Syscall.ftruncate s.filesize])
  else (Status.OK, s, [])

/-- `Close()`, given the results of `ftruncate`, of the sync call and of
`close`.  The third component lists the system calls issued, in order. -/
def Close (ftruncate sync close : SysRet) (s : PosixWritableFile) :
    Status × PosixWritableFile × List Syscall :=
  let t := CloseTruncate ftruncate s
  let y := Sync sync t.2.1
  let sync_status := y.1
  let st1 := if !sync_status.ok then (if t.1.ok then sync_status else t.1) else t.1
  let c : Status × PosixWritableFile :=
    match close with
    | .fail e => (if st1.ok then IOError y.2.1.filename e else st1, { y.2.1 with errno := e })
    | .ok _ => (st1, y.2.1)
  (c.1, { c.2 with fd := -1 }, t.2.2 ++ y.2.2 ++ [Syscall.close])

/-- `Size()`. -/
def Size (s : PosixWritableFile) : Nat := s.filesize

end PosixWritableFile

/-- A call on the descriptor writer, together with the results of the system
calls it will see. -/
inductive FileCall where
  | PreAllocate (fallocate : SysRet) (size : Nat)
  | Append (write : Nat → Nat → SysRet) (data : List Byte)
  | AppendVector (writev : Nat → Nat → SysRet) (data_vector : List (List Byte))
  | Sync (sync : SysRet)
  | Close (ftruncate sync close : SysRet)

namespace FileCall

def exec (iov_max fuel : Nat) : FileCall → PosixWritableFile → Option (Status × PosixWritableFile)
  | PreAllocate r size, s => some (PosixWritableFile.PreAllocate r size s)
  | Append w data, s => PosixWritableFile.Append w fuel data s
  | AppendVector w dv, s => PosixWritableFile.AppendVector iov_max w fuel dv s
  | Sync a, s => some ((PosixWritableFile.Sync a s).1, (PosixWritableFile.Sync a s).2.1)
  | Close a b c, s =>
    some ((PosixWritableFile.Close a b c s).1, (PosixWritableFile.Close a b c s).2.1)

/-- The bytes the call is asked to append. -/
def bytes : FileCall → List Byte
  | Append _ data => data
  | AppendVector _ dv => dv.flatten
  | _ => []

def isAppend : FileCall → Bool
  | Append _ _ => true
  | AppendVector _ _ => true
  | _ => false

end FileCall

/-- Run a sequence of calls, collecting the statuses they return. -/
def PosixWritableFile.run (iov_max fuel : Nat) :
    List FileCall → PosixWritableFile → Option (List Status × PosixWritableFile)
  | [], s => some ([], s)
  | c :: cs, s =>
    match c.exec iov_max fuel s with
    | none => none
    | some (st, s1) =>
      match PosixWritableFile.run iov_max fuel cs s1 with
      | none => none
      | some (sts, s2) => some (st :: sts, s2)

/-! ## PosixEnv: recursive delete -/

/-- The values of `fts_info` (`fts.h`). -/
inductive FtsInfo where
  | FTS_D | FTS_DC | FTS_DEFAULT | FTS_DNR | FTS_DOT | FTS_DP | FTS_ERR
  | FTS_F | FTS_INIT | FTS_NS | FTS_NSOK | FTS_SL | FTS_SLNONE | FTS_W
deriving DecidableEq, Repr

/-- One entry returned by `fts_read`, together with the result `del` of the
`rmdir` or `unlink` that the loop issues for it, when it issues one. -/
structure FTSENT where
  fts_info : FtsInfo
  fts_accpath : String
  del : SysRet
deriving DecidableEq, Repr

/-- A delete attempt of the walk. -/
inductive DeleteOp where
  | rmdir (path : String)
  | unlink (path : String)
deriving DecidableEq, Repr

namespace PosixEnv

/-- `DeleteFile(fname)`, given the result of `unlink`. -/
def DeleteFile (unlink : SysRet) (fname : String) : Status :=
  match unlink with
  | .fail e => IOError fname e
  | .ok _ => Status.OK

/-- `DeleteDir(name)`, given the result of `rmdir`. -/
def DeleteDir (rmdir : SysRet) (name : String) : Status :=
  match rmdir with
  | .fail e => IOError name e
  | .ok _ => Status.OK

/-- One iteration of the `fts_read` loop of `DeleteRecursively`: the new value
of `had_errors` and the delete attempt made, if any. -/
def visit (ent : FTSENT) (had_errors : Bool) : Bool × Option DeleteOp :=
  match ent.fts_info with
  | .FTS_D => (had_errors, none)
  | .FTS_DP =>
    let s := DeleteDir ent.del ent.fts_accpath
    (if !s.ok then true else had_errors, some (DeleteOp.rmdir ent.fts_accpath))
  | .FTS_F | .FTS_SL | .FTS_SLNONE | .FTS_DEFAULT =>
    let s := DeleteFile ent.del ent.fts_accpath
    (if !s.ok then true else had_errors, some (DeleteOp.unlink ent.fts_accpath))
  | .FTS_ERR => (true, none)
  | _ => (had_errors, none)

/-- The `fts_read` loop over the entries of the walk, from a value of
`had_errors`: the final `had_errors` and the delete attempts, in order. -/
def walkLoop : List FTSENT → Bool → Bool × List DeleteOp
  | [], had_errors => (had_errors, [])
  | ent :: rest, had_errors =>
    let v := visit ent had_errors
    let r := walkLoop rest v.1
    (r.1, v.2.toList ++ r.2)

/-- `DeleteRecursively(name)`, given the result of `fts_open` and the entries
`fts_read` returns.  The `CHECK_NE` sanity checks abort the process (`none`). -/
def DeleteRecursively (name : String) (fts_open : SysRet) (walk : List FTSENT) :
    Option (Status × List DeleteOp) :=
  if name = "/" ∨ name = "./" ∨ name = "." then none
  else
    match fts_open with
    | .fail e => some (IOError name e, [])
    | .ok _ =>
      let r := walkLoop walk false
      if r.1 then some (Status.IOError name (-1), r.2)
      else some (Status.OK, r.2)

end PosixEnv

/-! ## PosixEnv: background queue -/

/-- `BGItem`: one entry per `Schedule()` call. -/
structure BGItem where
  arg : Nat
  function : Nat
deriving DecidableEq, Repr

/-- The background-queue part of `PosixEnv` (`started_bgthread_`, `queue_`)
and the threads made by `pthread_create(&bgthread_, NULL,
&PosixEnv::BGThreadWrapper, this)`: for each, the item whose `function` it is
calling, or `none` while it is in the loop of `BGThread()` outside that
call. -/
structure BGState where
  started_bgthread : Bool
  queue : List BGItem
  workers : List (Option BGItem)
deriving DecidableEq, Repr

namespace BGState

/-- The state built by `PosixEnv::PosixEnv()`. -/
def init : BGState :=
  { started_bgthread := false, queue := [], workers := [] }

/-- `Schedule(function, arg)`: the body runs under `mu_`.  It creates the
background thread if none was started and pushes the item at the back of the
queue. -/
def Schedule (function arg : Nat) (s : BGState) : BGState :=
  let s1 : BGState :=
    if !s.started_bgthread then
      { s with started_bgthread := true, workers := s.workers ++ [none] }
    else s
  { s1 with queue := s1.queue ++ [{ arg := arg, function := function }] }

/-- One iteration of the loop of `BGThread()` in thread `i`, up to the call:
with `mu_` held and the queue not empty (the thread waits on `bgsignal_`
otherwise), it copies the front item and pops it; with `mu_` released it
calls `(*function)(arg)`.  The result is the item called and the new
state. -/
def BGThread (i : Nat) (s : BGState) : Option (BGItem × BGState) :=
  match s.workers.get? i with
  | some none =>
    match s.queue with
    | [] => none
    | item :: rest =>
      some (item, { s with queue := rest, workers := s.workers.set i (some item) })
  | _ => none

/-- The call `(*function)(arg)` of thread `i` returns and the thread is back
at the top of the loop.  The result is the item whose call returned and the
new state. -/
def callReturns (i : Nat) (s : BGState) : Option (BGItem × BGState) :=
  match s.workers.get? i with
  | some (some item) => some (item, { s with workers := s.workers.set i none })
  | _ => none

/-- The closures being executed, one per thread that is inside a call. -/
def running (s : BGState) : List BGItem := s.workers.filterMap id

end BGState

/-- What an observer sees of the background threads: a call of a closure
begins, a call of a closure returns. -/
inductive BGEvent where
  | start (item : BGItem)
  | finish (item : BGItem)
deriving DecidableEq, Repr

namespace BGEvent

/-- The closures whose call begins in a trace, in order. -/
def called : List BGEvent → List BGItem
  | [] => []
  | start item :: rest => item :: called rest
  | finish _ :: rest => called rest

/-- The trace in which the closures are called one after the other, each call
returning before the next begins. -/
def serial : List BGItem → List BGEvent
  | [] => []
  | item :: rest => start item :: finish item :: serial rest

end BGEvent

/-- The queue state together with what has happened so far, written down by an
observer and neither read nor written by `Schedule` or `BGThread`: the
closures submitted, in the order in which the `Schedule` calls held `mu_`, and
the trace of the calls made by the background threads. -/
structure BGRun where
  env : BGState
  submitted : List BGItem
  events : List BGEvent
deriving DecidableEq, Repr

namespace BGRun

/-- Nothing has happened on a new `PosixEnv`. -/
def init : BGRun := { env := BGState.init, submitted := [], events := [] }

/-- The atomic steps of the system: some caller runs `Schedule(function,
arg)`; some background thread takes an item and begins its call; the call of
some background thread returns. -/
inductive Step : BGRun → BGRun → Prop where
  | schedule (function arg : Nat) (r : BGRun) :
      Step r { env := r.env.Schedule function arg,
               submitted := r.submitted ++ [{ arg := arg, function := function }],
               events := r.events }
  | call (i : Nat) (item : BGItem) (e1 : BGState) (r : BGRun) :
      r.env.BGThread i = some (item, e1) →
      Step r { env := e1, submitted := r.submitted,
               events := r.events ++ [BGEvent.start item] }
  | ret (i : Nat) (item : BGItem) (e1 : BGState) (r : BGRun) :
      r.env.callReturns i = some (item, e1) →
      Step r { env := e1, submitted := r.submitted,
               events := r.events ++ [BGEvent.finish item] }

/-- The states reachable from the initial state. -/
inductive Reachable : BGRun → Prop where
  | init : Reachable BGRun.init
  | step (r r1 : BGRun) : Reachable r → Step r r1 → Reachable r1

/-- Three closures are submitted; the first has been called and has returned,
the second is being called, the third waits in the queue. -/
def example3 : BGRun :=
  { env := { started_bgthread := true, queue := [{ arg := 30, function := 3 }],
             workers := [some { arg := 20, function := 2 }] },
    submitted := [{ arg := 10, function := 1 }, { arg := 20, function := 2 },
                  { arg := 30, function := 3 }],
    events := [BGEvent.start { arg := 10, function := 1 },
               BGEvent.finish { arg := 10, function := 1 },
               BGEvent.start { arg := 20, function := 2 }] }

end BGRun

/-- One `Append` call per slice, in order; `oss k` holds the results of the
system calls of call number `k`. -/
def PosixMmapFile.appendCalls (oss : Nat → Nat → PosixMmapFile.RemapRet) :
    Nat → List (List Byte) → List MmapCall
  | _, [] => []
  | k, d :: ds => MmapCall.Append (oss k) d :: PosixMmapFile.appendCalls oss (k + 1) ds

/-- One `Append` call per slice, in order; `ws k` holds the results of the
`write` calls of call number `k`. -/
def PosixWritableFile.appendCalls (ws : Nat → Nat → Nat → SysRet) :
    Nat → List (List Byte) → List FileCall
  | _, [] => []
  | k, d :: ds => FileCall.Append (ws k) d :: PosixWritableFile.appendCalls ws (k + 1) ds

/-- No pre-allocation is recorded and the file ends where the window ends. -/
def View.Tight (v : View) : Prop := v.pre = 0 ∧ v.disk.length = v.file_offset + v.win

/-- The first status of the list that is not OK; OK when every one is. -/
def firstError : List Status → Status
  | [] => Status.OK
  | st :: rest => if st.ok then firstError rest else st

/-- The status of one step of a multi-step operation on file `filename`: the
mapped error when the step was attempted and its system call failed, OK
otherwise. -/
def stepStatus (attempted : Bool) (r : SysRet) (filename : String) : Status :=
  if attempted then
    match r with
    | .fail e => IOError filename e
    | .ok _ => Status.OK
  else Status.OK

/-- The kernel never places a mapping at address 0. -/
def PosixMmapFile.RemapRet.Sane (r : PosixMmapFile.RemapRet) : Prop :=
  ∀ a, r.mmap = SysRet.ok a → a ≠ NULL

/-- The results the call will see respect `RemapRet.Sane`. -/
def MmapCall.Sane : MmapCall → Prop
  | MmapCall.Append os _ => ∀ i, (os i).Sane
  | MmapCall.AppendVector os _ => ∀ b i, ((os b).remap i).Sane
  | _ => True

def MmapCall.isClose : MmapCall → Bool
  | MmapCall.Close _ _ _ => true
  | _ => false

/-- The cursor invariant of the mapped writer: either no window is mapped and
`base_`, `limit_`, `dst_` and `last_sync_` are all null, or a window is mapped
and `base_ ≤ last_sync_ ≤ dst_ ≤ limit_`, the window being `map_size_` bytes
long. -/
def PosixMmapFile.CursorInv (s : PosixMmapFile) : Prop :=
  (s.base = NULL ∧ s.limit = NULL ∧ s.dst = NULL ∧ s.last_sync = NULL) ∨
  (s.base ≠ NULL ∧ s.base ≤ s.last_sync ∧ s.last_sync ≤ s.dst ∧ s.dst ≤ s.limit ∧
    s.limit - s.base = s.map_size)

/-- The update of `map_size_` when `UnmapCurrentRegion` releases a mapped
window: `if (map_size_ < (1<<20)) map_size_ *= 2`. -/
def PosixMmapFile.nextMapSize (m : Nat) : Nat := if m < 2 ^ 20 then m * 2 else m

/-- The value `b` is obtained from `a` by some number of updates
`nextMapSize`. -/
def PosixMmapFile.Grown (a b : Nat) : Prop := ∃ n, b = PosixMmapFile.nextMapSize^[n] a

/-- The state of a mapped writer with page size 4 and first window 8 after
`Append("hello")`, `Sync()` and `Append("wo")`, the window mapped at address
4096: five bytes are synced and two are not. -/
def PosixMmapFile.exampleUnsynced : PosixMmapFile :=
  { filename := "f", fd := 3, page_size := 4, map_size := 8, base := 4096, limit := 4104,
    dst := 4103, last_sync := 4101, file_offset := 0, pre_allocated_size := 0,
    pending_sync := false, disk := [104, 101, 108, 108, 111, 119, 111, 0], errno := 0 }

/-- The total length of `n` windows mapped one after the other, the first of
length `m`, each next one of the length `nextMapSize` gives. -/
def PosixMmapFile.windowBytes (m : Nat) : Nat → Nat
  | 0 => 0
  | n + 1 => m + PosixMmapFile.windowBytes (PosixMmapFile.nextMapSize m) n

/-- Between a state with `map_size_ = m`, `file_offset_ = o` and a state with
`map_size_ = m1`, `file_offset_ = o1`, some number `n` of windows were
released: `file_offset_` grew by their total length and `map_size_` went
through `n` updates. -/
def PosixMmapFile.Released (m o m1 o1 : Nat) : Prop :=
  ∃ n, m1 = PosixMmapFile.nextMapSize^[n] m ∧ o1 = o + PosixMmapFile.windowBytes m n

end kudu

/-! # Properties -/

namespace kudu

/-! ## Files as byte lists -/

theorem ftruncateFile_length (d : List Byte) (r : Nat) : (ftruncateFile d r).length = r := by
  simp [ftruncateFile]; omega

theorem storeAt_length (d : List Byte) (off : Nat) (c : List Byte) :
    (storeAt d off c).length = d.length := by
  simp [storeAt]; omega

theorem storeAt_get? (d : List Byte) (off : Nat) (c : List Byte) (i : Nat)
    (h : off + c.length ≤ d.length) :
    (storeAt d off c).get? i =
      if i < off then d.get? i else if i < off + c.length then c.get? (i - off) else d.get? i := by
  unfold storeAt
  simp only [List.get?_eq_getElem?, List.getElem?_append, List.length_take, List.length_append,
    List.getElem?_take, List.getElem?_drop]
  split_ifs <;> first | rfl | omega | (congr 1; omega)

theorem ftruncateFile_get? (d : List Byte) (r i : Nat) :
    (ftruncateFile d r).get? i =
      if i < r then (if i < d.length then d.get? i else some 0) else none := by
  unfold ftruncateFile
  simp only [List.get?_eq_getElem?, List.getElem?_append, List.length_take,
    List.getElem?_take, List.getElem?_replicate]
  split_ifs <;> first | rfl | omega

theorem ftruncateFile_storeAt (d : List Byte) (off : Nat) (c : List Byte) (r : Nat)
    (h1 : off + c.length ≤ r) (h2 : off + c.length ≤ d.length) :
    ftruncateFile (storeAt d off c) r = storeAt (ftruncateFile d r) off c := by
  apply List.ext_get?
  intro i
  rw [ftruncateFile_get?, storeAt_length, storeAt_get? d off c i h2,
    storeAt_get? (ftruncateFile d r) off c i (by rw [ftruncateFile_length]; exact h1),
    ftruncateFile_get?]
  split_ifs <;> first | rfl | omega

theorem storeAt_storeAt (d : List Byte) (off : Nat) (a b : List Byte)
    (h : off + a.length + b.length ≤ d.length) :
    storeAt (storeAt d off a) (off + a.length) b = storeAt d off (a ++ b) := by
  apply List.ext_get?
  intro i
  rw [storeAt_get? _ _ _ _ (by rw [storeAt_length]; omega), storeAt_get? _ _ _ _ (by omega),
    storeAt_get? _ _ _ _ (by simp; omega)]
  simp only [List.get?_eq_getElem?, List.getElem?_append, List.length_append]
  split_ifs <;> first | rfl | omega | (congr 1; omega)

theorem pwriteFile_eq_storeAt (d : List Byte) (off : Nat) (c : List Byte)
    (h : off + c.length ≤ d.length) : pwriteFile d off c = storeAt d off c := by
  unfold pwriteFile storeAt
  by_cases hc : c = []
  · subst hc; simp
  · have h1 : off - d.length = 0 := by omega
    have h2 : c.length ≤ d.length - off := by omega
    simp [hc, h1, List.take_of_length_le h2]

theorem storeAt_take (d : List Byte) (off : Nat) (c : List Byte)
    (h : off + c.length ≤ d.length) : (storeAt d off c).take (off + c.length) = d.take off ++ c := by
  apply List.ext_get?
  intro i
  have hmin : min off d.length = off := by omega
  simp only [List.get?_eq_getElem?, List.getElem?_take, List.getElem?_append, List.length_take,
    hmin]
  have := storeAt_get? d off c i h
  simp only [List.get?_eq_getElem?] at this
  rw [this]
  split_ifs <;> first | rfl | omega | (symm; apply List.getElem?_eq_none; omega)

/-! ## Views -/

namespace View

theorem remap_WF {v : View} (h : v.WF) : v.remap.WF := by
  obtain ⟨h1, h2, h3, h4⟩ := h
  constructor
  · simp [remap]
  · simp only [remap]; split_ifs <;> omega
  · simp only [remap]; split_ifs <;> (try simp only [ftruncateFile_length]) <;> omega
  · simp only [remap]; split_ifs <;> (try simp only [ftruncateFile_length]) <;> omega

theorem remap_win_pos {v : View} (h : v.WF) : 0 < v.remap.win := by
  have := (remap_WF h).map_pos
  simpa [remap] using this

theorem step_WF {v : View} (h : v.WF) : v.step.WF := by
  unfold step
  split_ifs with hc
  · have hr := remap_WF h
    have hw := remap_win_pos h
    exact ⟨by simp [remap] at hw ⊢; omega, hr.map_pos, hr.win_le, hr.pre_le⟩
  · exact ⟨by simp; omega, h.map_pos, h.win_le, h.pre_le⟩

theorem size_step {v : View} (h : v.WF) : v.step.size = v.size + 1 := by
  have := h.pos_le
  unfold step size
  split_ifs with hc
  · simp [remap]; omega
  · simp; omega

theorem skip_WF {v : View} (h : v.WF) (n : Nat) : (v.skip n).WF := by
  induction n generalizing v with
  | zero => exact h
  | succ n ih => exact ih (step_WF h)

theorem size_skip {v : View} (h : v.WF) (n : Nat) : (v.skip n).size = v.size + n := by
  induction n generalizing v with
  | zero => rfl
  | succ n ih => rw [skip, ih (step_WF h), size_step h]; omega

theorem skip_add (v : View) (a b : Nat) : v.skip (a + b) = (v.skip a).skip b := by
  induction a generalizing v with
  | zero => simp [skip]
  | succ a ih => rw [Nat.succ_add, skip, skip, ih]

theorem skip_within (v : View) (k : Nat) (h : v.pos + k ≤ v.win) :
    v.skip k = { v with pos := v.pos + k } := by
  induction k generalizing v with
  | zero => rfl
  | succ k ih =>
    have hs : v.step = { v with pos := v.pos + 1 } := by
      unfold step; rw [if_neg (by omega)]
    rw [skip, hs, ih _ (by simp; omega)]
    simp; omega

theorem step_remap {v : View} (h : v.WF) (hfull : v.win - v.pos = 0) : v.remap.step = v.step := by
  have hw := remap_win_pos h
  have hp : v.remap.pos = 0 := rfl
  conv_lhs => unfold step
  rw [if_neg (by omega)]
  conv_rhs => unfold step
  rw [if_pos hfull]

theorem skip_remap {v : View} (h : v.WF) (hfull : v.win - v.pos = 0) (n : Nat) (hn : 0 < n) :
    v.remap.skip n = v.skip n := by
  obtain ⟨m, rfl⟩ : ∃ m, n = m + 1 := ⟨n - 1, by omega⟩
  rw [skip, skip, step_remap h hfull]

theorem step_store {v : View} (h : v.WF) (off : Nat) (c : List Byte)
    (hc : off + c.length ≤ v.size) :
    (v.withDisk (storeAt v.disk off c)).step = v.step.withDisk (storeAt v.step.disk off c) := by
  obtain ⟨h1, h2, h3, h4⟩ := h
  unfold step withDisk size at *
  simp only
  split_ifs with hf
  · simp only [remap, storeAt_length]
    split_ifs <;>
      first
      | rfl
      | rw [ftruncateFile_storeAt _ _ _ _ (by omega) (by omega)]
  · rfl

theorem withDisk_WF {v : View} (h : v.WF) (d : List Byte) (hd : d.length = v.disk.length) :
    (v.withDisk d).WF := by
  obtain ⟨h1, h2, h3, h4⟩ := h
  exact ⟨h1, h2, by simp [withDisk, hd]; exact h3, by simp [withDisk, hd]; exact h4⟩

theorem skip_store {v : View} (h : v.WF) (off : Nat) (c : List Byte)
    (hc : off + c.length ≤ v.size) (n : Nat) :
    (v.withDisk (storeAt v.disk off c)).skip n
      = (v.skip n).withDisk (storeAt (v.skip n).disk off c) := by
  induction n generalizing v with
  | zero => rfl
  | succ n ih =>
    rw [skip, skip, step_store h off c hc]
    exact ih (step_WF h) (by rw [size_step h]; omega)

theorem size_le_disk {v : View} (h : v.WF) : v.size ≤ v.disk.length := by
  obtain ⟨h1, h2, h3, h4⟩ := h
  unfold size; omega

theorem puts_eq {v : View} (h : v.WF) (data : List Byte) :
    v.puts data = (v.skip data.length).withDisk (storeAt (v.skip data.length).disk v.size data) := by
  induction data generalizing v with
  | nil =>
    simp [puts, skip, withDisk, storeAt]
  | cons b rest ih =>
    have hs := step_WF h
    have hput : v.put b = v.step.withDisk (storeAt v.step.disk v.size [b]) := rfl
    have hputWF : (v.put b).WF := by
      rw [hput]; exact withDisk_WF hs _ (storeAt_length _ _ _)
    have hsz : (v.put b).size = v.size + 1 := by
      rw [hput]; exact size_step h
    show (v.put b).puts rest = _
    rw [ih hputWF, hsz, hput, skip_store hs v.size [b] (by rw [size_step h]; simp)]
    simp only [withDisk, List.length_cons, skip]
    have hlen := size_le_disk (skip_WF hs rest.length)
    rw [size_skip hs, size_step h] at hlen
    have := storeAt_storeAt (v.step.skip rest.length).disk v.size [b] rest
      (by simp; omega)
    simp only [List.length_singleton, List.singleton_append] at this
    rw [this]

theorem puts_append (v : View) (a b : List Byte) : v.puts (a ++ b) = (v.puts a).puts b := by
  simp [puts, List.foldl_append]

theorem puts_WF {v : View} (h : v.WF) (data : List Byte) : (v.puts data).WF := by
  rw [puts_eq h]
  exact withDisk_WF (skip_WF h _) _ (storeAt_length _ _ _)

theorem size_puts {v : View} (h : v.WF) (data : List Byte) :
    (v.puts data).size = v.size + data.length := by
  rw [puts_eq h]; exact size_skip h _

theorem puts_within {v : View} (h : v.WF) (c : List Byte) (hc : v.pos + c.length ≤ v.win) :
    v.puts c = { v with disk := storeAt v.disk v.size c, pos := v.pos + c.length } := by
  rw [puts_eq h, skip_within v _ hc]; rfl

theorem puts_remap {v : View} (h : v.WF) (hfull : v.win - v.pos = 0) (data : List Byte)
    (hd : data ≠ []) : v.remap.puts data = v.puts data := by
  have hsz : v.remap.size = v.size := by
    have := h.pos_le
    simp [remap, size]; omega
  rw [puts_eq h, puts_eq (remap_WF h), hsz,
    skip_remap h hfull _ (List.length_pos.mpr hd)]

end View

/-! ## The mapped writer when every system call succeeds -/

namespace PosixMmapFile

theorem storeAt_nil (d : List Byte) (off : Nat) : storeAt d off [] = d := by
  simp [storeAt]

theorem WF.view {s : PosixMmapFile} (h : s.WF) : s.view.WF := by
  obtain ⟨h1, h2, h3, h4, h5⟩ := h
  refine ⟨?_, h3, h4, h5⟩
  simp only [PosixMmapFile.view]
  by_cases hb : s.base = NULL
  · have := h1 hb; simp only [NULL] at *; omega
  · have := h2 hb; omega

theorem remapFails_ok {s : PosixMmapFile} {r : RemapRet} (h : s.WF) (hr : r.AllOk) :
    (remapFails r s).1 = false ∧ (remapFails r s).2.view = s.view.remap ∧
      (remapFails r s).2.WF ∧ 0 < (remapFails r s).2.limit - (remapFails r s).2.dst := by
  obtain ⟨h1, h2, h3, h4, h5⟩ := h
  obtain ⟨mu, ft, mm⟩ := r
  obtain ⟨hm, hf, a, ha, ha0⟩ := hr
  simp only at hm hf ha
  subst ha
  cases mu <;> simp only [SysRet.isFail] at hm <;> try contradiction
  cases ft <;> simp only [SysRet.isFail] at hf <;> try contradiction
  simp only [NULL] at *
  by_cases hb : s.base = 0
  · obtain ⟨hl, hd⟩ := h1 hb
    simp only [remapFails, UnmapCurrentRegion, MapNewRegion, NULL, SysRet.isFail,
      PosixMmapFile.view, View.remap, hb, hl, hd]
    simp
    refine ⟨⟨?_, ?_, ?_, ?_, ?_⟩, h3⟩ <;> (try simp only [NULL]) <;>
      (try split_ifs) <;> (try simp only [ftruncateFile_length]) <;> omega
  · have := h2 hb
    simp only [remapFails, UnmapCurrentRegion, MapNewRegion, NULL, SysRet.isFail,
      PosixMmapFile.view, View.remap]
    have hw : ¬ (s.limit - s.base = 0) := by omega
    simp [hb, hw]
    refine ⟨⟨?_, ?_, ?_, ?_, ?_⟩, ?_⟩ <;> (try simp only [NULL]) <;>
      (try split_ifs) <;> (try simp only [ftruncateFile_length]) <;> omega


theorem AdvanceLoop_ok (os : Nat → RemapRet) (hos : ∀ i, (os i).AllOk) :
    ∀ (fuel i : Nat) (s : PosixMmapFile) (left : Nat), s.WF →
      2 * left + (if s.limit - s.dst = 0 then 1 else 0) < fuel →
      ∃ s1, AdvanceLoop os fuel i s left = some (true, s1) ∧ s1.view = s.view.skip left ∧ s1.WF := by
  intro fuel
  induction fuel with
  | zero => intro i s left _ h; omega
  | succ fuel ih =>
    intro i s left hs hfuel
    unfold AdvanceLoop
    by_cases hl : left > 0
    · rw [if_pos hl]
      by_cases ha : s.limit - s.dst = 0
      · obtain ⟨r1, r2, r3, r4⟩ := remapFails_ok hs (hos i)
        simp only [ha, if_true, r1]
        have hn : (if left ≤ 0 then left else 0) = 0 := by rw [if_neg (by omega)]
        simp only [hn]
        obtain ⟨s1, e1, e2, e3⟩ := ih (i + 1) (remapFails (os i) s).2 left r3
          (by rw [if_neg (by omega)]; rw [if_pos ha] at hfuel; omega)
        refine ⟨s1, ?_, ?_, e3⟩
        · simpa using e1
        · rw [e2, r2]
          have hv := hs.view
          exact View.skip_remap hv (by
            have := hs.null; have := hs.mapped
            simp only [PosixMmapFile.view, NULL] at *
            omega) left hl
      · rw [if_neg ha] at hfuel
        simp only [ha, if_false, Bool.false_eq_true]
        have hb : s.base ≠ NULL := by
          intro hb; have := hs.null hb; simp only [NULL] at *; omega
        obtain ⟨m1, m2, m3⟩ := hs.mapped hb
        have hn1 : 1 ≤ (if left ≤ s.limit - s.dst then left else s.limit - s.dst) := by
          split_ifs <;> omega
        have hn2 : (if left ≤ s.limit - s.dst then left else s.limit - s.dst) ≤ left := by
          split_ifs <;> omega
        have hn3 : (if left ≤ s.limit - s.dst then left else s.limit - s.dst) ≤ s.limit - s.dst := by
          split_ifs <;> omega
        generalize (if left ≤ s.limit - s.dst then left else s.limit - s.dst) = n at *
        have hs1 : ({ s with dst := s.dst + n } : PosixMmapFile).WF := by
          obtain ⟨h1, h2, h3, h4, h5⟩ := hs
          refine ⟨?_, ?_, h3, h4, h5⟩
          · intro h; exact absurd h hb
          · intro _; simp only; omega
        obtain ⟨s1, e1, e2, e3⟩ := ih (i + 1) { s with dst := s.dst + n } (left - n) hs1
          (by simp only; split_ifs <;> omega)
        refine ⟨s1, e1, ?_, e3⟩
        rw [e2]
        have hv : ({ s with dst := s.dst + n } : PosixMmapFile).view = s.view.skip n := by
          rw [View.skip_within _ _ (by simp only [PosixMmapFile.view]; omega)]
          simp only [PosixMmapFile.view]
          congr 1; omega
        rw [hv, ← View.skip_add]
        congr 1; omega
    · rw [if_neg hl]
      have : left = 0 := by omega
      subst this
      exact ⟨s, rfl, rfl, hs⟩


theorem AppendLoop_ok (os : Nat → RemapRet) (hos : ∀ i, (os i).AllOk) :
    ∀ (fuel i : Nat) (s : PosixMmapFile) (src : List Byte), s.WF →
      2 * src.length + (if s.limit - s.dst = 0 then 1 else 0) < fuel →
      ∃ s1, AppendLoop os fuel i s src = some (Status.OK, s1) ∧ s1.view = s.view.puts src ∧
        s1.WF := by
  intro fuel
  induction fuel with
  | zero => intro i s src _ h; omega
  | succ fuel ih =>
    intro i s src hs hfuel
    unfold AppendLoop
    by_cases hl : src.length > 0
    · simp only [hl, if_true]
      have hne : src ≠ [] := List.length_pos.mp hl
      by_cases ha : s.limit - s.dst = 0
      · obtain ⟨r1, r2, r3, r4⟩ := remapFails_ok hs (hos i)
        simp only [ha, if_true, r1]
        have hn : (if src.length ≤ 0 then src.length else 0) = 0 := by rw [if_neg (by omega)]
        simp only [hn]
        obtain ⟨s1, e1, e2, e3⟩ := ih (i + 1) (remapFails (os i) s).2 src r3
          (by rw [if_neg (by omega)]; rw [if_pos ha] at hfuel; omega)
        refine ⟨s1, ?_, ?_, e3⟩
        · simpa [storeAt_nil] using e1
        · rw [e2, r2]
          have hv := hs.view
          exact View.puts_remap hv (by
            have := hs.null; have := hs.mapped
            simp only [PosixMmapFile.view, NULL] at *
            omega) src hne
      · rw [if_neg ha] at hfuel
        simp only [ha, if_false, Bool.false_eq_true]
        have hb : s.base ≠ NULL := by
          intro hb; have := hs.null hb; simp only [NULL] at *; omega
        obtain ⟨m1, m2, m3⟩ := hs.mapped hb
        have hn1 : 1 ≤ (if src.length ≤ s.limit - s.dst then src.length else s.limit - s.dst) := by
          split_ifs <;> omega
        have hn2 : (if src.length ≤ s.limit - s.dst then src.length else s.limit - s.dst)
            ≤ src.length := by
          split_ifs <;> omega
        have hn3 : (if src.length ≤ s.limit - s.dst then src.length else s.limit - s.dst)
            ≤ s.limit - s.dst := by
          split_ifs <;> omega
        generalize (if src.length ≤ s.limit - s.dst then src.length else s.limit - s.dst) = n at *
        have hs1 : ({ s with disk := storeAt s.disk (s.file_offset + (s.dst - s.base)) (src.take n),
                             dst := s.dst + n } : PosixMmapFile).WF := by
          obtain ⟨h1, h2, h3, h4, h5⟩ := hs
          refine ⟨?_, ?_, h3, ?_, ?_⟩
          · intro h; exact absurd h hb
          · intro _; simp only; omega
          · simp only [storeAt_length]; exact h4
          · simp only [storeAt_length]; exact h5
        obtain ⟨s1, e1, e2, e3⟩ := ih (i + 1) _ (src.drop n) hs1
          (by simp only [List.length_drop]; split_ifs <;> omega)
        refine ⟨s1, e1, ?_, e3⟩
        rw [e2]
        have hlen : (src.take n).length = n := by simp; omega
        have hv : ({ s with disk := storeAt s.disk (s.file_offset + (s.dst - s.base)) (src.take n),
                            dst := s.dst + n } : PosixMmapFile).view = s.view.puts (src.take n) := by
          rw [View.puts_within hs.view _ (by simp only [PosixMmapFile.view, hlen]; omega)]
          simp only [PosixMmapFile.view, View.size, hlen]
          congr 1; omega
        rw [hv, ← View.puts_append, List.take_append_drop]
    · simp only [hl, if_false]
      have : src = [] := by
        cases src with
        | nil => rfl
        | cons a t => simp at hl
      subst this
      exact ⟨s, rfl, rfl, hs⟩

end PosixMmapFile

namespace PosixMmapFile

theorem Append_ok {os : Nat → RemapRet} (hos : ∀ i, (os i).AllOk) {s : PosixMmapFile}
    (hs : s.WF) (data : List Byte) (fuel : Nat) (hfuel : 2 * data.length + 2 ≤ fuel) :
    ∃ s1, Append os fuel data s = some (Status.OK, s1) ∧ s1.view = s.view.puts data ∧ s1.WF := by
  unfold Append
  exact AppendLoop_ok os hos fuel 0 s data hs (by split_ifs <;> omega)

theorem DoWritev_ok {w : WritevRet} (hw : w.AllOk) {s : PosixMmapFile} (hs : s.WF)
    (slices : List (List Byte)) (fuel : Nat) (hfuel : 2 * slices.flatten.length + 2 ≤ fuel) :
    ∃ s1, DoWritev w fuel slices s = some (Status.OK, s1) ∧
      s1.view = s.view.puts slices.flatten ∧ s1.WF := by
  obtain ⟨hr, hp⟩ := hw
  have hsum : (slices.map List.length).sum = slices.flatten.length := by
    rw [List.length_flatten]
  obtain ⟨s1, e1, e2, e3⟩ := AdvanceLoop_ok w.remap hr fuel 0 s slices.flatten.length hs
    (by split_ifs <;> omega)
  unfold DoWritev
  simp only [hsum, e1, hp, List.take_length, ne_eq, not_true_eq_false, if_false]
  have hlen := View.size_le_disk (View.skip_WF hs.view slices.flatten.length)
  rw [View.size_skip hs.view, ← e2] at hlen
  have hd : s1.view.disk = s1.disk := rfl
  have hsz : s.view.size = s.file_offset + (s.dst - s.base) := rfl
  rw [hd, hsz] at hlen
  refine ⟨_, rfl, ?_, ?_⟩
  · rw [View.puts_eq hs.view, ← e2, pwriteFile_eq_storeAt _ _ _ hlen]
    rfl
  · obtain ⟨h1, h2, h3, h4, h5⟩ := e3
    rw [pwriteFile_eq_storeAt _ _ _ hlen]
    exact ⟨h1, h2, h3, by simp only [storeAt_length]; exact h4,
      by simp only [storeAt_length]; exact h5⟩

theorem flatten_take_length_le (l : List (List Byte)) (n : Nat) :
    (l.take n).flatten.length ≤ l.flatten.length := by
  conv_rhs => rw [← List.take_append_drop n l, List.flatten_append, List.length_append]
  omega

theorem AppendVectorLoop_ok {iov_max : Nat} (hiov : 0 < iov_max) {os : Nat → WritevRet}
    (hos : ∀ b, (os b).AllOk) (fuel : Nat) :
    ∀ (k b : Nat) (rest : List (List Byte)) (s : PosixMmapFile), s.WF → rest.length < k →
      2 * rest.flatten.length + 2 ≤ fuel →
      ∃ s1, AppendVectorLoop iov_max os fuel k b rest s = some (Status.OK, s1) ∧
        s1.view = s.view.puts rest.flatten ∧ s1.WF := by
  intro k
  induction k with
  | zero => intro b rest s _ h; omega
  | succ k ih =>
    intro b rest s hs hk hfuel
    unfold AppendVectorLoop
    by_cases hl : rest.length > 0
    · simp only [hl, if_true]
      have hn1 : 1 ≤ min rest.length iov_max := by omega
      generalize min rest.length iov_max = n at *
      obtain ⟨s1, e1, e2, e3⟩ := DoWritev_ok (hos b) hs (rest.take n) fuel
        (by have := flatten_take_length_le rest n; omega)
      obtain ⟨s2, f1, f2, f3⟩ := ih (b + 1) (rest.drop n) s1 e3
        (by simp only [List.length_drop]; omega)
        (by
          have : (rest.drop n).flatten.length ≤ rest.flatten.length := by
            conv_rhs => rw [← List.take_append_drop n rest, List.flatten_append,
              List.length_append]
            omega
          omega)
      refine ⟨s2, ?_, ?_, f3⟩
      · simp only [e1, Status.ok, if_true, f1]
      · rw [f2, e2, ← View.puts_append, ← List.flatten_append, List.take_append_drop]
    · simp only [hl, if_false]
      have : rest = [] := by
        cases rest with
        | nil => rfl
        | cons a t => simp at hl
      subst this
      exact ⟨s, rfl, rfl, hs⟩

theorem AppendVector_ok {iov_max : Nat} (hiov : 0 < iov_max) {os : Nat → WritevRet}
    (hos : ∀ b, (os b).AllOk) {s : PosixMmapFile} (hs : s.WF) (dv : List (List Byte))
    (fuel : Nat) (hfuel : 2 * dv.flatten.length + dv.length + 2 ≤ fuel) :
    ∃ s1, AppendVector iov_max os fuel dv s = some (Status.OK, s1) ∧
      s1.view = s.view.puts dv.flatten ∧ s1.WF := by
  obtain ⟨s1, e1, e2, e3⟩ := AppendVectorLoop_ok hiov hos fuel fuel 0 dv s hs (by omega) (by omega)
  unfold AppendVector
  simp only [e1, Status.ok, if_true]
  refine ⟨_, rfl, e2, ?_⟩
  obtain ⟨h1, h2, h3, h4, h5⟩ := e3
  exact ⟨h1, h2, h3, h4, h5⟩

theorem run_appends_ok {iov_max : Nat} (hiov : 0 < iov_max) (fuel : Nat) :
    ∀ (calls : List MmapCall) (s : PosixMmapFile), s.WF →
      (∀ c ∈ calls, c.isAppend = true ∧ c.AllOk ∧ c.cost ≤ fuel) →
      ∃ sts s1, run iov_max fuel calls s = some (sts, s1) ∧ (∀ st ∈ sts, st = Status.OK) ∧
        sts.length = calls.length ∧
        s1.view = s.view.puts (calls.map MmapCall.bytes).flatten ∧ s1.WF := by
  intro calls
  induction calls with
  | nil => intro s hs _; exact ⟨[], s, rfl, by simp, rfl, rfl, hs⟩
  | cons c cs ih =>
    intro s hs hc
    obtain ⟨ha, hok, hcost⟩ := hc c (List.mem_cons_self _ _)
    have hstep : ∃ s1, c.exec iov_max fuel s = some (Status.OK, s1) ∧
        s1.view = s.view.puts c.bytes ∧ s1.WF := by
      cases c with
      | Append os data => exact Append_ok hok hs data fuel hcost
      | AppendVector os dv => exact AppendVector_ok hiov hok hs dv fuel hcost
      | PreAllocate _ _ => simp [MmapCall.isAppend] at ha
      | Sync _ _ => simp [MmapCall.isAppend] at ha
      | Close _ _ _ => simp [MmapCall.isAppend] at ha
    obtain ⟨s1, e1, e2, e3⟩ := hstep
    obtain ⟨sts, s2, f1, f2, f3, f4, f5⟩ := ih s1 e3 (fun c hc' => hc c (List.mem_cons_of_mem _ hc'))
    refine ⟨Status.OK :: sts, s2, ?_, ?_, ?_, ?_, f5⟩
    · simp only [run, e1, f1]
    · intro st hst
      rcases List.mem_cons.mp hst with h | h
      · exact h
      · exact f2 st h
    · simp [f3]
    · rw [f4, e2, ← View.puts_append]
      simp

end PosixMmapFile

namespace View

theorem step_Tight {v : View} (h : v.Tight) : v.step.Tight := by
  obtain ⟨h1, h2⟩ := h
  unfold step Tight
  split_ifs with hc
  · simp only [remap, h1]
    refine ⟨trivial, ?_⟩
    rw [if_pos (by omega), ftruncateFile_length]
  · exact ⟨h1, h2⟩

theorem skip_Tight {v : View} (h : v.Tight) (n : Nat) : (v.skip n).Tight := by
  induction n generalizing v with
  | zero => exact h
  | succ n ih => exact ih (step_Tight h)

theorem puts_Tight {v : View} (hw : v.WF) (h : v.Tight) (data : List Byte) :
    (v.puts data).Tight := by
  rw [puts_eq hw]
  obtain ⟨h1, h2⟩ := skip_Tight h data.length
  exact ⟨h1, by simp only [withDisk, storeAt_length]; exact h2⟩

theorem ftruncateFile_take (d : List Byte) (r k : Nat) (h1 : k ≤ r) (h2 : k ≤ d.length) :
    (ftruncateFile d r).take k = d.take k := by
  apply List.ext_get?
  intro i
  have := ftruncateFile_get? d r i
  simp only [List.get?_eq_getElem?] at this
  simp only [List.get?_eq_getElem?, List.getElem?_take, this]
  split_ifs <;> first | rfl | omega

theorem step_disk_take {v : View} (hw : v.WF) (k : Nat) (hk : k ≤ v.size) :
    v.step.disk.take k = v.disk.take k := by
  obtain ⟨h1, h2, h3, h4⟩ := hw
  unfold size at hk
  unfold step
  split_ifs with hc
  · simp only [remap]
    split_ifs <;>
      first
      | rfl
      | exact ftruncateFile_take _ _ _ (by omega) (by omega)
  · rfl

theorem skip_disk_take {v : View} (hw : v.WF) (n k : Nat) (hk : k ≤ v.size) :
    (v.skip n).disk.take k = v.disk.take k := by
  induction n generalizing v with
  | zero => rfl
  | succ n ih =>
    rw [skip, ih (step_WF hw) (by rw [size_step hw]; omega), step_disk_take hw k hk]

theorem puts_disk_take {v : View} (hw : v.WF) (data : List Byte) :
    (v.puts data).disk.take (v.puts data).size = v.disk.take v.size ++ data := by
  rw [size_puts hw, puts_eq hw]
  simp only [withDisk]
  have hlen := size_le_disk (skip_WF hw data.length)
  rw [size_skip hw] at hlen
  rw [storeAt_take _ _ _ hlen]
  rw [skip_disk_take hw _ _ (le_refl _)]

end View

namespace PosixMmapFile

theorem createWithWindow_WF (fname : String) (fd : Int) (page_size w : Nat) (hw : 0 < w) :
    (createWithWindow fname fd page_size w).WF := by
  refine ⟨?_, ?_, hw, ?_, ?_⟩ <;> simp [createWithWindow, create, NULL]

theorem createWithWindow_Tight (fname : String) (fd : Int) (page_size w : Nat) :
    (createWithWindow fname fd page_size w).view.Tight := by
  simp [createWithWindow, create, NULL, View.Tight, PosixMmapFile.view]

theorem run_concat (iov_max fuel : Nat) (a b : List MmapCall) (s : PosixMmapFile) :
    run iov_max fuel (a ++ b) s =
      match run iov_max fuel a s with
      | none => none
      | some (sts, s1) =>
        match run iov_max fuel b s1 with
        | none => none
        | some (sts2, s2) => some (sts ++ sts2, s2) := by
  induction a generalizing s with
  | nil =>
    simp only [List.nil_append, run]
    cases run iov_max fuel b s with
    | none => rfl
    | some r => rfl
  | cons c cs ih =>
    show run iov_max fuel (c :: (cs ++ b)) s = _
    simp only [run]
    cases c.exec iov_max fuel s with
    | none => rfl
    | some r =>
      obtain ⟨st, s1⟩ := r
      simp only [ih]
      cases run iov_max fuel cs s1 with
      | none => rfl
      | some r1 =>
        obtain ⟨sts, s2⟩ := r1
        simp only
        cases run iov_max fuel b s2 with
        | none => rfl
        | some r2 => rfl

theorem Close_ok_disk {s : PosixMmapFile} (hs : s.WF) (ht : s.view.Tight)
    {m f c : SysRet} (hm : m.isFail = false) (hf : f.isFail = false) (hc : c.isFail = false) :
    (Close m f c s).1 = Status.OK ∧ (Close m f c s).2.disk = s.disk.take s.Size := by
  obtain ⟨h1, h2, h3, h4, h5⟩ := hs
  obtain ⟨t1, t2⟩ := ht
  simp only [PosixMmapFile.view] at t1 t2
  cases m <;> simp only [SysRet.isFail] at hm <;> try contradiction
  cases f <;> simp only [SysRet.isFail] at hf <;> try contradiction
  cases c <;> simp only [SysRet.isFail] at hc <;> try contradiction
  simp only [NULL] at *
  by_cases hb : s.base = 0
  · obtain ⟨hl, hd⟩ := h1 hb
    simp [Close, UnmapCurrentRegion, NULL, hb, hl, hd, Size, SysRet.isFail]
    omega
  · obtain ⟨m1, m2, m3⟩ := h2 hb
    by_cases hu : s.limit - s.dst > 0
    · simp [Close, UnmapCurrentRegion, NULL, hb, Size, SysRet.isFail, hu, ftruncateFile]
      have hA : s.file_offset + (s.limit - s.base) - (s.limit - s.dst)
          = s.file_offset + (s.dst - s.base) := by omega
      rw [hA]
      have hz : s.file_offset + (s.dst - s.base) - s.disk.length = 0 := by omega
      simp [hz]
    · simp [Close, UnmapCurrentRegion, NULL, hb, Size, SysRet.isFail, hu, ftruncateFile]
      omega

end PosixMmapFile

section
open PosixMmapFile

theorem appendCalls_props (oss : Nat → Nat → RemapRet) (hoss : ∀ k i, (oss k i).AllOk)
    (fuel : Nat) :
    ∀ (chunks : List (List Byte)) (k : Nat),
      (∀ d ∈ chunks, 2 * d.length + 2 ≤ fuel) →
      (∀ c ∈ appendCalls oss k chunks, c.isAppend = true ∧ c.AllOk ∧ c.cost ≤ fuel) ∧
      (appendCalls oss k chunks).map MmapCall.bytes = chunks ∧
      (appendCalls oss k chunks).length = chunks.length := by
  intro chunks
  induction chunks with
  | nil => intro k _; simp [appendCalls]
  | cons d ds ih =>
    intro k hf
    obtain ⟨i1, i2, i3⟩ := ih (k + 1) (fun d hd => hf d (List.mem_cons_of_mem _ hd))
    refine ⟨?_, ?_, ?_⟩
    · intro c hc
      simp only [appendCalls, List.mem_cons] at hc
      rcases hc with rfl | hc
      · exact ⟨rfl, hoss k, hf d (List.mem_cons_self _ _)⟩
      · exact i1 c hc
    · simp only [appendCalls, List.map_cons, MmapCall.bytes, i2]
    · simp only [appendCalls, List.length_cons, i3]

/-- C1 (fails on the code): a freshly created mapped writer on which
`PreAllocate(N)` is the only call before `Sync` and `Close`, every system call
succeeding, is left with a file of `N` zero bytes, although no byte was
appended: `Close` trims only when the current window has unused room.  In
the same way, with a first window of 4 bytes, `PreAllocate(20)` followed by
one `Append` of 4 bytes, `Sync` and `Close` leaves a file of 20 bytes. -/
theorem C1_close_keeps_preallocated_tail (fname : String) (fd : Int) (page_size : Nat)
    (iov_max fuel N : Nat) :
    (∃ s1, PosixMmapFile.run iov_max fuel
        [MmapCall.PreAllocate (SysRet.ok 0) N, MmapCall.Sync (SysRet.ok 0) (SysRet.ok 0),
         MmapCall.Close (SysRet.ok 0) (SysRet.ok 0) (SysRet.ok 0)]
        (PosixMmapFile.create fname fd page_size)
      = some ([Status.OK, Status.OK, Status.OK], s1) ∧
      s1.disk = List.replicate N 0 ∧ s1.disk.length = N) ∧
    (PosixMmapFile.run 1024 10
        [MmapCall.PreAllocate (SysRet.ok 0) 20,
         MmapCall.Append (fun _ => RemapRet.mk (SysRet.ok 0) (SysRet.ok 0) (SysRet.ok 4096))
            [1, 2, 3, 4],
         MmapCall.Sync (SysRet.ok 0) (SysRet.ok 0),
         MmapCall.Close (SysRet.ok 0) (SysRet.ok 0) (SysRet.ok 0)]
        (createWithWindow "f" 3 4096 4)).map (fun r => (r.1, r.2.disk))
      = some ([Status.OK, Status.OK, Status.OK, Status.OK],
          [1, 2, 3, 4, 0, 0, 0, 0, 0, 0, 0, 0, 0, 0, 0, 0, 0, 0, 0, 0]) := by
  refine ⟨⟨_, rfl, ?_, ?_⟩, by decide⟩ <;>
    simp [PosixMmapFile.PreAllocate, PosixMmapFile.Sync, PosixMmapFile.Close,
      UnmapCurrentRegion, create, NULL, fallocateFile]

/-- C2: a freshly created mapped writer with initial window `w > 0` and no
pre-allocation, every system call succeeding: after one `Append` per chunk, in
order, and `Close`, every call has returned OK and the file holds exactly the
concatenation of the chunks (stated for chunk lists longer in total than `w`,
so that the window is switched at least once). -/
theorem C2_mapped_append_then_close (fname : String) (fd : Int) (page_size w : Nat)
    (hw : 0 < w) (chunks : List (List Byte)) (_htotal : w < chunks.flatten.length)
    (oss : Nat → Nat → RemapRet) (hoss : ∀ k i, (oss k i).AllOk)
    (m f c : SysRet) (hm : m.isFail = false) (hf : f.isFail = false) (hc : c.isFail = false)
    (iov_max fuel : Nat) (hiov : 0 < iov_max) (hfuel : ∀ d ∈ chunks, 2 * d.length + 2 ≤ fuel) :
    ∃ sts s1, PosixMmapFile.run iov_max fuel
        (appendCalls oss 0 chunks ++ [MmapCall.Close m f c])
        (createWithWindow fname fd page_size w) = some (sts, s1) ∧
      (∀ st ∈ sts, st = Status.OK) ∧ sts.length = chunks.length + 1 ∧
      s1.disk = chunks.flatten := by
  obtain ⟨p1, p2, p3⟩ := appendCalls_props oss hoss fuel chunks 0 hfuel
  obtain ⟨sts, s1, e1, e2, e3, e4, e5⟩ := run_appends_ok hiov fuel (appendCalls oss 0 chunks)
    (createWithWindow fname fd page_size w) (createWithWindow_WF fname fd page_size w hw) p1
  rw [p2] at e4
  have hv0 := (createWithWindow_WF fname fd page_size w hw).view
  have ht : s1.view.Tight := by
    rw [e4]; exact View.puts_Tight hv0 (createWithWindow_Tight fname fd page_size w) _
  obtain ⟨c1, c2⟩ := Close_ok_disk e5 ht hm hf hc
  refine ⟨sts ++ [Status.OK], (Close m f c s1).2, ?_, ?_, ?_, ?_⟩
  · rw [run_concat, e1]
    simp only [run, MmapCall.exec, c1]
  · intro st hst
    rcases List.mem_append.mp hst with h | h
    · exact e2 st h
    · simpa using h
  · simp [e3, p3]
  · rw [c2]
    have := View.puts_disk_take hv0 chunks.flatten
    rw [← e4] at this
    simpa [createWithWindow, create, NULL, PosixMmapFile.view, View.size] using this

theorem okRemap_AllOk : (RemapRet.mk (SysRet.ok 0) (SysRet.ok 0) (SysRet.ok 4096)).AllOk :=
  ⟨rfl, rfl, 4096, rfl, by decide⟩

theorem C2_hello_world :
    ∃ sts s1, PosixMmapFile.run 1024 14
        (appendCalls (fun _ _ => RemapRet.mk (SysRet.ok 0) (SysRet.ok 0) (SysRet.ok 4096)) 0
            [[104, 101, 108, 108, 111], [32, 119, 111, 114, 108, 100]]
          ++ [MmapCall.Close (SysRet.ok 0) (SysRet.ok 0) (SysRet.ok 0)])
        (createWithWindow "f" 3 4096 4) = some (sts, s1) ∧
      (∀ st ∈ sts, st = Status.OK) ∧ sts.length = 3 ∧
      s1.disk = [104, 101, 108, 108, 111, 32, 119, 111, 114, 108, 100] :=
  C2_mapped_append_then_close "f" 3 4096 4 (by decide)
    [[104, 101, 108, 108, 111], [32, 119, 111, 114, 108, 100]] (by decide)
    (fun _ _ => RemapRet.mk (SysRet.ok 0) (SysRet.ok 0) (SysRet.ok 4096))
    (fun _ _ => okRemap_AllOk) (SysRet.ok 0) (SysRet.ok 0) (SysRet.ok 0) rfl rfl rfl
    1024 14 (by decide) (by decide)

theorem pwriteFile_nil (d : List Byte) (p : Nat) : pwriteFile d p [] = d := by
  simp [pwriteFile]

theorem pwriteFile_get? (d : List Byte) (p : Nat) (c : List Byte) (hc : c ≠ []) (i : Nat) :
    (pwriteFile d p c).get? i =
      if i < p then (if i < d.length then d.get? i else some 0)
      else if i < p + c.length then c.get? (i - p) else d.get? i := by
  unfold pwriteFile
  rw [if_neg hc]
  have hmin : min p (d.length + (p - d.length)) = p := by omega
  simp only [List.get?_eq_getElem?, List.getElem?_append, List.length_take, List.length_append,
    List.getElem?_take, List.getElem?_drop, List.length_replicate, List.getElem?_replicate, hmin]
  split_ifs <;> first | rfl | omega | (congr 1; omega)

theorem pwriteFile_length (d : List Byte) (p : Nat) (c : List Byte) (hc : c ≠ []) :
    (pwriteFile d p c).length = max d.length (p + c.length) := by
  unfold pwriteFile
  rw [if_neg hc]
  simp only [List.length_append, List.length_take, List.length_replicate, List.length_drop]
  omega

theorem pwriteFile_pwriteFile (d : List Byte) (p : Nat) (a b : List Byte) :
    pwriteFile (pwriteFile d p a) (p + a.length) b = pwriteFile d p (a ++ b) := by
  by_cases ha : a = []
  · subst ha; simp [pwriteFile_nil]
  by_cases hb : b = []
  · subst hb; simp [pwriteFile_nil]
  apply List.ext_get?
  intro i
  rw [pwriteFile_get? _ _ _ hb, pwriteFile_get? _ _ _ ha, pwriteFile_get? _ _ _ (by simp [ha]),
    pwriteFile_length _ _ _ ha]
  have hla : 0 < a.length := List.length_pos.mpr ha
  simp only [List.get?_eq_getElem?, List.getElem?_append, List.length_append]
  split_ifs <;> first | rfl | omega | (congr 1; omega)

end

namespace PosixWritableFile

theorem AppendLoop_full {w : Nat → Nat → SysRet} (hw : ∀ i n, w i n = SysRet.ok n)
    (fuel i : Nat) (s : PosixWritableFile) (src : List Byte) (hfuel : 2 ≤ fuel) :
    ∃ s1, AppendLoop w fuel i s src = some (Status.OK, s1) ∧
      s1.disk = pwriteFile s.disk s.pos src ∧ s1.pos = s.pos + src.length ∧
      s1.filesize = s.filesize ∧ s1.pre_allocated_size = s.pre_allocated_size ∧
      s1.pending_sync_type = s.pending_sync_type := by
  obtain ⟨f, rfl⟩ : ∃ f, fuel = f + 2 := ⟨fuel - 2, by omega⟩
  by_cases hl : src.length = 0
  · have : src = [] := List.length_eq_zero.mp hl
    subst this
    exact ⟨s, by simp [AppendLoop], by simp [pwriteFile_nil], rfl, rfl, rfl, rfl⟩
  · refine ⟨{ s with disk := pwriteFile s.disk s.pos src, pos := s.pos + src.length },
      ?_, rfl, rfl, rfl, rfl, rfl⟩
    rw [AppendLoop]
    simp only [hl, ne_eq, not_false_eq_true, if_true, hw, List.take_length, List.drop_length]
    rw [AppendLoop]
    simp

theorem Append_full {w : Nat → Nat → SysRet} (hw : ∀ i n, w i n = SysRet.ok n)
    (fuel : Nat) (data : List Byte) (s : PosixWritableFile) (hfuel : 2 ≤ fuel) :
    ∃ s1, Append w fuel data s = some (Status.OK, s1) ∧
      s1.disk = pwriteFile s.disk s.pos data ∧ s1.pos = s.pos + data.length ∧
      s1.filesize = s.filesize + data.length := by
  obtain ⟨s1, e1, e2, e3, e4, _, _⟩ := AppendLoop_full hw fuel 0
    { s with pending_sync_type :=
        if s.filesize + data.length > s.pre_allocated_size then SyncType.FSYNC
        else SyncType.FDATASYNC } data hfuel
  refine ⟨{ s1 with filesize := s1.filesize + data.length }, ?_, e2, e3, ?_⟩
  · simp only [Append, e1, Status.ok, if_true]
  · simp only [e4]

theorem DoWritev_full {wv : Nat → SysRet} (hw : ∀ n, wv n = SysRet.ok n)
    (slices : List (List Byte)) (s : PosixWritableFile) :
    (DoWritev wv slices s).1 = Status.OK ∧
      (DoWritev wv slices s).2.disk = pwriteFile s.disk s.pos slices.flatten ∧
      (DoWritev wv slices s).2.pos = s.pos + slices.flatten.length ∧
      (DoWritev wv slices s).2.filesize = s.filesize + slices.flatten.length := by
  have hsum : (slices.map List.length).sum = slices.flatten.length := by
    rw [List.length_flatten]
  unfold DoWritev
  simp only [hsum, hw, List.take_length, ne_eq, not_true_eq_false, if_false, and_self]

theorem AppendVectorLoop_full {iov_max : Nat} (hiov : 0 < iov_max) {wv : Nat → Nat → SysRet}
    (hw : ∀ b n, wv b n = SysRet.ok n) :
    ∀ (k b : Nat) (rest : List (List Byte)) (s : PosixWritableFile), rest.length < k →
      ∃ s1, AppendVectorLoop iov_max wv k b rest s = some (Status.OK, s1) ∧
        s1.disk = pwriteFile s.disk s.pos rest.flatten ∧
        s1.pos = s.pos + rest.flatten.length ∧
        s1.filesize = s.filesize + rest.flatten.length := by
  intro k
  induction k with
  | zero => intro b rest s h; omega
  | succ k ih =>
    intro b rest s hk
    unfold AppendVectorLoop
    by_cases hl : rest.length > 0
    · simp only [hl, if_true]
      have hn1 : 1 ≤ min rest.length iov_max := by omega
      generalize min rest.length iov_max = n at *
      obtain ⟨d1, d2, d3, d4⟩ := DoWritev_full (hw b) (rest.take n) s
      obtain ⟨s2, f1, f2, f3, f4⟩ := ih (b + 1) (rest.drop n) (DoWritev (wv b) (rest.take n) s).2
        (by simp only [List.length_drop]; omega)
      have hsplit : rest.flatten = (rest.take n).flatten ++ (rest.drop n).flatten := by
        rw [← List.flatten_append, List.take_append_drop]
      refine ⟨s2, ?_, ?_, ?_, ?_⟩
      · simp only [d1, Status.ok, if_true, f1]
      · rw [f2, d2, d3, pwriteFile_pwriteFile, ← hsplit]
      · rw [f3, d3, hsplit, List.length_append]; omega
      · rw [f4, d4, hsplit, List.length_append]; omega
    · simp only [hl, if_false]
      have : rest = [] := by
        cases rest with
        | nil => rfl
        | cons a t => simp at hl
      subst this
      exact ⟨s, rfl, by simp [pwriteFile_nil], rfl, rfl⟩

theorem AppendVector_full {iov_max : Nat} (hiov : 0 < iov_max) {wv : Nat → Nat → SysRet}
    (hw : ∀ b n, wv b n = SysRet.ok n) (fuel : Nat) (dv : List (List Byte))
    (s : PosixWritableFile) (hfuel : dv.length < fuel) :
    ∃ s1, AppendVector iov_max wv fuel dv s = some (Status.OK, s1) ∧
      s1.disk = pwriteFile s.disk s.pos dv.flatten ∧ s1.pos = s.pos + dv.flatten.length ∧
      s1.filesize = s.filesize + dv.flatten.length := by
  obtain ⟨s1, e1, e2, e3, e4⟩ := AppendVectorLoop_full hiov hw fuel 0 dv s hfuel
  refine ⟨{ s1 with pending_sync_type :=
    if s1.filesize > s1.pre_allocated_size then SyncType.FSYNC else SyncType.FDATASYNC },
    ?_, e2, e3, e4⟩
  simp only [AppendVector, e1, Status.ok, if_true]

theorem run_appendCalls_full {ws : Nat → Nat → Nat → SysRet} (hw : ∀ k i n, ws k i n = SysRet.ok n)
    (iov_max fuel : Nat) (hfuel : 2 ≤ fuel) :
    ∀ (slices : List (List Byte)) (k : Nat) (s : PosixWritableFile),
      ∃ sts s1, run iov_max fuel (appendCalls ws k slices) s = some (sts, s1) ∧
        (∀ st ∈ sts, st = Status.OK) ∧ sts.length = slices.length ∧
        s1.disk = pwriteFile s.disk s.pos slices.flatten ∧
        s1.pos = s.pos + slices.flatten.length ∧
        s1.filesize = s.filesize + slices.flatten.length := by
  intro slices
  induction slices with
  | nil => intro k s; exact ⟨[], s, rfl, by simp, rfl, by simp [pwriteFile_nil], rfl, rfl⟩
  | cons d ds ih =>
    intro k s
    obtain ⟨s1, e1, e2, e3, e4⟩ := Append_full (hw k) fuel d s hfuel
    obtain ⟨sts, s2, f1, f2, f3, f4, f5, f6⟩ := ih (k + 1) s1
    refine ⟨Status.OK :: sts, s2, ?_, ?_, ?_, ?_, ?_, ?_⟩
    · simp only [appendCalls, run, FileCall.exec, e1, f1]
    · intro st hst
      rcases List.mem_cons.mp hst with h | h
      · exact h
      · exact f2 st h
    · simp [f3]
    · rw [f4, e2, e3, pwriteFile_pwriteFile]; simp
    · rw [f5, e3]; simp; omega
    · rw [f6, e4]; simp; omega

end PosixWritableFile

/-- C3: for both writers, with every system call succeeding and writing in
full, `AppendVector(slices)` and one `Append` per slice, in the same order,
all return OK and leave the same file bytes and the same `Size()`; for the
mapped writer they also leave the same `file_offset_`, the same offset of the
write cursor in the window and the same `map_size_`.  The descriptor writer
is taken in any state, the mapped writer in any state satisfying `WF`, the
invariant that the constructor establishes and that every call other than
`Close` keeps whatever the system calls return (`WF_reachable`). -/
theorem C3_append_vector_eq_appends (iov_max : Nat) (hiov : 0 < iov_max)
    (slices : List (List Byte)) (fuel : Nat)
    (hfuel : 2 * slices.flatten.length + slices.length + 2 ≤ fuel)
    (sm : PosixMmapFile) (hsm : sm.WF)
    (osv : Nat → PosixMmapFile.WritevRet) (hosv : ∀ b, (osv b).AllOk)
    (oss : Nat → Nat → PosixMmapFile.RemapRet) (hoss : ∀ k i, (oss k i).AllOk)
    (sd : PosixWritableFile)
    (wv : Nat → Nat → SysRet) (hwv : ∀ b n, wv b n = SysRet.ok n)
    (ws : Nat → Nat → Nat → SysRet) (hws : ∀ k i n, ws k i n = SysRet.ok n) :
    (∃ s1 sts s2,
      PosixMmapFile.AppendVector iov_max osv fuel slices sm = some (Status.OK, s1) ∧
      PosixMmapFile.run iov_max fuel (PosixMmapFile.appendCalls oss 0 slices) sm
        = some (sts, s2) ∧
      (∀ st ∈ sts, st = Status.OK) ∧ sts.length = slices.length ∧
      s1.disk = s2.disk ∧ s1.Size = s2.Size ∧ s1.file_offset = s2.file_offset ∧
      s1.dst - s1.base = s2.dst - s2.base ∧ s1.map_size = s2.map_size) ∧
    (∃ s1 sts s2,
      PosixWritableFile.AppendVector iov_max wv fuel slices sd = some (Status.OK, s1) ∧
      PosixWritableFile.run iov_max fuel (PosixWritableFile.appendCalls ws 0 slices) sd
        = some (sts, s2) ∧
      (∀ st ∈ sts, st = Status.OK) ∧ sts.length = slices.length ∧
      s1.disk = s2.disk ∧ s1.Size = s2.Size) := by
  constructor
  · obtain ⟨s1, e1, e2, _⟩ := PosixMmapFile.AppendVector_ok hiov hosv hsm slices fuel hfuel
    have hchunk : ∀ d ∈ slices, 2 * d.length + 2 ≤ fuel := by
      intro d hd
      have : d.length ≤ slices.flatten.length := by
        rw [List.length_flatten]
        exact List.single_le_sum (by simp) _ (List.mem_map_of_mem _ hd)
      omega
    obtain ⟨p1, p2, p3⟩ := appendCalls_props oss hoss fuel slices 0 hchunk
    obtain ⟨sts, s2, f1, f2, f3, f4, _⟩ := PosixMmapFile.run_appends_ok hiov fuel
      (PosixMmapFile.appendCalls oss 0 slices) sm hsm p1
    rw [p2, ← e2] at f4
    have hv : s2.view = s1.view := f4
    simp only [PosixMmapFile.view, View.mk.injEq] at hv
    obtain ⟨v1, v2, v3, v4, v5, v6⟩ := hv
    refine ⟨s1, sts, s2, e1, f1, f2, by rw [f3, p3], v1.symm, ?_, v2.symm, v5.symm, v3.symm⟩
    simp only [PosixMmapFile.Size, v2, v5]
  · obtain ⟨s1, e1, e2, e3, e4⟩ := PosixWritableFile.AppendVector_full hiov hwv fuel slices sd
      (by omega)
    obtain ⟨sts, s2, f1, f2, f3, f4, f5, f6⟩ := PosixWritableFile.run_appendCalls_full hws
      iov_max fuel (by omega) slices 0 sd
    exact ⟨s1, sts, s2, e1, f1, f2, f3, by rw [e2, f4], by
      simp only [PosixWritableFile.Size, e4, f6]⟩

section
open PosixMmapFile

theorem okWritev_AllOk :
    (WritevRet.mk (fun _ => RemapRet.mk (SysRet.ok 0) (SysRet.ok 0) (SysRet.ok 4096))
      (fun n => SysRet.ok n)).AllOk :=
  ⟨fun _ => okRemap_AllOk, fun _ => rfl⟩

theorem C3_witness :
    (∃ s1 sts s2,
      PosixMmapFile.AppendVector 2
        (fun _ => WritevRet.mk (fun _ => RemapRet.mk (SysRet.ok 0) (SysRet.ok 0) (SysRet.ok 4096))
          (fun n => SysRet.ok n)) 16 [[1, 2], [3], [4, 5]]
        (createWithWindow "f" 3 4096 2) = some (Status.OK, s1) ∧
      PosixMmapFile.run 2 16 (PosixMmapFile.appendCalls
          (fun _ _ => RemapRet.mk (SysRet.ok 0) (SysRet.ok 0) (SysRet.ok 4096)) 0
          [[1, 2], [3], [4, 5]]) (createWithWindow "f" 3 4096 2)
        = some (sts, s2) ∧
      (∀ st ∈ sts, st = Status.OK) ∧ sts.length = [[1, 2], [3], [4, 5]].length ∧
      s1.disk = s2.disk ∧ s1.Size = s2.Size ∧ s1.file_offset = s2.file_offset ∧
      s1.dst - s1.base = s2.dst - s2.base ∧ s1.map_size = s2.map_size) ∧
    (∃ s1 sts s2,
      PosixWritableFile.AppendVector 2 (fun _ n => SysRet.ok n) 16 [[1, 2], [3], [4, 5]]
        (PosixWritableFile.create "g" 4) = some (Status.OK, s1) ∧
      PosixWritableFile.run 2 16 (PosixWritableFile.appendCalls (fun _ _ n => SysRet.ok n) 0
          [[1, 2], [3], [4, 5]]) (PosixWritableFile.create "g" 4)
        = some (sts, s2) ∧
      (∀ st ∈ sts, st = Status.OK) ∧ sts.length = [[1, 2], [3], [4, 5]].length ∧
      s1.disk = s2.disk ∧ s1.Size = s2.Size) :=
  C3_append_vector_eq_appends 2 (by decide) [[1, 2], [3], [4, 5]] 16 (by decide)
    (createWithWindow "f" 3 4096 2) (createWithWindow_WF "f" 3 4096 2 (by decide))
    (fun _ => WritevRet.mk (fun _ => RemapRet.mk (SysRet.ok 0) (SysRet.ok 0) (SysRet.ok 4096))
      (fun n => SysRet.ok n)) (fun _ => okWritev_AllOk)
    (fun _ _ => RemapRet.mk (SysRet.ok 0) (SysRet.ok 0) (SysRet.ok 4096))
    (fun _ _ => okRemap_AllOk)
    (PosixWritableFile.create "g" 4)
    (fun _ n => SysRet.ok n) (fun _ _ => rfl) (fun _ _ n => SysRet.ok n) (fun _ _ _ => rfl)

theorem IOError_ne_OK (context : String) (e : Nat) : IOError context e ≠ Status.OK := by
  unfold IOError
  split_ifs <;> simp

theorem IOError_ok (context : String) (e : Nat) : (IOError context e).ok = false := by
  unfold IOError
  split_ifs <;> rfl

theorem Status.ok_iff (st : Status) : st.ok = true ↔ st = Status.OK := by
  cases st <;> simp [Status.ok]

end

namespace PosixWritableFile

theorem AppendLoop_frame (w : Nat → Nat → SysRet) :
    ∀ (fuel i : Nat) (s : PosixWritableFile) (src : List Byte) (st : Status)
      (s1 : PosixWritableFile), AppendLoop w fuel i s src = some (st, s1) →
      s1.filesize = s.filesize ∧ s1.pre_allocated_size = s.pre_allocated_size ∧
        s1.pending_sync_type = s.pending_sync_type := by
  intro fuel
  induction fuel with
  | zero => intro i s src st s1 h; simp [AppendLoop] at h
  | succ fuel ih =>
    intro i s src st s1 h
    rw [AppendLoop] at h
    split_ifs at h with hl
    · cases hw : w i src.length with
      | fail e =>
        rw [hw] at h
        simp only [Option.some.injEq, Prod.mk.injEq] at h
        obtain ⟨_, rfl⟩ := h
        exact ⟨rfl, rfl, rfl⟩
      | ok done =>
        rw [hw] at h
        simp only at h
        have := ih (i + 1) _ (src.drop done) st s1 h
        exact this
    · simp only [Option.some.injEq, Prod.mk.injEq] at h
      obtain ⟨_, rfl⟩ := h
      exact ⟨rfl, rfl, rfl⟩

/-- The classification an append leaves behind. -/
theorem Append_success {w : Nat → Nat → SysRet} {fuel : Nat} {data : List Byte}
    {s s1 : PosixWritableFile} (h : Append w fuel data s = some (Status.OK, s1)) :
    s1.filesize = s.filesize + data.length ∧ s1.pre_allocated_size = s.pre_allocated_size ∧
      s1.pending_sync_type =
        if s1.filesize > s1.pre_allocated_size then SyncType.FSYNC else SyncType.FDATASYNC := by
  unfold Append at h
  simp only at h
  cases hl : AppendLoop w fuel 0 { s with pending_sync_type :=
      if s.filesize + data.length > s.pre_allocated_size then SyncType.FSYNC
      else SyncType.FDATASYNC } data with
  | none => rw [hl] at h; simp at h
  | some r =>
    obtain ⟨st, s2⟩ := r
    rw [hl] at h
    obtain ⟨f1, f2, f3⟩ := AppendLoop_frame w _ _ _ _ _ _ hl
    simp only at f1 f2 f3
    by_cases hst : st.ok = true
    · simp only [hst, if_true, Option.some.injEq, Prod.mk.injEq, true_and] at h
      subst h
      simp only [f1, f2, f3]
      exact ⟨trivial, trivial, trivial⟩
    · simp only [hst, Bool.false_eq_true, if_false, Option.some.injEq, Prod.mk.injEq] at h
      obtain ⟨rfl, _⟩ := h
      simp [Status.ok] at hst

theorem DoWritev_success {wv : Nat → SysRet} {slices : List (List Byte)} {s : PosixWritableFile}
    (h : (DoWritev wv slices s).1.ok = true) :
    (DoWritev wv slices s).2.filesize = s.filesize + slices.flatten.length ∧
      (DoWritev wv slices s).2.pre_allocated_size = s.pre_allocated_size := by
  have hsum : (slices.map List.length).sum = slices.flatten.length := by
    rw [List.length_flatten]
  unfold DoWritev at h ⊢
  simp only [hsum] at h ⊢
  cases hw : wv slices.flatten.length with
  | fail e =>
    rw [hw] at h
    simp only [IOError_ok] at h
    exact absurd h (by simp)
  | ok written =>
    rw [hw] at h
    simp only at h ⊢
    by_cases hwr : written = slices.flatten.length
    · subst hwr; simp
    · have hwr2 : ¬ written = (slices.map List.length).sum := by rw [hsum]; exact hwr
      simp [hwr, hwr2, Status.ok] at h

theorem AppendVectorLoop_success (iov_max : Nat) (wv : Nat → Nat → SysRet) :
    ∀ (k b : Nat) (rest : List (List Byte)) (s s1 : PosixWritableFile),
      AppendVectorLoop iov_max wv k b rest s = some (Status.OK, s1) →
      s1.filesize = s.filesize + rest.flatten.length ∧
        s1.pre_allocated_size = s.pre_allocated_size := by
  intro k
  induction k with
  | zero => intro b rest s s1 h; simp [AppendVectorLoop] at h
  | succ k ih =>
    intro b rest s s1 h
    rw [AppendVectorLoop] at h
    simp only at h
    split_ifs at h with hl hd
    · obtain ⟨d1, d2⟩ := DoWritev_success hd
      obtain ⟨i1, i2⟩ := ih _ _ _ _ h
      have hsplit : rest.flatten = (rest.take (min rest.length iov_max)).flatten
          ++ (rest.drop (min rest.length iov_max)).flatten := by
        rw [← List.flatten_append, List.take_append_drop]
      refine ⟨?_, by rw [i2, d2]⟩
      rw [i1, d1]
      conv_rhs => rw [hsplit, List.length_append]
      omega
    · simp only [Option.some.injEq] at h
      rw [h] at hd
      simp [Status.ok] at hd
    · simp only [Option.some.injEq, Prod.mk.injEq, true_and] at h
      subst h
      have : rest = [] := by
        cases rest with
        | nil => rfl
        | cons a t => simp at hl
      subst this
      simp

theorem AppendVector_success {iov_max : Nat} {wv : Nat → Nat → SysRet} {fuel : Nat}
    {dv : List (List Byte)} {s s1 : PosixWritableFile}
    (h : AppendVector iov_max wv fuel dv s = some (Status.OK, s1)) :
    s1.filesize = s.filesize + dv.flatten.length ∧
      s1.pre_allocated_size = s.pre_allocated_size ∧
      s1.pending_sync_type =
        if s1.filesize > s1.pre_allocated_size then SyncType.FSYNC else SyncType.FDATASYNC := by
  unfold AppendVector at h
  cases hl : AppendVectorLoop iov_max wv fuel 0 dv s with
  | none => rw [hl] at h; simp at h
  | some r =>
    obtain ⟨st, s2⟩ := r
    rw [hl] at h
    by_cases hst : st.ok = true
    · have hst2 := (Status.ok_iff st).mp hst
      subst hst2
      obtain ⟨f1, f2⟩ := AppendVectorLoop_success _ _ _ _ _ _ _ hl
      simp only [Status.ok, if_true, Option.some.injEq, Prod.mk.injEq, true_and] at h
      subst h
      exact ⟨f1, f2, rfl⟩
    · simp only [hst, Bool.false_eq_true, if_false, Option.some.injEq, Prod.mk.injEq] at h
      obtain ⟨rfl, _⟩ := h
      simp [Status.ok] at hst

theorem run_appends_success (iov_max fuel : Nat) :
    ∀ (calls : List FileCall) (s : PosixWritableFile) (sts : List Status)
      (s1 : PosixWritableFile), (∀ c ∈ calls, c.isAppend = true) →
      run iov_max fuel calls s = some (sts, s1) → (∀ st ∈ sts, st = Status.OK) →
      s1.filesize = s.filesize + ((calls.map FileCall.bytes).flatten).length ∧
        s1.pre_allocated_size = s.pre_allocated_size ∧
        (calls ≠ [] → s1.pending_sync_type =
          if s1.filesize > s1.pre_allocated_size then SyncType.FSYNC else SyncType.FDATASYNC) := by
  intro calls
  induction calls with
  | nil =>
    intro s sts s1 _ h _
    simp only [run, Option.some.injEq, Prod.mk.injEq] at h
    obtain ⟨_, rfl⟩ := h
    simp
  | cons c cs ih =>
    intro s sts s1 hc h hok
    rw [run] at h
    cases he : c.exec iov_max fuel s with
    | none => rw [he] at h; simp at h
    | some r =>
      obtain ⟨st, s2⟩ := r
      rw [he] at h
      simp only at h
      cases hr : run iov_max fuel cs s2 with
      | none => rw [hr] at h; simp at h
      | some r2 =>
        obtain ⟨sts2, s3⟩ := r2
        rw [hr] at h
        simp only [Option.some.injEq, Prod.mk.injEq] at h
        obtain ⟨rfl, rfl⟩ := h
        have hst : st = Status.OK := hok st (List.mem_cons_self _ _)
        subst hst
        have hstep : s2.filesize = s.filesize + c.bytes.length ∧
            s2.pre_allocated_size = s.pre_allocated_size ∧
            s2.pending_sync_type =
              if s2.filesize > s2.pre_allocated_size then SyncType.FSYNC
              else SyncType.FDATASYNC := by
          have hca := hc c (List.mem_cons_self _ _)
          cases c with
          | Append w data => exact Append_success he
          | AppendVector w dv => exact AppendVector_success he
          | PreAllocate _ _ => simp [FileCall.isAppend] at hca
          | Sync _ => simp [FileCall.isAppend] at hca
          | Close _ _ _ => simp [FileCall.isAppend] at hca
        obtain ⟨g1, g2, g3⟩ := hstep
        obtain ⟨i1, i2, i3⟩ := ih s2 sts2 s3 (fun c hc' => hc c (List.mem_cons_of_mem _ hc')) hr
          (fun st hst => hok st (List.mem_cons_of_mem _ hst))
        refine ⟨?_, by rw [i2, g2], ?_⟩
        · rw [i1, g1]; simp; omega
        · intro _
          by_cases hcs : cs = []
          · subst hcs
            simp only [run, Option.some.injEq, Prod.mk.injEq] at hr
            obtain ⟨_, rfl⟩ := hr
            exact g3
          · exact i3 hcs

end PosixWritableFile

section
open PosixWritableFile

/-- C5, as the code has it: after a `PreAllocate(N)` whose `fallocate` call
succeeded, and any non-empty sequence of `Append` / `AppendVector` calls that
all returned OK, the pending sync classification is `FDATASYNC` when the bytes
appended since the `PreAllocate` total at most `N`, and `FSYNC` when they total
more than `N`. -/
theorem C5_sync_classification_after_allocation (s : PosixWritableFile) (N v : Nat)
    (calls : List FileCall) (hcalls : ∀ c ∈ calls, c.isAppend = true) (hne : calls ≠ [])
    (iov_max fuel : Nat) (sts : List Status) (s1 : PosixWritableFile)
    (hrun : run iov_max fuel calls (PreAllocate (SysRet.ok v) N s).2 = some (sts, s1))
    (hok : ∀ st ∈ sts, st = Status.OK) :
    (PreAllocate (SysRet.ok v) N s).1 = Status.OK ∧
    s1.pending_sync_type =
      if ((calls.map FileCall.bytes).flatten).length ≤ N then SyncType.FDATASYNC
      else SyncType.FSYNC := by
  obtain ⟨h1, h2, h3⟩ := run_appends_success iov_max fuel calls _ sts s1 hcalls hrun hok
  refine ⟨rfl, ?_⟩
  rw [h3 hne, h1, h2]
  simp only [PreAllocate]
  split_ifs <;> first | rfl | omega

theorem C5_witness :
    (PreAllocate (SysRet.ok 0) 4 (create "f" 3)).1 = Status.OK ∧
    ({ filename := "f", fd := 3, filesize := 4, pre_allocated_size := 4,
       pending_sync_type := SyncType.FDATASYNC, disk := [1, 2, 3, 4], pos := 4, errno := 0,
       logged_fallocate_warning := false } : PosixWritableFile).pending_sync_type =
      if (([FileCall.Append (fun _ n => SysRet.ok n) [1, 2],
            FileCall.AppendVector (fun _ n => SysRet.ok n) [[3], [4]]].map
              FileCall.bytes).flatten).length ≤ 4
      then SyncType.FDATASYNC else SyncType.FSYNC :=
  C5_sync_classification_after_allocation (create "f" 3) 4 0
    [FileCall.Append (fun _ n => SysRet.ok n) [1, 2],
     FileCall.AppendVector (fun _ n => SysRet.ok n) [[3], [4]]]
    (by
      intro c hc
      simp only [List.mem_cons, List.mem_singleton, List.not_mem_nil, or_false] at hc
      rcases hc with rfl | rfl <;> rfl)
    (by simp) 1024 4 [Status.OK, Status.OK]
    { filename := "f", fd := 3, filesize := 4, pre_allocated_size := 4,
      pending_sync_type := SyncType.FDATASYNC, disk := [1, 2, 3, 4], pos := 4, errno := 0,
      logged_fallocate_warning := false }
    (by decide)
    (by
      intro st hst
      simp only [List.mem_cons, List.mem_singleton, List.not_mem_nil, or_false] at hst
      rcases hst with rfl | rfl <;> rfl)

/-- C5 as stated fails: `PreAllocate(100)` on a file system without
`fallocate` (`EOPNOTSUPP`) returns OK, and a following successful `Append` of
one byte, which is less than `100`, is classified `FSYNC`. -/
theorem C5_unsupported_allocation_counterexample :
    (PreAllocate (SysRet.fail EOPNOTSUPP) 100 (create "f" 3)).1 = Status.OK ∧
    (run 1024 4 [FileCall.Append (fun _ n => SysRet.ok n) [7]]
        (PreAllocate (SysRet.fail EOPNOTSUPP) 100 (create "f" 3)).2).map
      (fun r => (r.1, r.2.pending_sync_type)) = some ([Status.OK], SyncType.FSYNC) ∧
    ([7] : List Byte).length ≤ 100 := by
  decide

end

section
open PosixWritableFile

theorem stepStatus_ok (attempted : Bool) (r : SysRet) (filename : String) :
    (stepStatus attempted r filename).ok = !(attempted && r.isFail) := by
  cases attempted <;> cases r <;> simp [stepStatus, SysRet.isFail, IOError_ok] <;> rfl

/-- C6: `Close()` of the descriptor writer, for any results of `ftruncate`, of
the sync call and of `close`.  Truncation to `filesize_` is attempted exactly
when `filesize_ < pre_allocated_size_`; then `Sync()` runs on the state the
truncation step left (so the sync call is issued exactly when a sync is
pending then, always a full one after a failed truncation) and `close` is
called, whatever came before; the status returned is that of the first
failing step in the order truncate, sync, close, and is OK exactly when no
attempted call failed; the descriptor ends as `-1`. -/
theorem C6_close_reports_first_error (ftruncate sync close : SysRet) (s : PosixWritableFile) :
    let r := Close ftruncate sync close s
    let truncating := decide (s.filesize < s.pre_allocated_size)
    let pending := if truncating && ftruncate.isFail then SyncType.FSYNC else s.pending_sync_type
    let syncing := decide (pending ≠ SyncType.NONE)
    (Syscall.ftruncate s.filesize ∈ r.2.2 ↔ s.filesize < s.pre_allocated_size) ∧
    (∀ n, Syscall.ftruncate n ∈ r.2.2 → n = s.filesize) ∧
    r.2.2 = (CloseTruncate ftruncate s).2.2 ++ (Sync sync (CloseTruncate ftruncate s).2.1).2.2
      ++ [Syscall.close] ∧
    (CloseTruncate ftruncate s).2.1.pending_sync_type = pending ∧
    (Syscall.fsync ∈ r.2.2 ↔ pending = SyncType.FSYNC) ∧
    (Syscall.fdatasync ∈ r.2.2 ↔ pending = SyncType.FDATASYNC) ∧
    Syscall.close ∈ r.2.2 ∧
    r.1 = firstError [stepStatus truncating ftruncate s.filename,
                      stepStatus syncing sync s.filename,
                      stepStatus true close s.filename] ∧
    (r.1 = Status.OK ↔
      (truncating && ftruncate.isFail) = false ∧ (syncing && sync.isFail) = false ∧
        close.isFail = false) ∧
    r.2.1.fd = -1 := by
  intro r truncating pending syncing
  have hIO : ∀ e, (IOError s.filename e).ok = false := IOError_ok s.filename
  have hIO2 : ∀ e, IOError s.filename e ≠ Status.OK := IOError_ne_OK s.filename
  by_cases ht : s.filesize < s.pre_allocated_size <;>
  cases ftruncate <;> cases sync <;> cases close <;>
  cases hp : s.pending_sync_type <;>
  simp [r, truncating, pending, syncing, Close, CloseTruncate, Sync, ht, hp, firstError,
    stepStatus, Status.ok, SysRet.isFail, hIO, hIO2]

end

/-- C7 (fails on the code): a walk that meets a directory that cannot be read
(`FTS_DNR`, returned in place of the post-order visit) makes no delete attempt
for it and still returns OK: the `default` branch logs that the file cannot be
accessed but does not set `had_errors`, as the `FTS_ERR` branch does. -/
theorem C7_unreadable_directory_reported_ok :
    PosixEnv.DeleteRecursively "d" (SysRet.ok 0)
        [{ fts_info := FtsInfo.FTS_D, fts_accpath := "d", del := SysRet.ok 0 },
         { fts_info := FtsInfo.FTS_DNR, fts_accpath := "d", del := SysRet.ok 0 }]
      = some (Status.OK, []) ∧
    PosixEnv.DeleteRecursively "x" (SysRet.ok 0)
        [{ fts_info := FtsInfo.FTS_NS, fts_accpath := "x", del := SysRet.ok 0 }]
      = some (Status.OK, []) ∧
    PosixEnv.DeleteRecursively "x" (SysRet.ok 0)
        [{ fts_info := FtsInfo.FTS_ERR, fts_accpath := "x", del := SysRet.ok 0 }]
      = some (Status.IOError "x" (-1), []) := by
  decide

/-- C9 (fails on the code): on a mapping of 10 bytes, `Read` at offset
`2 ^ 64 - 1` of 2 bytes passes the bounds check, because `offset + n` wraps
to 1, and returns OK with a 2-byte slice that starts one byte before the
mapping. -/
theorem C9_read_bounds_check_wraps :
    PosixMmapReadableFile.Read { filename := "f", mmapped_region := 4096, length := 10 }
        18446744073709551615 2
      = (Status.OK, { data := 4095, size := 2 }) ∧
    ¬ (18446744073709551615 + 2 ≤ 10) ∧ 18446744073709551615 < 2 ^ 64 := by
  decide

/-- C10 (fails on the code): `PosixMmapFile::PreAllocate` maps every failure
of `fallocate` to an error, `EOPNOTSUPP` and `ENOSYS` included, while
`PosixWritableFile::PreAllocate` returns OK for these two and leaves
`pre_allocated_size_` unchanged. -/
theorem C10_mapped_preallocate_unsupported_is_error (sm : PosixMmapFile)
    (sd : PosixWritableFile) (size : Nat) :
    (PosixMmapFile.PreAllocate (SysRet.fail EOPNOTSUPP) size sm).1
      = Status.IOError sm.filename 95 ∧
    (PosixMmapFile.PreAllocate (SysRet.fail ENOSYS) size sm).1
      = Status.IOError sm.filename 38 ∧
    (PosixWritableFile.PreAllocate (SysRet.fail EOPNOTSUPP) size sd).1 = Status.OK ∧
    (PosixWritableFile.PreAllocate (SysRet.fail ENOSYS) size sd).1 = Status.OK ∧
    (PosixWritableFile.PreAllocate (SysRet.fail EOPNOTSUPP) size sd).2.pre_allocated_size
      = sd.pre_allocated_size ∧
    (PosixWritableFile.PreAllocate (SysRet.fail ENOSYS) size sd).2.pre_allocated_size
      = sd.pre_allocated_size := by
  refine ⟨?_, ?_, ?_, ?_, ?_, ?_⟩ <;>
    simp [PosixMmapFile.PreAllocate, PosixWritableFile.PreAllocate, IOError, EOPNOTSUPP, ENOSYS,
      ENOENT, EEXIST]

namespace BGEvent

theorem called_append (a b : List BGEvent) : called (a ++ b) = called a ++ called b := by
  induction a with
  | nil => rfl
  | cons e rest ih =>
    cases e with
    | start item => simp [called, ih]
    | finish item => simp [called, ih]

theorem serial_append (a b : List BGItem) : serial (a ++ b) = serial a ++ serial b := by
  induction a with
  | nil => rfl
  | cons e rest ih => simp [serial, ih]

end BGEvent

namespace BGRun

theorem Reachable.inv {r : BGRun} (h : Reachable r) :
    BGEvent.called r.events ++ r.env.queue = r.submitted ∧
    ((r.env.started_bgthread = false ∧ r.env.workers = []) ∨
      (r.env.started_bgthread = true ∧ ∃ w, r.env.workers = [w])) ∧
    r.events ++ r.env.running.map BGEvent.finish = BGEvent.serial (BGEvent.called r.events) := by
  induction h with
  | init => exact ⟨rfl, Or.inl ⟨rfl, rfl⟩, rfl⟩
  | step r r1 _ hstep ih =>
    obtain ⟨i1, i2, i3⟩ := ih
    cases hstep with
    | schedule function arg =>
      refine ⟨?_, ?_, ?_⟩
      · rcases i2 with ⟨hs, _⟩ | ⟨hs, _⟩ <;>
          simp [BGState.Schedule, hs, ← i1]
      · rcases i2 with ⟨hs, hw⟩ | ⟨hs, hw⟩
        · exact Or.inr ⟨by simp [BGState.Schedule, hs], none, by simp [BGState.Schedule, hs, hw]⟩
        · exact Or.inr ⟨by simp [BGState.Schedule, hs], by simpa [BGState.Schedule, hs] using hw⟩
      · rcases i2 with ⟨hs, hw⟩ | ⟨hs, hw⟩
        · simpa [BGState.Schedule, BGState.running, hs, hw] using i3
        · simpa [BGState.Schedule, BGState.running, hs] using i3
    | call i item e1 _ ht =>
      unfold BGState.BGThread at ht
      rcases i2 with ⟨hs, hw⟩ | ⟨hs, w, hw⟩
      · rw [hw] at ht; simp at ht
      · rw [hw] at ht
        cases i with
        | succ i => simp at ht
        | zero =>
          cases w with
          | some it => simp at ht
          | none =>
            cases hq : r.env.queue with
            | nil => rw [hq] at ht; simp at ht
            | cons qh rest =>
              rw [hq] at ht
              simp only [List.get?_cons_zero, Option.some.injEq, Prod.mk.injEq] at ht
              obtain ⟨rfl, rfl⟩ := ht
              rw [hq] at i1
              have hrun : r.env.running = [] := by simp [BGState.running, hw]
              rw [hrun] at i3
              simp only [List.map_nil, List.append_nil] at i3
              refine ⟨?_, Or.inr ⟨hs, some qh, by simp [hw]⟩, ?_⟩
              · simp only [BGEvent.called_append, BGEvent.called]
                simpa using i1
              · simp only [BGEvent.called_append, BGEvent.called, BGEvent.serial_append,
                  BGEvent.serial, BGState.running, hw]
                rw [← i3]
                simp
    | ret i item e1 _ ht =>
      unfold BGState.callReturns at ht
      rcases i2 with ⟨hs, hw⟩ | ⟨hs, w, hw⟩
      · rw [hw] at ht; simp at ht
      · rw [hw] at ht
        cases i with
        | succ i => simp at ht
        | zero =>
          cases w with
          | none => simp at ht
          | some it =>
            simp only [List.get?_cons_zero, Option.some.injEq, Prod.mk.injEq] at ht
            obtain ⟨rfl, rfl⟩ := ht
            have hrun : r.env.running = [it] := by simp [BGState.running, hw]
            rw [hrun] at i3
            refine ⟨?_, Or.inr ⟨hs, none, by simp [hw]⟩, ?_⟩
            · simp only [BGEvent.called_append, BGEvent.called]
              simpa using i1
            · simp only [BGEvent.called_append, BGEvent.called, BGState.running, hw]
              simpa using i3

end BGRun

/-- C8: in every reachable state of the background queue, the closures whose
call has begun, followed by the queue, are the closures submitted, in
submission order, so the closures called are an initial segment of the
closures submitted: each submission is called at most once and in order.
There is at most one background thread and at most one closure being
executed, and the trace of the calls is serial: it is the trace in which the
closures called are run one after the other, each call returning before the
next begins, short of the return of the closure being executed, if any.  A
step that begins a call takes the front of the queue and happens only when no
closure is being executed and every earlier call has returned. -/
theorem C8_background_queue_fifo (r : BGRun) (h : BGRun.Reachable r) :
    BGEvent.called r.events ++ r.env.queue = r.submitted ∧
    BGEvent.called r.events = r.submitted.take (BGEvent.called r.events).length ∧
    r.env.workers.length ≤ 1 ∧ r.env.running.length ≤ 1 ∧
    r.events ++ r.env.running.map BGEvent.finish
      = BGEvent.serial (BGEvent.called r.events) ∧
    (∀ r1 item, BGRun.Step r r1 → r1.events = r.events ++ [BGEvent.start item] →
      r.env.running = [] ∧ r.events = BGEvent.serial (BGEvent.called r.events) ∧
      r.env.queue.head? = some item ∧ r1.env.queue = r.env.queue.tail ∧
      r1.env.running = [item] ∧ r1.submitted = r.submitted) := by
  obtain ⟨i1, i2, i3⟩ := h.inv
  have hw : r.env.workers.length ≤ 1 := by
    rcases i2 with ⟨_, hw⟩ | ⟨_, w, hw⟩ <;> simp [hw]
  have hr : r.env.running.length ≤ 1 :=
    le_trans (List.length_filterMap_le _ _) hw
  refine ⟨i1, ?_, hw, hr, i3, ?_⟩
  · rw [← i1]; simp
  · intro r1 item hstep hev
    obtain ⟨j1, j2, j3⟩ := (BGRun.Reachable.step r r1 h hstep).inv
    cases hstep with
    | schedule function arg =>
      simp at hev
    | call i it e1 _ ht =>
      simp only [List.append_cancel_left_eq, List.cons.injEq, BGEvent.start.injEq,
        and_true] at hev
      subst hev
      unfold BGState.BGThread at ht
      rcases i2 with ⟨hs, hw2⟩ | ⟨hs, w, hw2⟩
      · rw [hw2] at ht; simp at ht
      · rw [hw2] at ht
        cases i with
        | succ i => simp at ht
        | zero =>
          cases w with
          | some it2 => simp at ht
          | none =>
            cases hq : r.env.queue with
            | nil => rw [hq] at ht; simp at ht
            | cons qh rest =>
              rw [hq] at ht
              simp only [List.get?_cons_zero, Option.some.injEq, Prod.mk.injEq] at ht
              obtain ⟨rfl, rfl⟩ := ht
              have hrun : r.env.running = [] := by simp [BGState.running, hw2]
              rw [hrun] at i3
              simp only [List.map_nil, List.append_nil] at i3
              exact ⟨hrun, i3, rfl, by simp [hq], by simp [BGState.running, hw2], rfl⟩
    | ret i it e1 _ ht =>
      simp at hev

theorem C8_witness :
    BGRun.example3.events =
      [BGEvent.start { arg := 10, function := 1 }, BGEvent.finish { arg := 10, function := 1 },
       BGEvent.start { arg := 20, function := 2 }] ∧
    BGEvent.called BGRun.example3.events ++ BGRun.example3.env.queue
      = BGRun.example3.submitted ∧
    BGEvent.called BGRun.example3.events
      = BGRun.example3.submitted.take (BGEvent.called BGRun.example3.events).length ∧
    BGRun.example3.env.workers.length ≤ 1 ∧ BGRun.example3.env.running.length ≤ 1 ∧
    BGRun.example3.events ++ BGRun.example3.env.running.map BGEvent.finish
      = BGEvent.serial (BGEvent.called BGRun.example3.events) ∧
    (∀ r1 item, BGRun.Step BGRun.example3 r1 →
      r1.events = BGRun.example3.events ++ [BGEvent.start item] →
      BGRun.example3.env.running = [] ∧
      BGRun.example3.events = BGEvent.serial (BGEvent.called BGRun.example3.events) ∧
      BGRun.example3.env.queue.head? = some item ∧
      r1.env.queue = BGRun.example3.env.queue.tail ∧
      r1.env.running = [item] ∧ r1.submitted = BGRun.example3.submitted) :=
  ⟨rfl, C8_background_queue_fifo BGRun.example3
    (BGRun.Reachable.step _ _
      (BGRun.Reachable.step _ _
        (BGRun.Reachable.step _ _
          (BGRun.Reachable.step _ _
            (BGRun.Reachable.step _ _
              (BGRun.Reachable.step _ _ BGRun.Reachable.init
                (BGRun.Step.schedule 1 10 _))
              (BGRun.Step.schedule 2 20 _))
            (BGRun.Step.call 0 { arg := 10, function := 1 }
              { started_bgthread := true, queue := [{ arg := 20, function := 2 }],
                workers := [some { arg := 10, function := 1 }] } _ rfl))
          (BGRun.Step.schedule 3 30 _))
        (BGRun.Step.ret 0 { arg := 10, function := 1 }
          { started_bgthread := true,
            queue := [{ arg := 20, function := 2 }, { arg := 30, function := 3 }],
            workers := [none] } _ rfl))
      (BGRun.Step.call 0 { arg := 20, function := 2 }
        { started_bgthread := true, queue := [{ arg := 30, function := 3 }],
          workers := [some { arg := 20, function := 2 }] } _ rfl))⟩

namespace PosixMmapFile

theorem pwriteFile_length_ge (d : List Byte) (p : Nat) (c : List Byte) :
    d.length ≤ (pwriteFile d p c).length := by
  by_cases hc : c = []
  · subst hc; rw [pwriteFile_nil]
  · rw [pwriteFile_length _ _ _ hc]; omega

theorem UnmapCurrentRegion_WF {s : PosixMmapFile} (h : s.WF) (m : SysRet) :
    (UnmapCurrentRegion m s).2.WF ∧ (UnmapCurrentRegion m s).2.base = NULL := by
  obtain ⟨h1, h2, h3, h4, h5⟩ := h
  simp only [NULL] at *
  unfold UnmapCurrentRegion
  by_cases hb : s.base = 0
  · simp only [NULL, ne_eq, hb, not_true_eq_false, if_false]
    exact ⟨⟨h1, h2, h3, h4, h5⟩, trivial⟩
  · have := h2 hb
    simp only [NULL, ne_eq, hb, not_false_eq_true, if_true, and_true]
    refine ⟨?_, ?_, ?_, ?_, ?_⟩ <;> simp only [NULL] <;> (try split_ifs) <;>
      first | omega | simp

theorem MapNewRegion_WF {s : PosixMmapFile} (h : s.WF) (hb : s.base = NULL)
    (f mm : SysRet) (hsane : ∀ a, mm = SysRet.ok a → a ≠ NULL) :
    (MapNewRegion f mm s).2.WF := by
  obtain ⟨h1, h2, h3, h4, h5⟩ := h
  obtain ⟨hl, hd⟩ := h1 hb
  simp only [NULL] at *
  unfold MapNewRegion
  simp only
  split_ifs with hc1 hc2
  · exact ⟨h1, h2, h3, h4, h5⟩
  · cases mm with
    | fail e =>
      refine ⟨h1, h2, h3, ?_, ?_⟩ <;> simp only [ftruncateFile_length, hl, hb] <;> omega
    | ok a =>
      have ha := hsane a rfl
      refine ⟨?_, ?_, h3, ?_, ?_⟩ <;> simp only [ftruncateFile_length, NULL] <;>
        omega
  · cases mm with
    | fail e => exact ⟨h1, h2, h3, h4, h5⟩
    | ok a =>
      have ha := hsane a rfl
      refine ⟨?_, ?_, h3, ?_, ?_⟩ <;> simp only [NULL] <;>
        omega

theorem remapFails_WF {s : PosixMmapFile} (h : s.WF) {r : RemapRet} (hr : r.Sane) :
    (remapFails r s).2.WF := by
  obtain ⟨u1, u2⟩ := UnmapCurrentRegion_WF h r.munmap
  unfold remapFails
  simp only
  split_ifs
  · exact u1
  · exact MapNewRegion_WF u1 u2 _ _ hr


theorem AppendLoop_WF (os : Nat → RemapRet) (hos : ∀ i, (os i).Sane) :
    ∀ (fuel i : Nat) (s : PosixMmapFile) (src : List Byte) (st : Status) (s1 : PosixMmapFile),
      s.WF → AppendLoop os fuel i s src = some (st, s1) → s1.WF := by
  intro fuel
  induction fuel with
  | zero => intro i s src st s1 _ h; simp [AppendLoop] at h
  | succ fuel ih =>
    intro i s src st s1 hs h
    rw [AppendLoop] at h
    by_cases hl : src.length > 0
    · simp only [hl, if_true] at h
      by_cases ha : s.limit - s.dst = 0
      · simp only [ha, if_true] at h
        have hr2 := remapFails_WF hs (hos i)
        by_cases hr : (remapFails (os i) s).1 = true
        · simp only [hr, if_true, Option.some.injEq, Prod.mk.injEq] at h
          obtain ⟨_, rfl⟩ := h
          exact hr2
        · have hn : (if src.length ≤ 0 then src.length else 0) = 0 := by
            split_ifs <;> omega
          simp only [hr, Bool.false_eq_true, if_false, hn, List.take_zero, storeAt_nil,
            List.drop_zero, Nat.add_zero] at h
          exact ih _ _ _ _ _ hr2 h
      · simp only [ha, if_false, Bool.false_eq_true] at h
        have hn3 : (if src.length ≤ s.limit - s.dst then src.length else s.limit - s.dst)
            ≤ s.limit - s.dst := by
          split_ifs <;> omega
        generalize (if src.length ≤ s.limit - s.dst then src.length else s.limit - s.dst) = n at *
        refine ih _ _ _ _ _ ?_ h
        obtain ⟨h1, h2, h3, h4, h5⟩ := hs
        have hb : s.base ≠ NULL := by
          intro hb; have := h1 hb; simp only [NULL] at *; omega
        have := h2 hb
        refine ⟨?_, ?_, h3, ?_, ?_⟩
        · intro h; exact absurd h hb
        · intro _; simp only; omega
        · simp only [storeAt_length]; exact h4
        · simp only [storeAt_length]; exact h5
    · simp only [hl, if_false, Option.some.injEq, Prod.mk.injEq] at h
      obtain ⟨_, rfl⟩ := h
      exact hs

theorem AdvanceLoop_WF (os : Nat → RemapRet) (hos : ∀ i, (os i).Sane) :
    ∀ (fuel i : Nat) (s : PosixMmapFile) (left : Nat) (b : Bool) (s1 : PosixMmapFile),
      s.WF → AdvanceLoop os fuel i s left = some (b, s1) → s1.WF := by
  intro fuel
  induction fuel with
  | zero => intro i s left b s1 _ h; simp [AdvanceLoop] at h
  | succ fuel ih =>
    intro i s left b s1 hs h
    rw [AdvanceLoop] at h
    by_cases hl : left > 0
    · simp only [hl, if_true] at h
      by_cases ha : s.limit - s.dst = 0
      · simp only [ha, if_true] at h
        have hr2 := remapFails_WF hs (hos i)
        by_cases hr : (remapFails (os i) s).1 = true
        · simp only [hr, if_true, Option.some.injEq, Prod.mk.injEq] at h
          obtain ⟨_, rfl⟩ := h
          exact hr2
        · have hn : (if left ≤ 0 then left else 0) = 0 := by
            split_ifs <;> omega
          simp only [hr, Bool.false_eq_true, if_false, hn, Nat.add_zero, Nat.sub_zero] at h
          exact ih _ _ _ _ _ hr2 h
      · simp only [ha, if_false, Bool.false_eq_true] at h
        have hn3 : (if left ≤ s.limit - s.dst then left else s.limit - s.dst)
            ≤ s.limit - s.dst := by
          split_ifs <;> omega
        generalize (if left ≤ s.limit - s.dst then left else s.limit - s.dst) = n at *
        refine ih _ _ _ _ _ ?_ h
        obtain ⟨h1, h2, h3, h4, h5⟩ := hs
        have hb : s.base ≠ NULL := by
          intro hb; have := h1 hb; simp only [NULL] at *; omega
        have := h2 hb
        refine ⟨?_, ?_, h3, h4, h5⟩
        · intro h; exact absurd h hb
        · intro _; simp only; omega
    · simp only [hl, if_false, Option.some.injEq, Prod.mk.injEq] at h
      obtain ⟨_, rfl⟩ := h
      exact hs

theorem WF_of_disk_ge {s s1 : PosixMmapFile} (h : s.WF) (hb : s1.base = s.base)
    (hl : s1.limit = s.limit) (hd : s1.dst = s.dst) (hm : s1.map_size = s.map_size)
    (hf : s1.file_offset = s.file_offset) (hp : s1.pre_allocated_size ≤ s1.disk.length)
    (hk : s.disk.length ≤ s1.disk.length) : s1.WF := by
  obtain ⟨h1, h2, h3, h4, h5⟩ := h
  refine ⟨?_, ?_, ?_, ?_, hp⟩
  · rw [hb, hl, hd]; exact h1
  · rw [hb, hl, hd]; exact h2
  · rw [hm]; exact h3
  · rw [hb, hl, hf]; omega

theorem DoWritev_WF {w : WritevRet} (hw : ∀ i, (w.remap i).Sane) {fuel : Nat}
    {slices : List (List Byte)} {s s1 : PosixMmapFile} {st : Status} (hs : s.WF)
    (h : DoWritev w fuel slices s = some (st, s1)) : s1.WF := by
  unfold DoWritev at h
  simp only at h
  cases ha : AdvanceLoop w.remap fuel 0 s (slices.map List.length).sum with
  | none => rw [ha] at h; simp at h
  | some r =>
    obtain ⟨b, s2⟩ := r
    have hs2 := AdvanceLoop_WF w.remap hw _ _ _ _ _ _ hs ha
    rw [ha] at h
    cases b with
    | false =>
      simp only [Option.some.injEq, Prod.mk.injEq] at h
      obtain ⟨_, rfl⟩ := h
      exact hs2
    | true =>
      simp only at h
      cases hp : w.pwritev (slices.map List.length).sum with
      | fail e =>
        rw [hp] at h
        simp only [Option.some.injEq, Prod.mk.injEq] at h
        obtain ⟨_, rfl⟩ := h
        exact WF_of_disk_ge hs2 rfl rfl rfl rfl rfl hs2.pre_le (le_refl _)
      | ok written =>
        rw [hp] at h
        simp only at h
        have hge := pwriteFile_length_ge s2.disk (s.file_offset + (s.dst - s.base))
          (slices.flatten.take written)
        split_ifs at h <;>
        · simp only [Option.some.injEq, Prod.mk.injEq] at h
          obtain ⟨_, rfl⟩ := h
          exact WF_of_disk_ge hs2 rfl rfl rfl rfl rfl (le_trans hs2.pre_le hge) hge

theorem AppendVectorLoop_WF (iov_max : Nat) (os : Nat → WritevRet)
    (hos : ∀ b i, ((os b).remap i).Sane) (fuel : Nat) :
    ∀ (k b : Nat) (rest : List (List Byte)) (s s1 : PosixMmapFile) (st : Status),
      s.WF → AppendVectorLoop iov_max os fuel k b rest s = some (st, s1) → s1.WF := by
  intro k
  induction k with
  | zero => intro b rest s s1 st _ h; simp [AppendVectorLoop] at h
  | succ k ih =>
    intro b rest s s1 st hs h
    rw [AppendVectorLoop] at h
    simp only at h
    split_ifs at h with hl
    · cases hd : DoWritev (os b) fuel (rest.take (min rest.length iov_max)) s with
      | none => rw [hd] at h; simp at h
      | some r =>
        obtain ⟨st2, s2⟩ := r
        have hs2 := DoWritev_WF (hos b) hs hd
        rw [hd] at h
        simp only at h
        split_ifs at h
        · exact ih _ _ _ _ _ hs2 h
        · simp only [Option.some.injEq, Prod.mk.injEq] at h
          obtain ⟨_, rfl⟩ := h
          exact hs2
    · simp only [Option.some.injEq, Prod.mk.injEq] at h
      obtain ⟨_, rfl⟩ := h
      exact hs

theorem Sync_WF {s : PosixMmapFile} (hs : s.WF) (a b : SysRet) : (Sync a b s).2.1.WF := by
  unfold Sync
  cases a <;> cases b <;> cases hp : s.pending_sync <;>
    by_cases hd : s.dst > s.last_sync <;>
    simp only [hd, if_true, if_false, Bool.false_eq_true] <;>
    exact WF_of_disk_ge hs rfl rfl rfl rfl rfl hs.pre_le (le_refl _)

theorem exec_WF {iov_max fuel : Nat} {c : MmapCall} (hc : c.isClose = false) (hsane : c.Sane)
    {s s1 : PosixMmapFile} {st : Status} (hs : s.WF)
    (h : c.exec iov_max fuel s = some (st, s1)) : s1.WF := by
  cases c with
  | PreAllocate r size =>
    simp only [MmapCall.exec, Option.some.injEq] at h
    cases r with
    | fail e =>
      simp only [PreAllocate, Prod.mk.injEq] at h
      obtain ⟨_, rfl⟩ := h
      exact WF_of_disk_ge hs rfl rfl rfl rfl rfl hs.pre_le (le_refl _)
    | ok v =>
      simp only [PreAllocate, Prod.mk.injEq] at h
      obtain ⟨_, rfl⟩ := h
      refine WF_of_disk_ge hs rfl rfl rfl rfl rfl ?_ ?_ <;>
        simp only [fallocateFile, List.length_append, List.length_replicate] <;> omega
  | Append os data => exact AppendLoop_WF os hsane _ _ _ _ _ _ hs h
  | AppendVector os dv =>
    simp only [MmapCall.exec, AppendVector] at h
    cases hl : AppendVectorLoop iov_max os fuel fuel 0 dv s with
    | none => rw [hl] at h; simp at h
    | some r =>
      obtain ⟨st2, s2⟩ := r
      have hs2 := AppendVectorLoop_WF iov_max os hsane fuel _ _ _ _ _ _ hs hl
      rw [hl] at h
      simp only at h
      split_ifs at h <;>
      · simp only [Option.some.injEq, Prod.mk.injEq] at h
        obtain ⟨_, rfl⟩ := h
        exact WF_of_disk_ge hs2 rfl rfl rfl rfl rfl hs2.pre_le (le_refl _)
  | Sync a b =>
    simp only [MmapCall.exec, Option.some.injEq, Prod.mk.injEq] at h
    obtain ⟨_, rfl⟩ := h
    exact Sync_WF hs a b
  | Close _ _ _ => simp [MmapCall.isClose] at hc


theorem run_WF (iov_max fuel : Nat) :
    ∀ (calls : List MmapCall) (s s1 : PosixMmapFile) (sts : List Status), s.WF →
      (∀ c ∈ calls, c.isClose = false ∧ c.Sane) →
      run iov_max fuel calls s = some (sts, s1) → s1.WF := by
  intro calls
  induction calls with
  | nil =>
    intro s s1 sts hs _ h
    simp only [run, Option.some.injEq, Prod.mk.injEq] at h
    obtain ⟨_, rfl⟩ := h
    exact hs
  | cons c cs ih =>
    intro s s1 sts hs hc h
    rw [run] at h
    cases he : c.exec iov_max fuel s with
    | none => rw [he] at h; simp at h
    | some r =>
      obtain ⟨st, s2⟩ := r
      obtain ⟨c1, c2⟩ := hc c (List.mem_cons_self _ _)
      have hs2 := exec_WF c1 c2 hs he
      rw [he] at h
      simp only at h
      cases hr : run iov_max fuel cs s2 with
      | none => rw [hr] at h; simp at h
      | some r2 =>
        obtain ⟨sts2, s3⟩ := r2
        rw [hr] at h
        simp only [Option.some.injEq, Prod.mk.injEq] at h
        obtain ⟨_, rfl⟩ := h
        exact ih s2 s3 sts2 hs2 (fun c hc' => hc c (List.mem_cons_of_mem _ hc')) hr

theorem Roundup_pos (x y : Nat) (hx : 0 < x) (hy : 0 < y) : 0 < Roundup x y := by
  unfold Roundup
  apply Nat.mul_pos _ hy
  apply Nat.div_pos _ hy
  omega

theorem create_WF (fname : String) (fd : Int) (page_size : Nat) (hp : 0 < page_size) :
    (create fname fd page_size).WF :=
  createWithWindow_WF fname fd page_size _ (Roundup_pos _ _ (by decide) hp)

/-- The invariant `WF` holds in every state the writer reaches from its
construction by calls other than `Close`, whatever the system calls return. -/
theorem WF_reachable (fname : String) (fd : Int) (page_size : Nat) (hp : 0 < page_size)
    (iov_max fuel : Nat) (calls : List MmapCall)
    (hc : ∀ c ∈ calls, c.isClose = false ∧ c.Sane)
    (sts : List Status) (s1 : PosixMmapFile)
    (h : run iov_max fuel calls (create fname fd page_size) = some (sts, s1)) : s1.WF :=
  run_WF iov_max fuel calls _ s1 sts (create_WF fname fd page_size hp) hc h

end PosixMmapFile

namespace PosixMmapFile

theorem remapFails_success {s : PosixMmapFile} {r : RemapRet} (h : s.WF) (hr : r.Sane)
    (hok : (remapFails r s).1 = false) :
    (remapFails r s).2.view = s.view.remap ∧ 0 < (remapFails r s).2.limit - (remapFails r s).2.dst := by
  obtain ⟨h1, h2, h3, h4, h5⟩ := h
  obtain ⟨mu, ft, mm⟩ := r
  simp only [RemapRet.Sane] at hr
  cases mm with
  | fail e =>
    exfalso
    revert hok
    by_cases hb : s.base = NULL <;> cases mu <;>
      simp [remapFails, UnmapCurrentRegion, MapNewRegion, SysRet.isFail, hb] <;>
      split_ifs <;> simp
  | ok a =>
    have ha : a ≠ 0 := hr a rfl
    simp only [NULL] at *
    by_cases hb : s.base = 0
    · obtain ⟨hl, hd⟩ := h1 hb
      revert hok
      cases ft <;>
        simp [remapFails, UnmapCurrentRegion, MapNewRegion, NULL, SysRet.isFail,
          PosixMmapFile.view, View.remap, hb, hl, hd] <;>
        (try split_ifs) <;> simp_all
    · have hm := h2 hb
      have hw : ¬ (s.limit - s.base = 0) := by omega
      revert hok
      cases mu <;> cases ft <;>
        simp [remapFails, UnmapCurrentRegion, MapNewRegion, NULL, SysRet.isFail,
          PosixMmapFile.view, View.remap, hb, hw] <;>
        (try split_ifs) <;> simp_all


theorem AppendLoop_view (os : Nat → RemapRet) (hos : ∀ i, (os i).Sane) :
    ∀ (fuel i : Nat) (s : PosixMmapFile) (src : List Byte) (s1 : PosixMmapFile),
      s.WF → AppendLoop os fuel i s src = some (Status.OK, s1) → s1.view = s.view.puts src := by
  intro fuel
  induction fuel with
  | zero => intro i s src s1 _ h; simp [AppendLoop] at h
  | succ fuel ih =>
    intro i s src s1 hs h
    rw [AppendLoop] at h
    by_cases hl : src.length > 0
    · simp only [hl, if_true] at h
      have hne : src ≠ [] := List.length_pos.mp hl
      by_cases ha : s.limit - s.dst = 0
      · simp only [ha, if_true] at h
        have hr2 := remapFails_WF hs (hos i)
        by_cases hr : (remapFails (os i) s).1 = true
        · simp only [hr, if_true, Option.some.injEq, Prod.mk.injEq] at h
          exact absurd h.1 (IOError_ne_OK _ _)
        · have hr3 : (remapFails (os i) s).1 = false := by simpa using hr
          obtain ⟨v1, _⟩ := remapFails_success hs (hos i) hr3
          have hn : (if src.length ≤ 0 then src.length else 0) = 0 := by
            split_ifs <;> omega
          simp only [hr, Bool.false_eq_true, if_false, hn, List.take_zero, storeAt_nil,
            List.drop_zero, Nat.add_zero] at h
          rw [ih _ _ _ _ hr2 h, v1]
          exact View.puts_remap hs.view (by
            have := hs.null; have := hs.mapped
            simp only [PosixMmapFile.view, NULL] at *
            omega) src hne
      · simp only [ha, if_false, Bool.false_eq_true] at h
        have hb : s.base ≠ NULL := by
          intro hb; have := hs.null hb; simp only [NULL] at *; omega
        obtain ⟨m1, m2, m3⟩ := hs.mapped hb
        have hn2 : (if src.length ≤ s.limit - s.dst then src.length else s.limit - s.dst)
            ≤ src.length := by
          split_ifs <;> omega
        have hn3 : (if src.length ≤ s.limit - s.dst then src.length else s.limit - s.dst)
            ≤ s.limit - s.dst := by
          split_ifs <;> omega
        generalize (if src.length ≤ s.limit - s.dst then src.length else s.limit - s.dst) = n at *
        have hs1 : ({ s with disk := storeAt s.disk (s.file_offset + (s.dst - s.base)) (src.take n),
                             dst := s.dst + n } : PosixMmapFile).WF := by
          obtain ⟨h1, h2, h3, h4, h5⟩ := hs
          refine ⟨?_, ?_, h3, ?_, ?_⟩
          · intro h; exact absurd h hb
          · intro _; simp only; omega
          · simp only [storeAt_length]; exact h4
          · simp only [storeAt_length]; exact h5
        rw [ih _ _ _ _ hs1 h]
        have hlen : (src.take n).length = n := by simp; omega
        have hv : ({ s with disk := storeAt s.disk (s.file_offset + (s.dst - s.base)) (src.take n),
                            dst := s.dst + n } : PosixMmapFile).view = s.view.puts (src.take n) := by
          rw [View.puts_within hs.view _ (by simp only [PosixMmapFile.view, hlen]; omega)]
          simp only [PosixMmapFile.view, View.size, hlen]
          congr 1; omega
        rw [hv, ← View.puts_append, List.take_append_drop]
    · simp only [hl, if_false, Option.some.injEq, Prod.mk.injEq, true_and] at h
      subst h
      have : src = [] := by
        cases src with
        | nil => rfl
        | cons a t => simp at hl
      subst this
      rfl

theorem AdvanceLoop_view (os : Nat → RemapRet) (hos : ∀ i, (os i).Sane) :
    ∀ (fuel i : Nat) (s : PosixMmapFile) (left : Nat) (s1 : PosixMmapFile),
      s.WF → AdvanceLoop os fuel i s left = some (true, s1) → s1.view = s.view.skip left := by
  intro fuel
  induction fuel with
  | zero => intro i s left s1 _ h; simp [AdvanceLoop] at h
  | succ fuel ih =>
    intro i s left s1 hs h
    rw [AdvanceLoop] at h
    by_cases hl : left > 0
    · simp only [hl, if_true] at h
      by_cases ha : s.limit - s.dst = 0
      · simp only [ha, if_true] at h
        have hr2 := remapFails_WF hs (hos i)
        by_cases hr : (remapFails (os i) s).1 = true
        · simp [hr] at h
        · have hr3 : (remapFails (os i) s).1 = false := by simpa using hr
          obtain ⟨v1, _⟩ := remapFails_success hs (hos i) hr3
          have hn : (if left ≤ 0 then left else 0) = 0 := by
            split_ifs <;> omega
          simp only [hr, Bool.false_eq_true, if_false, hn, Nat.add_zero, Nat.sub_zero] at h
          rw [ih _ _ _ _ hr2 h, v1]
          exact View.skip_remap hs.view (by
            have := hs.null; have := hs.mapped
            simp only [PosixMmapFile.view, NULL] at *
            omega) left hl
      · simp only [ha, if_false, Bool.false_eq_true] at h
        have hb : s.base ≠ NULL := by
          intro hb; have := hs.null hb; simp only [NULL] at *; omega
        obtain ⟨m1, m2, m3⟩ := hs.mapped hb
        have hn2 : (if left ≤ s.limit - s.dst then left else s.limit - s.dst) ≤ left := by
          split_ifs <;> omega
        have hn3 : (if left ≤ s.limit - s.dst then left else s.limit - s.dst)
            ≤ s.limit - s.dst := by
          split_ifs <;> omega
        generalize (if left ≤ s.limit - s.dst then left else s.limit - s.dst) = n at *
        have hs1 : ({ s with dst := s.dst + n } : PosixMmapFile).WF := by
          obtain ⟨h1, h2, h3, h4, h5⟩ := hs
          refine ⟨?_, ?_, h3, h4, h5⟩
          · intro h; exact absurd h hb
          · intro _; simp only; omega
        rw [ih _ _ _ _ hs1 h]
        have hv : ({ s with dst := s.dst + n } : PosixMmapFile).view = s.view.skip n := by
          rw [View.skip_within _ _ (by simp only [PosixMmapFile.view]; omega)]
          simp only [PosixMmapFile.view]
          congr 1; omega
        rw [hv, ← View.skip_add]
        congr 1; omega
    · simp only [hl, if_false, Option.some.injEq, Prod.mk.injEq, true_and] at h
      subst h
      have : left = 0 := by omega
      subst this
      rfl

theorem DoWritev_view {w : WritevRet} (hw : ∀ i, (w.remap i).Sane) {fuel : Nat}
    {slices : List (List Byte)} {s s1 : PosixMmapFile} (hs : s.WF)
    (h : DoWritev w fuel slices s = some (Status.OK, s1)) :
    s1.view = s.view.puts slices.flatten := by
  have hsum : (slices.map List.length).sum = slices.flatten.length := by
    rw [List.length_flatten]
  unfold DoWritev at h
  simp only [hsum] at h
  cases ha : AdvanceLoop w.remap fuel 0 s slices.flatten.length with
  | none => rw [ha] at h; simp at h
  | some r =>
    obtain ⟨b, s2⟩ := r
    rw [ha] at h
    cases b with
    | false =>
      simp only [Option.some.injEq, Prod.mk.injEq] at h
      exact absurd h.1 (IOError_ne_OK _ _)
    | true =>
      have e2 := AdvanceLoop_view w.remap hw _ _ _ _ _ hs ha
      simp only at h
      cases hp : w.pwritev slices.flatten.length with
      | fail e =>
        rw [hp] at h
        simp only [Option.some.injEq, Prod.mk.injEq] at h
        exact absurd h.1 (IOError_ne_OK _ _)
      | ok written =>
        rw [hp] at h
        simp only at h
        by_cases hwr : written = slices.flatten.length
        · subst hwr
          simp only [ne_eq, not_true_eq_false, if_false, List.take_length, Option.some.injEq,
            Prod.mk.injEq, true_and] at h
          subst h
          have hlen := View.size_le_disk (View.skip_WF hs.view slices.flatten.length)
          rw [View.size_skip hs.view, ← e2] at hlen
          have hd : s2.view.disk = s2.disk := rfl
          have hsz : s.view.size = s.file_offset + (s.dst - s.base) := rfl
          rw [hd, hsz] at hlen
          rw [View.puts_eq hs.view, ← e2, pwriteFile_eq_storeAt _ _ _ hlen]
          rfl
        · have hwr2 : ¬ written = (slices.map List.length).sum := by rw [hsum]; exact hwr
          simp [hwr, hwr2] at h

theorem AppendVectorLoop_view (iov_max : Nat) (os : Nat → WritevRet)
    (hos : ∀ b i, ((os b).remap i).Sane) (fuel : Nat) :
    ∀ (k b : Nat) (rest : List (List Byte)) (s s1 : PosixMmapFile),
      s.WF → AppendVectorLoop iov_max os fuel k b rest s = some (Status.OK, s1) →
      s1.view = s.view.puts rest.flatten := by
  intro k
  induction k with
  | zero => intro b rest s s1 _ h; simp [AppendVectorLoop] at h
  | succ k ih =>
    intro b rest s s1 hs h
    rw [AppendVectorLoop] at h
    by_cases hl : rest.length > 0
    · simp only [hl, if_true] at h
      cases hd : DoWritev (os b) fuel (rest.take (min rest.length iov_max)) s with
      | none => rw [hd] at h; simp at h
      | some r =>
        obtain ⟨st2, s2⟩ := r
        rw [hd] at h
        simp only at h
        by_cases hst : st2.ok = true
        · have := (Status.ok_iff st2).mp hst
          subst this
          simp only [Status.ok, if_true] at h
          rw [ih _ _ _ _ (DoWritev_WF (hos b) hs hd) h, DoWritev_view (hos b) hs hd,
            ← View.puts_append, ← List.flatten_append, List.take_append_drop]
        · simp only [hst, Bool.false_eq_true, if_false, Option.some.injEq, Prod.mk.injEq] at h
          rw [h.1] at hst
          simp [Status.ok] at hst
    · simp only [hl, if_false, Option.some.injEq, Prod.mk.injEq, true_and] at h
      subst h
      have : rest = [] := by
        cases rest with
        | nil => rfl
        | cons a t => simp at hl
      subst this
      rfl

theorem exec_view {iov_max fuel : Nat} {c : MmapCall} (hc : c.isAppend = true) (hsane : c.Sane)
    {s s1 : PosixMmapFile} (hs : s.WF)
    (h : c.exec iov_max fuel s = some (Status.OK, s1)) : s1.view = s.view.puts c.bytes := by
  cases c with
  | Append os data => exact AppendLoop_view os hsane _ _ _ _ _ hs h
  | AppendVector os dv =>
    simp only [MmapCall.exec, AppendVector] at h
    cases hl : AppendVectorLoop iov_max os fuel fuel 0 dv s with
    | none => rw [hl] at h; simp at h
    | some r =>
      obtain ⟨st2, s2⟩ := r
      rw [hl] at h
      simp only at h
      by_cases hst : st2.ok = true
      · have := (Status.ok_iff st2).mp hst
        subst this
        simp only [Status.ok, if_true, Option.some.injEq, Prod.mk.injEq, true_and] at h
        subst h
        exact AppendVectorLoop_view iov_max os hsane fuel _ _ _ _ s2 hs hl
      · simp only [hst, Bool.false_eq_true, if_false, Option.some.injEq, Prod.mk.injEq] at h
        rw [h.1] at hst
        simp [Status.ok] at hst
  | PreAllocate _ _ => simp [MmapCall.isAppend] at hc
  | Sync _ _ => simp [MmapCall.isAppend] at hc
  | Close _ _ _ => simp [MmapCall.isAppend] at hc

theorem isClose_of_isAppend {c : MmapCall} (hc : c.isAppend = true) : c.isClose = false := by
  cases c <;> simp [MmapCall.isAppend, MmapCall.isClose] at hc ⊢

theorem run_view (iov_max fuel : Nat) :
    ∀ (calls : List MmapCall) (s s1 : PosixMmapFile) (sts : List Status), s.WF →
      (∀ c ∈ calls, c.isAppend = true ∧ c.Sane) →
      run iov_max fuel calls s = some (sts, s1) → (∀ st ∈ sts, st = Status.OK) →
      s1.view = s.view.puts (calls.map MmapCall.bytes).flatten := by
  intro calls
  induction calls with
  | nil =>
    intro s s1 sts hs _ h _
    simp only [run, Option.some.injEq, Prod.mk.injEq] at h
    obtain ⟨_, rfl⟩ := h
    rfl
  | cons c cs ih =>
    intro s s1 sts hs hc h hok
    rw [run] at h
    cases he : c.exec iov_max fuel s with
    | none => rw [he] at h; simp at h
    | some r =>
      obtain ⟨st, s2⟩ := r
      obtain ⟨c1, c2⟩ := hc c (List.mem_cons_self _ _)
      rw [he] at h
      simp only at h
      cases hr : run iov_max fuel cs s2 with
      | none => rw [hr] at h; simp at h
      | some r2 =>
        obtain ⟨sts2, s3⟩ := r2
        rw [hr] at h
        simp only [Option.some.injEq, Prod.mk.injEq] at h
        obtain ⟨rfl, rfl⟩ := h
        have hst : st = Status.OK := hok st (List.mem_cons_self _ _)
        subst hst
        have hs2 := exec_WF (isClose_of_isAppend c1) c2 hs he
        rw [ih s2 s3 sts2 hs2 (fun c hc' => hc c (List.mem_cons_of_mem _ hc')) hr
          (fun st hst => hok st (List.mem_cons_of_mem _ hst)), exec_view c1 c2 hs he,
          ← View.puts_append]
        simp

end PosixMmapFile

section
open PosixMmapFile

theorem RemapRet_AllOk_Sane {r : RemapRet} (h : r.AllOk) : r.Sane := by
  obtain ⟨_, _, a, ha, ha0⟩ := h
  intro b hb
  rw [ha] at hb
  cases hb
  exact ha0

theorem MmapCall_AllOk_Sane {c : MmapCall} (h : c.AllOk) : c.Sane := by
  cases c with
  | Append os data => exact fun i => RemapRet_AllOk_Sane (h i)
  | AppendVector os dv => exact fun b i => RemapRet_AllOk_Sane ((h b).1 i)
  | PreAllocate _ _ => trivial
  | Sync _ _ => trivial
  | Close _ _ _ => trivial

/-- C4: on a freshly created mapped writer (initial window `w > 0`), after any
sequence of `Append` and `AppendVector` calls that all returned OK, `Size()`,
that is `file_offset_ + (dst_ - base_)`, is the total number of bytes
appended, however many times the window was switched; and when every system
call succeeds (given enough fuel for the loops) the calls do all return OK. -/
theorem C4_size_is_total_appended (fname : String) (fd : Int) (page_size w : Nat)
    (hw : 0 < w) (iov_max fuel : Nat) (calls : List MmapCall)
    (hcalls : ∀ c ∈ calls, c.isAppend = true ∧ c.Sane) :
    (∀ sts s1, PosixMmapFile.run iov_max fuel calls (createWithWindow fname fd page_size w)
        = some (sts, s1) → (∀ st ∈ sts, st = Status.OK) →
      s1.Size = ((calls.map MmapCall.bytes).flatten).length ∧
      s1.Size = s1.file_offset + (s1.dst - s1.base)) ∧
    (0 < iov_max → (∀ c ∈ calls, c.AllOk ∧ c.cost ≤ fuel) →
      ∃ sts s1, PosixMmapFile.run iov_max fuel calls (createWithWindow fname fd page_size w)
        = some (sts, s1) ∧ (∀ st ∈ sts, st = Status.OK) ∧ sts.length = calls.length) := by
  have hwf := createWithWindow_WF fname fd page_size w hw
  constructor
  · intro sts s1 hrun hok
    have hv := run_view iov_max fuel calls _ s1 sts hwf hcalls hrun hok
    refine ⟨?_, rfl⟩
    have : s1.Size = s1.view.size := rfl
    rw [this, hv, View.size_puts hwf.view]
    simp [View.size, PosixMmapFile.view, createWithWindow, create, NULL]
  · intro hiov hall
    obtain ⟨sts, s1, e1, e2, e3, _, _⟩ := run_appends_ok hiov fuel calls _ hwf
      (fun c hc => ⟨(hcalls c hc).1, (hall c hc).1, (hall c hc).2⟩)
    exact ⟨sts, s1, e1, e2, e3⟩

theorem C4_hello_world :
    ∃ sts s1, PosixMmapFile.run 1024 14
        [MmapCall.Append (fun _ => RemapRet.mk (SysRet.ok 0) (SysRet.ok 0) (SysRet.ok 4096))
            [104, 101, 108, 108, 111],
         MmapCall.Append (fun _ => RemapRet.mk (SysRet.ok 0) (SysRet.ok 0) (SysRet.ok 4096))
            [32, 119, 111, 114, 108, 100]]
        (createWithWindow "f" 3 4096 4) = some (sts, s1) ∧
      (∀ st ∈ sts, st = Status.OK) ∧ s1.Size = 11 := by
  have hall : ∀ c ∈
      [MmapCall.Append (fun _ => RemapRet.mk (SysRet.ok 0) (SysRet.ok 0) (SysRet.ok 4096))
          [104, 101, 108, 108, 111],
       MmapCall.Append (fun _ => RemapRet.mk (SysRet.ok 0) (SysRet.ok 0) (SysRet.ok 4096))
          [32, 119, 111, 114, 108, 100]], c.AllOk ∧ c.cost ≤ 14 := by
    intro c hc
    simp only [List.mem_cons, List.mem_singleton, List.not_mem_nil, or_false] at hc
    rcases hc with rfl | rfl
    · exact ⟨fun _ => okRemap_AllOk, by decide⟩
    · exact ⟨fun _ => okRemap_AllOk, by decide⟩
  have hcalls : ∀ c ∈
      [MmapCall.Append (fun _ => RemapRet.mk (SysRet.ok 0) (SysRet.ok 0) (SysRet.ok 4096))
          [104, 101, 108, 108, 111],
       MmapCall.Append (fun _ => RemapRet.mk (SysRet.ok 0) (SysRet.ok 0) (SysRet.ok 4096))
          [32, 119, 111, 114, 108, 100]], c.isAppend = true ∧ c.Sane := by
    intro c hc
    refine ⟨?_, MmapCall_AllOk_Sane (hall c hc).1⟩
    simp only [List.mem_cons, List.mem_singleton, List.not_mem_nil, or_false] at hc
    rcases hc with rfl | rfl <;> rfl
  obtain ⟨h1, h2⟩ := C4_size_is_total_appended "f" 3 4096 4 (by decide) 1024 14 _ hcalls
  obtain ⟨sts, s1, e1, e2, _⟩ := h2 (by decide) hall
  exact ⟨sts, s1, e1, e2, (h1 sts s1 e1 e2).1⟩

end

namespace PosixMmapFile

theorem CursorInv_of_eq {s s1 : PosixMmapFile} (h : s.CursorInv) (hb : s1.base = s.base)
    (hl : s1.limit = s.limit) (hd : s1.dst = s.dst) (hy : s1.last_sync = s.last_sync)
    (hm : s1.map_size = s.map_size) : s1.CursorInv := by
  unfold CursorInv at *
  rw [hb, hl, hd, hy, hm]
  exact h

theorem UnmapCurrentRegion_CursorInv {s : PosixMmapFile} (h : s.CursorInv) (m : SysRet) :
    (UnmapCurrentRegion m s).2.CursorInv ∧ (UnmapCurrentRegion m s).2.base = NULL := by
  unfold UnmapCurrentRegion
  by_cases hb : s.base = NULL
  · simp only [ne_eq, hb, not_true_eq_false, if_false]
    exact ⟨h, trivial⟩
  · simp only [ne_eq, hb, not_false_eq_true, if_true, and_true]
    exact Or.inl ⟨rfl, rfl, rfl, rfl⟩

theorem MapNewRegion_CursorInv {s : PosixMmapFile} (h : s.CursorInv) (hb : s.base = NULL)
    (f mm : SysRet) (hsane : ∀ a, mm = SysRet.ok a → a ≠ NULL) :
    (MapNewRegion f mm s).2.CursorInv := by
  have hnull : s.base = NULL ∧ s.limit = NULL ∧ s.dst = NULL ∧ s.last_sync = NULL := by
    rcases h with h | h
    · exact h
    · exact absurd hb h.1
  unfold MapNewRegion
  simp only
  by_cases hc : s.file_offset + s.map_size ≥ s.pre_allocated_size ∧ f.isFail = true
  · rw [if_pos hc]
    exact Or.inl hnull
  · rw [if_neg hc]
    cases mm with
    | fail e => exact Or.inl hnull
    | ok a =>
      have ha := hsane a rfl
      refine Or.inr ⟨ha, le_refl _, le_refl _, ?_, ?_⟩ <;> simp only <;> omega

theorem remapFails_CursorInv {s : PosixMmapFile} (h : s.CursorInv) {r : RemapRet}
    (hr : r.Sane) : (remapFails r s).2.CursorInv := by
  obtain ⟨u1, u2⟩ := UnmapCurrentRegion_CursorInv h r.munmap
  unfold remapFails
  simp only
  split_ifs
  · exact u1
  · exact MapNewRegion_CursorInv u1 u2 _ _ hr

theorem CursorInv_advance {s : PosixMmapFile} (h : s.CursorInv) (n : Nat)
    (hn : n ≤ s.limit - s.dst) (d : List Byte) :
    ({ s with disk := d, dst := s.dst + n } : PosixMmapFile).CursorInv := by
  rcases h with ⟨h1, h2, h3, h4⟩ | ⟨h1, h2, h3, h4, h5⟩
  · have : n = 0 := by rw [h2, h3] at hn; simp only [NULL] at hn; omega
    subst this
    exact Or.inl ⟨h1, h2, h3, h4⟩
  · exact Or.inr ⟨h1, h2, by simp only; omega, by simp only; omega, h5⟩

theorem AppendLoop_CursorInv (os : Nat → RemapRet) (hos : ∀ i, (os i).Sane) :
    ∀ (fuel i : Nat) (s : PosixMmapFile) (src : List Byte) (st : Status) (s1 : PosixMmapFile),
      s.CursorInv → AppendLoop os fuel i s src = some (st, s1) → s1.CursorInv := by
  intro fuel
  induction fuel with
  | zero => intro i s src st s1 _ h; simp [AppendLoop] at h
  | succ fuel ih =>
    intro i s src st s1 hs h
    rw [AppendLoop] at h
    by_cases hl : src.length > 0
    · simp only [hl, if_true] at h
      by_cases ha : s.limit - s.dst = 0
      · simp only [ha, if_true] at h
        have hr2 := remapFails_CursorInv hs (hos i)
        by_cases hr : (remapFails (os i) s).1 = true
        · simp only [hr, if_true, Option.some.injEq, Prod.mk.injEq] at h
          obtain ⟨_, rfl⟩ := h
          exact hr2
        · have hn : (if src.length ≤ 0 then src.length else 0) = 0 := by
            split_ifs <;> omega
          simp only [hr, Bool.false_eq_true, if_false, hn, List.take_zero, storeAt_nil,
            List.drop_zero, Nat.add_zero] at h
          exact ih _ _ _ _ _ hr2 h
      · simp only [ha, if_false, Bool.false_eq_true] at h
        have hn3 : (if src.length ≤ s.limit - s.dst then src.length else s.limit - s.dst)
            ≤ s.limit - s.dst := by
          split_ifs <;> omega
        generalize (if src.length ≤ s.limit - s.dst then src.length else s.limit - s.dst) = n at *
        exact ih _ _ _ _ _ (CursorInv_advance hs n hn3 _) h
    · simp only [hl, if_false, Option.some.injEq, Prod.mk.injEq] at h
      obtain ⟨_, rfl⟩ := h
      exact hs

theorem AdvanceLoop_CursorInv (os : Nat → RemapRet) (hos : ∀ i, (os i).Sane) :
    ∀ (fuel i : Nat) (s : PosixMmapFile) (left : Nat) (b : Bool) (s1 : PosixMmapFile),
      s.CursorInv → AdvanceLoop os fuel i s left = some (b, s1) → s1.CursorInv := by
  intro fuel
  induction fuel with
  | zero => intro i s left b s1 _ h; simp [AdvanceLoop] at h
  | succ fuel ih =>
    intro i s left b s1 hs h
    rw [AdvanceLoop] at h
    by_cases hl : left > 0
    · simp only [hl, if_true] at h
      by_cases ha : s.limit - s.dst = 0
      · simp only [ha, if_true] at h
        have hr2 := remapFails_CursorInv hs (hos i)
        by_cases hr : (remapFails (os i) s).1 = true
        · simp only [hr, if_true, Option.some.injEq, Prod.mk.injEq] at h
          obtain ⟨_, rfl⟩ := h
          exact hr2
        · have hn : (if left ≤ 0 then left else 0) = 0 := by
            split_ifs <;> omega
          simp only [hr, Bool.false_eq_true, if_false, hn, Nat.add_zero, Nat.sub_zero] at h
          exact ih _ _ _ _ _ hr2 h
      · simp only [ha, if_false, Bool.false_eq_true] at h
        have hn3 : (if left ≤ s.limit - s.dst then left else s.limit - s.dst)
            ≤ s.limit - s.dst := by
          split_ifs <;> omega
        generalize (if left ≤ s.limit - s.dst then left else s.limit - s.dst) = n at *
        exact ih _ _ _ _ _ (CursorInv_advance hs n hn3 s.disk) h
    · simp only [hl, if_false, Option.some.injEq, Prod.mk.injEq] at h
      obtain ⟨_, rfl⟩ := h
      exact hs


theorem DoWritev_CursorInv {w : WritevRet} (hw : ∀ i, (w.remap i).Sane) {fuel : Nat}
    {slices : List (List Byte)} {s s1 : PosixMmapFile} {st : Status} (hs : s.CursorInv)
    (h : DoWritev w fuel slices s = some (st, s1)) : s1.CursorInv := by
  unfold DoWritev at h
  simp only at h
  cases ha : AdvanceLoop w.remap fuel 0 s (slices.map List.length).sum with
  | none => rw [ha] at h; simp at h
  | some r =>
    obtain ⟨b, s2⟩ := r
    have hs2 := AdvanceLoop_CursorInv w.remap hw _ _ _ _ _ _ hs ha
    rw [ha] at h
    cases b with
    | false =>
      simp only [Option.some.injEq, Prod.mk.injEq] at h
      obtain ⟨_, rfl⟩ := h
      exact hs2
    | true =>
      simp only at h
      cases hp : w.pwritev (slices.map List.length).sum with
      | fail e =>
        rw [hp] at h
        simp only [Option.some.injEq, Prod.mk.injEq] at h
        obtain ⟨_, rfl⟩ := h
        exact CursorInv_of_eq hs2 rfl rfl rfl rfl rfl
      | ok written =>
        rw [hp] at h
        simp only at h
        split_ifs at h <;>
        · simp only [Option.some.injEq, Prod.mk.injEq] at h
          obtain ⟨_, rfl⟩ := h
          exact CursorInv_of_eq hs2 rfl rfl rfl rfl rfl

theorem AppendVectorLoop_CursorInv (iov_max : Nat) (os : Nat → WritevRet)
    (hos : ∀ b i, ((os b).remap i).Sane) (fuel : Nat) :
    ∀ (k b : Nat) (rest : List (List Byte)) (s s1 : PosixMmapFile) (st : Status),
      s.CursorInv → AppendVectorLoop iov_max os fuel k b rest s = some (st, s1) →
      s1.CursorInv := by
  intro k
  induction k with
  | zero => intro b rest s s1 st _ h; simp [AppendVectorLoop] at h
  | succ k ih =>
    intro b rest s s1 st hs h
    rw [AppendVectorLoop] at h
    simp only at h
    split_ifs at h with hl
    · cases hd : DoWritev (os b) fuel (rest.take (min rest.length iov_max)) s with
      | none => rw [hd] at h; simp at h
      | some r =>
        obtain ⟨st2, s2⟩ := r
        have hs2 := DoWritev_CursorInv (hos b) hs hd
        rw [hd] at h
        simp only at h
        split_ifs at h
        · exact ih _ _ _ _ _ hs2 h
        · simp only [Option.some.injEq, Prod.mk.injEq] at h
          obtain ⟨_, rfl⟩ := h
          exact hs2
    · simp only [Option.some.injEq, Prod.mk.injEq] at h
      obtain ⟨_, rfl⟩ := h
      exact hs

theorem Sync_CursorInv {s : PosixMmapFile} (hs : s.CursorInv) (a b : SysRet) :
    (Sync a b s).2.1.CursorInv := by
  have hcase : ∀ s2 : PosixMmapFile, s2.base = s.base → s2.limit = s.limit → s2.dst = s.dst →
      s2.map_size = s.map_size → (s2.last_sync = s.last_sync ∨
        (s.dst > s.last_sync ∧ s2.last_sync = s.dst)) → s2.CursorInv := by
    intro s2 e1 e2 e3 e4 e5
    rcases e5 with e5 | ⟨e5, e6⟩
    · exact CursorInv_of_eq hs e1 e2 e3 e5 e4
    · unfold CursorInv at hs ⊢
      rw [e1, e2, e3, e4, e6]
      rcases hs with ⟨h1, h2, h3, h4⟩ | ⟨h1, h2, h3, h4, h5⟩
      · rw [h3, h4] at e5; simp only [NULL] at e5; omega
      · exact Or.inr ⟨h1, by omega, le_refl _, h4, h5⟩
  unfold Sync
  cases a <;> cases b <;> cases hp : s.pending_sync <;>
    by_cases hd : s.dst > s.last_sync <;>
    simp only [hd, if_true, if_false, Bool.false_eq_true] <;>
    first
    | exact hcase _ rfl rfl rfl rfl (Or.inl rfl)
    | exact hcase _ rfl rfl rfl rfl (Or.inr ⟨hd, rfl⟩)

theorem Close_CursorInv {s : PosixMmapFile} (hs : s.CursorInv) (m f c : SysRet) :
    (Close m f c s).2.CursorInv := by
  obtain ⟨u1, u2⟩ := UnmapCurrentRegion_CursorInv hs m
  have hnull : (UnmapCurrentRegion m s).2.dst = NULL ∧
      (UnmapCurrentRegion m s).2.last_sync = NULL := by
    rcases u1 with h | h
    · exact ⟨h.2.2.1, h.2.2.2⟩
    · exact absurd u2 h.1
  unfold Close
  simp only
  refine Or.inl ⟨rfl, rfl, ?_, ?_⟩
  · cases f <;> cases c <;> split_ifs <;> exact hnull.1
  · cases f <;> cases c <;> split_ifs <;> exact hnull.2

theorem exec_CursorInv {iov_max fuel : Nat} {c : MmapCall} (hsane : c.Sane)
    {s s1 : PosixMmapFile} {st : Status} (hs : s.CursorInv)
    (h : c.exec iov_max fuel s = some (st, s1)) : s1.CursorInv := by
  cases c with
  | PreAllocate r size =>
    simp only [MmapCall.exec, Option.some.injEq] at h
    cases r <;>
    · simp only [PreAllocate, Prod.mk.injEq] at h
      obtain ⟨_, rfl⟩ := h
      exact CursorInv_of_eq hs rfl rfl rfl rfl rfl
  | Append os data => exact AppendLoop_CursorInv os hsane _ _ _ _ _ _ hs h
  | AppendVector os dv =>
    simp only [MmapCall.exec, AppendVector] at h
    cases hl : AppendVectorLoop iov_max os fuel fuel 0 dv s with
    | none => rw [hl] at h; simp at h
    | some r =>
      obtain ⟨st2, s2⟩ := r
      have hs2 := AppendVectorLoop_CursorInv iov_max os hsane fuel _ _ _ _ _ _ hs hl
      rw [hl] at h
      simp only at h
      split_ifs at h <;>
      · simp only [Option.some.injEq, Prod.mk.injEq] at h
        obtain ⟨_, rfl⟩ := h
        exact CursorInv_of_eq hs2 rfl rfl rfl rfl rfl
  | Sync a b =>
    simp only [MmapCall.exec, Option.some.injEq, Prod.mk.injEq] at h
    obtain ⟨_, rfl⟩ := h
    exact Sync_CursorInv hs a b
  | Close a b c =>
    simp only [MmapCall.exec, Option.some.injEq, Prod.mk.injEq] at h
    obtain ⟨_, rfl⟩ := h
    exact Close_CursorInv hs a b c

theorem run_CursorInv (iov_max fuel : Nat) :
    ∀ (calls : List MmapCall) (s s1 : PosixMmapFile) (sts : List Status), s.CursorInv →
      (∀ c ∈ calls, c.Sane) →
      run iov_max fuel calls s = some (sts, s1) → s1.CursorInv := by
  intro calls
  induction calls with
  | nil =>
    intro s s1 sts hs _ h
    simp only [run, Option.some.injEq, Prod.mk.injEq] at h
    obtain ⟨_, rfl⟩ := h
    exact hs
  | cons c cs ih =>
    intro s s1 sts hs hc h
    rw [run] at h
    cases he : c.exec iov_max fuel s with
    | none => rw [he] at h; simp at h
    | some r =>
      obtain ⟨st, s2⟩ := r
      have hs2 := exec_CursorInv (hc c (List.mem_cons_self _ _)) hs he
      rw [he] at h
      simp only at h
      cases hr : run iov_max fuel cs s2 with
      | none => rw [hr] at h; simp at h
      | some r2 =>
        obtain ⟨sts2, s3⟩ := r2
        rw [hr] at h
        simp only [Option.some.injEq, Prod.mk.injEq] at h
        obtain ⟨_, rfl⟩ := h
        exact ih s2 s3 sts2 hs2 (fun c hc' => hc c (List.mem_cons_of_mem _ hc')) hr

theorem createWithWindow_CursorInv (fname : String) (fd : Int) (page_size w : Nat) :
    (createWithWindow fname fd page_size w).CursorInv :=
  Or.inl ⟨rfl, rfl, rfl, rfl⟩

end PosixMmapFile

section
open PosixMmapFile

theorem create_eq_createWithWindow (fname : String) (fd : Int) (page_size : Nat) :
    create fname fd page_size = createWithWindow fname fd page_size (Roundup 65536 page_size) :=
  rfl

/-- C11: in every state the mapped writer reaches from its construction by
`PreAllocate`, `Append`, `AppendVector`, `Sync` and `Close` calls, whatever the
system calls return (a successful `mmap` never returning the null address),
either no window is mapped and `base_`, `limit_`, `dst_` and `last_sync_` are
all null, or a window is mapped and `base_ ≤ last_sync_ ≤ dst_ ≤ limit_` with
`limit_ - base_` equal to `map_size_`, which is the size the window was mapped
with.  Stated for a first window of any size `w`; the constructor is the case
`w = Roundup 65536 page_size` (`create_eq_createWithWindow`). -/
theorem C11_cursor_invariant (fname : String) (fd : Int) (page_size w iov_max fuel : Nat)
    (calls : List MmapCall) (hsane : ∀ c ∈ calls, c.Sane) (sts : List Status)
    (s1 : PosixMmapFile)
    (hrun : PosixMmapFile.run iov_max fuel calls (createWithWindow fname fd page_size w)
      = some (sts, s1)) :
    (s1.base = NULL ∧ s1.limit = NULL ∧ s1.dst = NULL ∧ s1.last_sync = NULL) ∨
    (s1.base ≠ NULL ∧ s1.base ≤ s1.last_sync ∧ s1.last_sync ≤ s1.dst ∧ s1.dst ≤ s1.limit ∧
      s1.limit - s1.base = s1.map_size) :=
  run_CursorInv iov_max fuel calls _ s1 sts (createWithWindow_CursorInv fname fd page_size w)
    hsane hrun

theorem okRemap_Sane : (RemapRet.mk (SysRet.ok 0) (SysRet.ok 0) (SysRet.ok 4096)).Sane :=
  RemapRet_AllOk_Sane okRemap_AllOk

theorem C11_witness :
    ((4096 : Nat) = NULL ∧ (4104 : Nat) = NULL ∧ (4103 : Nat) = NULL ∧ (4103 : Nat) = NULL) ∨
    ((4096 : Nat) ≠ NULL ∧ 4096 ≤ 4103 ∧ 4103 ≤ 4103 ∧ 4103 ≤ 4104 ∧ 4104 - 4096 = 8) :=
  C11_cursor_invariant "f" 3 4096 4 1024 14
    [MmapCall.Append (fun _ => RemapRet.mk (SysRet.ok 0) (SysRet.ok 0) (SysRet.ok 4096))
        [104, 101, 108, 108, 111],
     MmapCall.Append (fun _ => RemapRet.mk (SysRet.ok 0) (SysRet.ok 0) (SysRet.ok 4096))
        [32, 119, 111, 114, 108, 100],
     MmapCall.Sync (SysRet.ok 0) (SysRet.fail 5)]
    (by
      intro c hc
      simp only [List.mem_cons, List.mem_singleton, List.not_mem_nil, or_false] at hc
      rcases hc with rfl | rfl | rfl
      · exact fun _ => okRemap_Sane
      · exact fun _ => okRemap_Sane
      · trivial)
    [Status.OK, Status.OK, Status.IOError "f" 5]
    { filename := "f", fd := 3, page_size := 4096, map_size := 8, base := 4096, limit := 4104,
      dst := 4103, last_sync := 4103, file_offset := 4, pre_allocated_size := 0,
      pending_sync := false,
      disk := [104, 101, 108, 108, 111, 32, 119, 111, 114, 108, 100, 0], errno := 5 }
    (by decide)

end

namespace PosixMmapFile

theorem Grown.refl (a : Nat) : Grown a a := ⟨0, rfl⟩

theorem Grown.trans {a b c : Nat} (h1 : Grown a b) (h2 : Grown b c) : Grown a c := by
  obtain ⟨n, rfl⟩ := h1
  obtain ⟨m, rfl⟩ := h2
  exact ⟨m + n, by rw [Function.iterate_add_apply]⟩

theorem Grown.next (a : Nat) : Grown a (nextMapSize a) := ⟨1, rfl⟩

theorem le_nextMapSize (a : Nat) : a ≤ nextMapSize a := by
  unfold nextMapSize; split_ifs <;> omega

theorem Grown.le {a b : Nat} (h : Grown a b) : a ≤ b := by
  obtain ⟨n, rfl⟩ := h
  induction n with
  | zero => exact le_refl _
  | succ n ih =>
    rw [Function.iterate_succ_apply']
    exact le_trans ih (le_nextMapSize _)

theorem nextMapSize_of_ge {a : Nat} (h : 2 ^ 20 ≤ a) : nextMapSize a = a := by
  unfold nextMapSize; rw [if_neg (by omega)]

theorem Grown.eq_of_ge {a b : Nat} (h : Grown a b) (ha : 2 ^ 20 ≤ a) : b = a := by
  obtain ⟨n, rfl⟩ := h
  induction n with
  | zero => rfl
  | succ n ih => rw [Function.iterate_succ_apply', ih, nextMapSize_of_ge ha]

theorem nextMapSize_iterate_pow (i n : Nat) (hi : i ≤ 20) :
    nextMapSize^[n] (2 ^ i) = 2 ^ (min (i + n) 20) := by
  induction n with
  | zero => simp [Nat.min_eq_left hi]
  | succ n ih =>
    rw [Function.iterate_succ_apply', ih]
    by_cases hlt : i + n < 20
    · have h1 : min (i + n) 20 = i + n := by omega
      have h2 : min (i + (n + 1)) 20 = i + n + 1 := by omega
      rw [h1, h2]
      unfold nextMapSize
      rw [if_pos (Nat.pow_lt_pow_right (by decide) hlt), pow_succ]
    · have h1 : min (i + n) 20 = 20 := by omega
      have h2 : min (i + (n + 1)) 20 = 20 := by omega
      rw [h1, h2]
      exact nextMapSize_of_ge (le_refl _)

theorem Roundup_pow (j : Nat) : Roundup 65536 (2 ^ j) = 2 ^ (max 16 j) := by
  unfold Roundup
  by_cases hj : j ≤ 16
  · rw [Nat.max_eq_left hj]
    interval_cases j <;> decide
  · have hj2 : 16 < j := by omega
    rw [Nat.max_eq_right (by omega)]
    have hlt : 2 ^ 16 < 2 ^ j := Nat.pow_lt_pow_right (by decide) hj2
    have hpos : 0 < 2 ^ j := Nat.two_pow_pos j
    have hdiv : (65536 + 2 ^ j - 1) / 2 ^ j = 1 := by
      apply Nat.div_eq_of_lt_le
      · simp only [one_mul]; omega
      · norm_num; omega
    rw [hdiv, one_mul]

theorem UnmapCurrentRegion_map_size (m : SysRet) (s : PosixMmapFile) :
    (UnmapCurrentRegion m s).2.map_size =
      if s.base ≠ NULL then (if s.map_size < 2 ^ 20 then s.map_size * 2 else s.map_size)
      else s.map_size := by
  unfold UnmapCurrentRegion
  by_cases hb : s.base = NULL
  · simp only [ne_eq, hb, not_true_eq_false, if_false]
  · simp only [ne_eq, hb, not_false_eq_true, if_true]

theorem MapNewRegion_map_size (f mm : SysRet) (s : PosixMmapFile) :
    (MapNewRegion f mm s).2.map_size = s.map_size := by
  unfold MapNewRegion
  simp only
  by_cases hc : s.file_offset + s.map_size ≥ s.pre_allocated_size ∧ f.isFail = true
  · rw [if_pos hc]
  · rw [if_neg hc]
    cases mm <;> rfl

theorem remapFails_Grown (r : RemapRet) (s : PosixMmapFile) :
    Grown s.map_size (remapFails r s).2.map_size := by
  have hu : Grown s.map_size (UnmapCurrentRegion r.munmap s).2.map_size := by
    rw [UnmapCurrentRegion_map_size]
    by_cases hb : s.base = NULL
    · simp only [ne_eq, hb, not_true_eq_false, if_false]; exact Grown.refl _
    · simp only [ne_eq, hb, not_false_eq_true, if_true]; exact Grown.next _
  unfold remapFails
  simp only
  split_ifs
  · exact hu
  · rw [MapNewRegion_map_size]; exact hu

end PosixMmapFile

namespace PosixMmapFile

theorem AppendLoop_Grown (os : Nat → RemapRet) :
    ∀ (fuel i : Nat) (s : PosixMmapFile) (src : List Byte) (st : Status) (s1 : PosixMmapFile),
      AppendLoop os fuel i s src = some (st, s1) → Grown s.map_size s1.map_size := by
  intro fuel
  induction fuel with
  | zero => intro i s src st s1 h; simp [AppendLoop] at h
  | succ fuel ih =>
    intro i s src st s1 h
    rw [AppendLoop] at h
    by_cases hl : src.length > 0
    · simp only [hl, if_true] at h
      by_cases ha : s.limit - s.dst = 0
      · simp only [ha, if_true] at h
        have hr2 := remapFails_Grown (os i) s
        by_cases hr : (remapFails (os i) s).1 = true
        · simp only [hr, if_true, Option.some.injEq, Prod.mk.injEq] at h
          obtain ⟨_, rfl⟩ := h
          exact hr2
        · simp only [hr, Bool.false_eq_true, if_false] at h
          have h2 := ih _ _ _ _ _ h
          exact hr2.trans h2
      · simp only [ha, if_false, Bool.false_eq_true] at h
        have h2 := ih _ _ _ _ _ h
        exact h2
    · simp only [hl, if_false, Option.some.injEq, Prod.mk.injEq] at h
      obtain ⟨_, rfl⟩ := h
      exact Grown.refl _

theorem AdvanceLoop_Grown (os : Nat → RemapRet) :
    ∀ (fuel i : Nat) (s : PosixMmapFile) (left : Nat) (b : Bool) (s1 : PosixMmapFile),
      AdvanceLoop os fuel i s left = some (b, s1) → Grown s.map_size s1.map_size := by
  intro fuel
  induction fuel with
  | zero => intro i s left b s1 h; simp [AdvanceLoop] at h
  | succ fuel ih =>
    intro i s left b s1 h
    rw [AdvanceLoop] at h
    by_cases hl : left > 0
    · simp only [hl, if_true] at h
      by_cases ha : s.limit - s.dst = 0
      · simp only [ha, if_true] at h
        have hr2 := remapFails_Grown (os i) s
        by_cases hr : (remapFails (os i) s).1 = true
        · simp only [hr, if_true, Option.some.injEq, Prod.mk.injEq] at h
          obtain ⟨_, rfl⟩ := h
          exact hr2
        · simp only [hr, Bool.false_eq_true, if_false] at h
          have h2 := ih _ _ _ _ _ h
          exact hr2.trans h2
      · simp only [ha, if_false, Bool.false_eq_true] at h
        have h2 := ih _ _ _ _ _ h
        exact h2
    · simp only [hl, if_false, Option.some.injEq, Prod.mk.injEq] at h
      obtain ⟨_, rfl⟩ := h
      exact Grown.refl _

theorem DoWritev_Grown {w : WritevRet} {fuel : Nat} {slices : List (List Byte)}
    {s s1 : PosixMmapFile} {st : Status}
    (h : DoWritev w fuel slices s = some (st, s1)) : Grown s.map_size s1.map_size := by
  unfold DoWritev at h
  simp only at h
  cases ha : AdvanceLoop w.remap fuel 0 s (slices.map List.length).sum with
  | none => rw [ha] at h; simp at h
  | some r =>
    obtain ⟨b, s2⟩ := r
    have hs2 := AdvanceLoop_Grown w.remap _ _ _ _ _ _ ha
    rw [ha] at h
    cases b with
    | false =>
      simp only [Option.some.injEq, Prod.mk.injEq] at h
      obtain ⟨_, rfl⟩ := h
      exact hs2
    | true =>
      simp only at h
      cases hp : w.pwritev (slices.map List.length).sum with
      | fail e =>
        rw [hp] at h
        simp only [Option.some.injEq, Prod.mk.injEq] at h
        obtain ⟨_, rfl⟩ := h
        exact hs2
      | ok written =>
        rw [hp] at h
        simp only at h
        split_ifs at h <;>
        · simp only [Option.some.injEq, Prod.mk.injEq] at h
          obtain ⟨_, rfl⟩ := h
          exact hs2

theorem AppendVectorLoop_Grown (iov_max : Nat) (os : Nat → WritevRet) (fuel : Nat) :
    ∀ (k b : Nat) (rest : List (List Byte)) (s s1 : PosixMmapFile) (st : Status),
      AppendVectorLoop iov_max os fuel k b rest s = some (st, s1) →
      Grown s.map_size s1.map_size := by
  intro k
  induction k with
  | zero => intro b rest s s1 st h; simp [AppendVectorLoop] at h
  | succ k ih =>
    intro b rest s s1 st h
    rw [AppendVectorLoop] at h
    simp only at h
    split_ifs at h with hl
    · cases hd : DoWritev (os b) fuel (rest.take (min rest.length iov_max)) s with
      | none => rw [hd] at h; simp at h
      | some r =>
        obtain ⟨st2, s2⟩ := r
        have hs2 := DoWritev_Grown hd
        rw [hd] at h
        simp only at h
        split_ifs at h
        · have h2 := ih _ _ _ _ _ h
          exact hs2.trans h2
        · simp only [Option.some.injEq, Prod.mk.injEq] at h
          obtain ⟨_, rfl⟩ := h
          exact hs2
    · simp only [Option.some.injEq, Prod.mk.injEq] at h
      obtain ⟨_, rfl⟩ := h
      exact Grown.refl _

theorem Sync_map_size (a b : SysRet) (s : PosixMmapFile) :
    (Sync a b s).2.1.map_size = s.map_size := by
  unfold Sync
  cases a <;> cases b <;> cases hp : s.pending_sync <;>
    by_cases hd : s.dst > s.last_sync <;>
    simp only [hd, if_true, if_false, Bool.false_eq_true]

theorem Close_Grown (m f c : SysRet) (s : PosixMmapFile) :
    Grown s.map_size (Close m f c s).2.map_size := by
  have hu : Grown s.map_size (UnmapCurrentRegion m s).2.map_size := by
    rw [UnmapCurrentRegion_map_size]
    by_cases hb : s.base = NULL
    · simp only [ne_eq, hb, not_true_eq_false, if_false]; exact Grown.refl _
    · simp only [ne_eq, hb, not_false_eq_true, if_true]; exact Grown.next _
  have he : (Close m f c s).2.map_size = (UnmapCurrentRegion m s).2.map_size := by
    unfold Close
    simp only
    cases f <;> cases c <;> split_ifs <;> rfl
  rw [he]
  exact hu

theorem exec_Grown {iov_max fuel : Nat} {c : MmapCall} {s s1 : PosixMmapFile} {st : Status}
    (h : c.exec iov_max fuel s = some (st, s1)) : Grown s.map_size s1.map_size := by
  cases c with
  | PreAllocate r size =>
    simp only [MmapCall.exec, Option.some.injEq] at h
    cases r <;>
    · simp only [PreAllocate, Prod.mk.injEq] at h
      obtain ⟨_, rfl⟩ := h
      exact Grown.refl _
  | Append os data => exact AppendLoop_Grown os _ _ _ _ _ _ h
  | AppendVector os dv =>
    simp only [MmapCall.exec, AppendVector] at h
    cases hl : AppendVectorLoop iov_max os fuel fuel 0 dv s with
    | none => rw [hl] at h; simp at h
    | some r =>
      obtain ⟨st2, s2⟩ := r
      have hs2 := AppendVectorLoop_Grown iov_max os fuel _ _ _ _ _ _ hl
      rw [hl] at h
      simp only at h
      split_ifs at h <;>
      · simp only [Option.some.injEq, Prod.mk.injEq] at h
        obtain ⟨_, rfl⟩ := h
        exact hs2
  | Sync a b =>
    simp only [MmapCall.exec, Option.some.injEq, Prod.mk.injEq] at h
    obtain ⟨_, rfl⟩ := h
    rw [Sync_map_size]
    exact Grown.refl _
  | Close a b c =>
    simp only [MmapCall.exec, Option.some.injEq, Prod.mk.injEq] at h
    obtain ⟨_, rfl⟩ := h
    exact Close_Grown a b c s

theorem run_Grown (iov_max fuel : Nat) :
    ∀ (calls : List MmapCall) (s s1 : PosixMmapFile) (sts : List Status),
      run iov_max fuel calls s = some (sts, s1) → Grown s.map_size s1.map_size := by
  intro calls
  induction calls with
  | nil =>
    intro s s1 sts h
    simp only [run, Option.some.injEq, Prod.mk.injEq] at h
    obtain ⟨_, rfl⟩ := h
    exact Grown.refl _
  | cons c cs ih =>
    intro s s1 sts h
    rw [run] at h
    cases he : c.exec iov_max fuel s with
    | none => rw [he] at h; simp at h
    | some r =>
      obtain ⟨st, s2⟩ := r
      have hs2 := exec_Grown he
      rw [he] at h
      simp only at h
      cases hr : run iov_max fuel cs s2 with
      | none => rw [hr] at h; simp at h
      | some r2 =>
        obtain ⟨sts2, s3⟩ := r2
        rw [hr] at h
        simp only [Option.some.injEq, Prod.mk.injEq] at h
        obtain ⟨_, rfl⟩ := h
        exact hs2.trans (ih s2 s3 sts2 hr)

end PosixMmapFile

section
open PosixMmapFile

theorem Grown_of_create_le {j : Nat} (hj : j ≤ 21) {b : Nat}
    (h : Grown (Roundup 65536 (2 ^ j)) b) :
    b ≤ max (2 ^ 20) (2 ^ j) ∧ b ≤ 2097152 := by
  rw [Roundup_pow] at h
  by_cases h20 : max 16 j ≤ 20
  · obtain ⟨n, rfl⟩ := h
    rw [nextMapSize_iterate_pow _ _ h20]
    have h1 : (2 : Nat) ^ min (max 16 j + n) 20 ≤ 2 ^ 20 :=
      Nat.pow_le_pow_right (by decide) (by omega)
    constructor
    · exact le_trans h1 (le_max_left _ _)
    · exact le_trans h1 (by decide)
  · have hj21 : j = 21 := by omega
    subst hj21
    have := h.eq_of_ge (by decide)
    subst this
    decide

theorem iterate_create_eq {j : Nat} (hj : j ≤ 21) (n : Nat) (hn : 4 ≤ n) :
    nextMapSize^[n] (Roundup 65536 (2 ^ j)) = max (2 ^ 20) (2 ^ j) := by
  rw [Roundup_pow]
  by_cases h20 : max 16 j ≤ 20
  · rw [nextMapSize_iterate_pow _ _ h20]
    have h1 : min (max 16 j + n) 20 = 20 := by omega
    have h2 : (2 : Nat) ^ j ≤ 2 ^ 20 := Nat.pow_le_pow_right (by decide) (by omega)
    rw [h1, Nat.max_eq_left h2]
  · have hj21 : j = 21 := by omega
    subst hj21
    have := (Grown.eq_of_ge ⟨n, rfl⟩ (by decide) :
      nextMapSize^[n] (2 ^ max 16 21) = 2 ^ max 16 21)
    rw [this]
    decide

theorem iterate_remap_Grown (r : RemapRet) (s : PosixMmapFile) (n : Nat) :
    Grown s.map_size ((fun t => (remapFails r t).2)^[n] s).map_size := by
  induction n with
  | zero => exact Grown.refl _
  | succ n ih =>
    rw [Function.iterate_succ_apply']
    exact ih.trans (remapFails_Grown r _)

/-- C12 as stated fails.  With a page size of 4096 bytes and every system call
succeeding, after five window switches (four windows released) `map_size_` is
1,048,576, it is still 1,048,576 after six, and it is 2,097,152 after no
number of switches.  With a page size of 4 MiB it starts at 4,194,304, above
2,097,152. -/
theorem C12_counterexample :
    ((fun t => (remapFails (RemapRet.mk (SysRet.ok 0) (SysRet.ok 0) (SysRet.ok 4096)) t).2)^[5]
      (create "f" 3 4096)).map_size = 1048576 ∧
    ((fun t => (remapFails (RemapRet.mk (SysRet.ok 0) (SysRet.ok 0) (SysRet.ok 4096)) t).2)^[6]
      (create "f" 3 4096)).map_size = 1048576 ∧
    (∀ n, ((fun t => (remapFails (RemapRet.mk (SysRet.ok 0) (SysRet.ok 0) (SysRet.ok 4096))
      t).2)^[n] (create "f" 3 4096)).map_size ≠ 2097152) ∧
    (create "f" 3 4194304).map_size = 4194304 ∧ (2097152 : Nat) < 4194304 := by
  refine ⟨by decide, by decide, ?_, by decide, by decide⟩
  intro n
  have hg := iterate_remap_Grown (RemapRet.mk (SysRet.ok 0) (SysRet.ok 0) (SysRet.ok 4096))
    (create "f" 3 4096) n
  have hb := (Grown_of_create_le (by decide : 12 ≤ 21) hg).1
  have hm : max (2 ^ 20) (2 ^ 12) = 1048576 := by decide
  rw [hm] at hb
  omega

end

section
open PosixWritableFile

/-- C13, as the code has it: for every state and every result of the sync
call, `Sync()` issues `fsync` when the pending classification is `FSYNC`,
`fdatasync` when it is `FDATASYNC` and no call when it is `NONE`; it returns OK
exactly when no call was issued or the call succeeded, and then the pending
classification is `NONE`; when the call fails it returns the mapped error and
the pending classification is left as it was. -/
theorem C13_sync_issues_pending_kind (sync : SysRet) (s : PosixWritableFile) :
    ((Sync sync s).2.2 =
      match s.pending_sync_type with
      | SyncType.FSYNC => [Syscall.fsync]
      | SyncType.FDATASYNC => [Syscall.fdatasync]
      | SyncType.NONE => []) ∧
    ((Sync sync s).1 = Status.OK ↔
      (s.pending_sync_type = SyncType.NONE ∨ sync.isFail = false)) ∧
    ((Sync sync s).1 = Status.OK → (Sync sync s).2.1.pending_sync_type = SyncType.NONE) ∧
    (∀ e, s.pending_sync_type ≠ SyncType.NONE → sync = SysRet.fail e →
      (Sync sync s).1 = IOError s.filename e ∧
      (Sync sync s).2.1.pending_sync_type = s.pending_sync_type) := by
  have hIO : ∀ e, IOError s.filename e ≠ Status.OK := IOError_ne_OK s.filename
  cases sync <;> cases hp : s.pending_sync_type <;>
    simp [Sync, hp, SysRet.isFail, hIO]

/-- C13 as stated fails: after an append of one byte on a fresh writer the
pending classification is `FSYNC`; a `Sync()` whose `fsync` fails with `EIO`
(5) returns the error and the pending classification is still `FSYNC`. -/
theorem C13_failed_sync_counterexample :
    ((Append (fun _ n => SysRet.ok n) 2 [7] (create "f" 3)).map
      (fun r => (r.1, r.2.pending_sync_type, (Sync (SysRet.fail 5) r.2).1,
        (Sync (SysRet.fail 5) r.2).2.1.pending_sync_type, (Sync (SysRet.fail 5) r.2).2.2)))
      = some (Status.OK, SyncType.FSYNC, Status.IOError "f" 5, SyncType.FSYNC,
          [Syscall.fsync]) := by
  decide

/-- C15 (fails on the code): `PreAllocate(size)` passes the range that starts
at `max(filesize_, pre_allocated_size_)` to `fallocate` but records
`filesize_ + size`.  On a fresh writer, after `PreAllocate(8)` and
`PreAllocate(2)`, both succeeding, the file is 10 bytes long and the recorded
size is 2, less than the 8 recorded before; an `Append` of 3 bytes followed by
`Close` then leaves the file 10 bytes long, since `Close` sees `filesize_ = 3`
not below the recorded 2. -/
theorem C15_preallocate_records_filesize_plus_size :
    (∀ (s : PosixWritableFile) (size v : Nat),
      (PreAllocate (SysRet.ok v) size s).1 = Status.OK ∧
      (PreAllocate (SysRet.ok v) size s).2.pre_allocated_size = s.filesize + size ∧
      (PreAllocate (SysRet.ok v) size s).2.disk
        = fallocateFile s.disk (max s.filesize s.pre_allocated_size) size) ∧
    (PreAllocate (SysRet.ok 0) 8 (create "f" 3)).2.pre_allocated_size = 8 ∧
    (PreAllocate (SysRet.ok 0) 2
      (PreAllocate (SysRet.ok 0) 8 (create "f" 3)).2).2.pre_allocated_size = 2 ∧
    (PreAllocate (SysRet.ok 0) 2
      (PreAllocate (SysRet.ok 0) 8 (create "f" 3)).2).2.disk.length = 10 ∧
    (run 1024 4
        [FileCall.PreAllocate (SysRet.ok 0) 8, FileCall.PreAllocate (SysRet.ok 0) 2,
         FileCall.Append (fun _ n => SysRet.ok n) [1, 1, 1],
         FileCall.Close (SysRet.ok 0) (SysRet.ok 0) (SysRet.ok 0)]
        (create "f" 3)).map (fun r => (r.1, r.2.filesize, r.2.disk.length))
      = some ([Status.OK, Status.OK, Status.OK, Status.OK], 3, 10) := by
  refine ⟨fun s size v => ⟨rfl, rfl, rfl⟩, by decide, by decide, by decide, by decide⟩

end

namespace PosixMmapFile

theorem UnmapCurrentRegion_page_size (m : SysRet) (s : PosixMmapFile) :
    (UnmapCurrentRegion m s).2.page_size = s.page_size := by
  unfold UnmapCurrentRegion
  by_cases hb : s.base = NULL
  · simp only [ne_eq, hb, not_true_eq_false, if_false]
  · simp only [ne_eq, hb, not_false_eq_true, if_true]

theorem MapNewRegion_page_size (f mm : SysRet) (s : PosixMmapFile) :
    (MapNewRegion f mm s).2.page_size = s.page_size := by
  unfold MapNewRegion
  simp only
  by_cases hc : s.file_offset + s.map_size ≥ s.pre_allocated_size ∧ f.isFail = true
  · rw [if_pos hc]
  · rw [if_neg hc]
    cases mm <;> rfl

theorem remapFails_page_size (r : RemapRet) (s : PosixMmapFile) :
    (remapFails r s).2.page_size = s.page_size := by
  have hu := UnmapCurrentRegion_page_size r.munmap s
  unfold remapFails
  simp only
  split_ifs
  · exact hu
  · rw [MapNewRegion_page_size]; exact hu

theorem AppendLoop_page_size (os : Nat → RemapRet) :
    ∀ (fuel i : Nat) (s : PosixMmapFile) (src : List Byte) (st : Status) (s1 : PosixMmapFile),
      AppendLoop os fuel i s src = some (st, s1) → s1.page_size = s.page_size := by
  intro fuel
  induction fuel with
  | zero => intro i s src st s1 h; simp [AppendLoop] at h
  | succ fuel ih =>
    intro i s src st s1 h
    rw [AppendLoop] at h
    by_cases hl : src.length > 0
    · simp only [hl, if_true] at h
      by_cases ha : s.limit - s.dst = 0
      · simp only [ha, if_true] at h
        have hr2 := remapFails_page_size (os i) s
        by_cases hr : (remapFails (os i) s).1 = true
        · simp only [hr, if_true, Option.some.injEq, Prod.mk.injEq] at h
          obtain ⟨_, rfl⟩ := h
          exact hr2
        · simp only [hr, Bool.false_eq_true, if_false] at h
          have h2 := ih _ _ _ _ _ h
          exact h2.trans hr2
      · simp only [ha, if_false, Bool.false_eq_true] at h
        have h2 := ih _ _ _ _ _ h
        exact h2
    · simp only [hl, if_false, Option.some.injEq, Prod.mk.injEq] at h
      obtain ⟨_, rfl⟩ := h
      rfl

theorem AdvanceLoop_page_size (os : Nat → RemapRet) :
    ∀ (fuel i : Nat) (s : PosixMmapFile) (left : Nat) (b : Bool) (s1 : PosixMmapFile),
      AdvanceLoop os fuel i s left = some (b, s1) → s1.page_size = s.page_size := by
  intro fuel
  induction fuel with
  | zero => intro i s left b s1 h; simp [AdvanceLoop] at h
  | succ fuel ih =>
    intro i s left b s1 h
    rw [AdvanceLoop] at h
    by_cases hl : left > 0
    · simp only [hl, if_true] at h
      by_cases ha : s.limit - s.dst = 0
      · simp only [ha, if_true] at h
        have hr2 := remapFails_page_size (os i) s
        by_cases hr : (remapFails (os i) s).1 = true
        · simp only [hr, if_true, Option.some.injEq, Prod.mk.injEq] at h
          obtain ⟨_, rfl⟩ := h
          exact hr2
        · simp only [hr, Bool.false_eq_true, if_false] at h
          have h2 := ih _ _ _ _ _ h
          exact h2.trans hr2
      · simp only [ha, if_false, Bool.false_eq_true] at h
        have h2 := ih _ _ _ _ _ h
        exact h2
    · simp only [hl, if_false, Option.some.injEq, Prod.mk.injEq] at h
      obtain ⟨_, rfl⟩ := h
      rfl

theorem DoWritev_page_size {w : WritevRet} {fuel : Nat} {slices : List (List Byte)}
    {s s1 : PosixMmapFile} {st : Status}
    (h : DoWritev w fuel slices s = some (st, s1)) : s1.page_size = s.page_size := by
  unfold DoWritev at h
  simp only at h
  cases ha : AdvanceLoop w.remap fuel 0 s (slices.map List.length).sum with
  | none => rw [ha] at h; simp at h
  | some r =>
    obtain ⟨b, s2⟩ := r
    have hs2 := AdvanceLoop_page_size w.remap _ _ _ _ _ _ ha
    rw [ha] at h
    cases b with
    | false =>
      simp only [Option.some.injEq, Prod.mk.injEq] at h
      obtain ⟨_, rfl⟩ := h
      exact hs2
    | true =>
      simp only at h
      cases hp : w.pwritev (slices.map List.length).sum with
      | fail e =>
        rw [hp] at h
        simp only [Option.some.injEq, Prod.mk.injEq] at h
        obtain ⟨_, rfl⟩ := h
        exact hs2
      | ok written =>
        rw [hp] at h
        simp only at h
        split_ifs at h <;>
        · simp only [Option.some.injEq, Prod.mk.injEq] at h
          obtain ⟨_, rfl⟩ := h
          exact hs2

theorem AppendVectorLoop_page_size (iov_max : Nat) (os : Nat → WritevRet) (fuel : Nat) :
    ∀ (k b : Nat) (rest : List (List Byte)) (s s1 : PosixMmapFile) (st : Status),
      AppendVectorLoop iov_max os fuel k b rest s = some (st, s1) →
      s1.page_size = s.page_size := by
  intro k
  induction k with
  | zero => intro b rest s s1 st h; simp [AppendVectorLoop] at h
  | succ k ih =>
    intro b rest s s1 st h
    rw [AppendVectorLoop] at h
    simp only at h
    split_ifs at h with hl
    · cases hd : DoWritev (os b) fuel (rest.take (min rest.length iov_max)) s with
      | none => rw [hd] at h; simp at h
      | some r =>
        obtain ⟨st2, s2⟩ := r
        have hs2 := DoWritev_page_size hd
        rw [hd] at h
        simp only at h
        split_ifs at h
        · have h2 := ih _ _ _ _ _ h
          exact h2.trans hs2
        · simp only [Option.some.injEq, Prod.mk.injEq] at h
          obtain ⟨_, rfl⟩ := h
          exact hs2
    · simp only [Option.some.injEq, Prod.mk.injEq] at h
      obtain ⟨_, rfl⟩ := h
      rfl

theorem Sync_page_size (a b : SysRet) (s : PosixMmapFile) :
    (Sync a b s).2.1.page_size = s.page_size := by
  unfold Sync
  cases a <;> cases b <;> cases hp : s.pending_sync <;>
    by_cases hd : s.dst > s.last_sync <;>
    simp only [hd, if_true, if_false, Bool.false_eq_true]

theorem Close_page_size (m f c : SysRet) (s : PosixMmapFile) :
    (Close m f c s).2.page_size = s.page_size := by
  have hu := UnmapCurrentRegion_page_size m s
  have he : (Close m f c s).2.page_size = (UnmapCurrentRegion m s).2.page_size := by
    unfold Close
    simp only
    cases f <;> cases c <;> split_ifs <;> rfl
  rw [he]
  exact hu

theorem exec_page_size {iov_max fuel : Nat} {c : MmapCall} {s s1 : PosixMmapFile} {st : Status}
    (h : c.exec iov_max fuel s = some (st, s1)) : s1.page_size = s.page_size := by
  cases c with
  | PreAllocate r size =>
    simp only [MmapCall.exec, Option.some.injEq] at h
    cases r <;>
    · simp only [PreAllocate, Prod.mk.injEq] at h
      obtain ⟨_, rfl⟩ := h
      rfl
  | Append os data => exact AppendLoop_page_size os _ _ _ _ _ _ h
  | AppendVector os dv =>
    simp only [MmapCall.exec, AppendVector] at h
    cases hl : AppendVectorLoop iov_max os fuel fuel 0 dv s with
    | none => rw [hl] at h; simp at h
    | some r =>
      obtain ⟨st2, s2⟩ := r
      have hs2 := AppendVectorLoop_page_size iov_max os fuel _ _ _ _ _ _ hl
      rw [hl] at h
      simp only at h
      split_ifs at h <;>
      · simp only [Option.some.injEq, Prod.mk.injEq] at h
        obtain ⟨_, rfl⟩ := h
        exact hs2
  | Sync a b =>
    simp only [MmapCall.exec, Option.some.injEq, Prod.mk.injEq] at h
    obtain ⟨_, rfl⟩ := h
    exact Sync_page_size _ _ _
  | Close a b c =>
    simp only [MmapCall.exec, Option.some.injEq, Prod.mk.injEq] at h
    obtain ⟨_, rfl⟩ := h
    exact Close_page_size a b c s

theorem run_page_size (iov_max fuel : Nat) :
    ∀ (calls : List MmapCall) (s s1 : PosixMmapFile) (sts : List Status),
      run iov_max fuel calls s = some (sts, s1) → s1.page_size = s.page_size := by
  intro calls
  induction calls with
  | nil =>
    intro s s1 sts h
    simp only [run, Option.some.injEq, Prod.mk.injEq] at h
    obtain ⟨_, rfl⟩ := h
    rfl
  | cons c cs ih =>
    intro s s1 sts h
    rw [run] at h
    cases he : c.exec iov_max fuel s with
    | none => rw [he] at h; simp at h
    | some r =>
      obtain ⟨st, s2⟩ := r
      have hs2 := exec_page_size he
      rw [he] at h
      simp only at h
      cases hr : run iov_max fuel cs s2 with
      | none => rw [hr] at h; simp at h
      | some r2 =>
        obtain ⟨sts2, s3⟩ := r2
        rw [hr] at h
        simp only [Option.some.injEq, Prod.mk.injEq] at h
        obtain ⟨_, rfl⟩ := h
        exact (ih s2 s3 sts2 hr).trans hs2

end PosixMmapFile

section
open PosixMmapFile

theorem TruncateToPageBoundary_pow (k x : Nat) :
    TruncateToPageBoundary (2 ^ k) x = x / 2 ^ k * 2 ^ k := by
  unfold TruncateToPageBoundary
  rw [Nat.and_pow_two_sub_one_eq_mod]
  have h := Nat.div_add_mod x (2 ^ k)
  rw [Nat.mul_comm] at h
  exact Nat.sub_eq_of_eq_add h.symm

theorem page_range_facts (P a b W : Nat) (hP : 0 < P) (hab : a < b) (hbW : b ≤ W)
    (hW : P ∣ W) :
    a / P * P ≤ (b - 1) / P * P ∧ a / P * P ≤ a ∧ a < a / P * P + P ∧
    (b - 1) / P * P ≤ b - 1 ∧ b ≤ (b - 1) / P * P + P ∧ (b - 1) / P * P + P ≤ W ∧
    ∀ q, P ∣ q → ((a / P * P ≤ q ∧ q ≤ (b - 1) / P * P) ↔ (a < q + P ∧ q < b)) := by
  have ha1 : a / P * P ≤ a := Nat.div_mul_le_self a P
  have hb1 : (b - 1) / P * P ≤ b - 1 := Nat.div_mul_le_self (b - 1) P
  have ha2 : a < a / P * P + P := by
    have h := Nat.div_add_mod a P
    have hm := Nat.mod_lt a hP
    rw [Nat.mul_comm] at h
    omega
  have hb2 : b - 1 < (b - 1) / P * P + P := by
    have h := Nat.div_add_mod (b - 1) P
    have hm := Nat.mod_lt (b - 1) hP
    rw [Nat.mul_comm] at h
    omega
  refine ⟨?_, ha1, ha2, hb1, by omega, ?_, ?_⟩
  · exact Nat.mul_le_mul_right P (Nat.div_le_div_right (by omega))
  · obtain ⟨c, rfl⟩ := hW
    have hlt : (b - 1) / P < c := by
      apply Nat.div_lt_of_lt_mul
      omega
    have h := Nat.mul_le_mul_right P (Nat.succ_le_of_lt hlt)
    rw [Nat.succ_mul, Nat.mul_comm c P] at h
    exact h
  · rintro q ⟨m, rfl⟩
    have e1 : a / P * P ≤ P * m ↔ a / P ≤ m := by
      rw [Nat.mul_comm P m]
      exact ⟨fun h => Nat.le_of_mul_le_mul_right h hP, fun h => Nat.mul_le_mul_right P h⟩
    have e2 : P * m ≤ (b - 1) / P * P ↔ m ≤ (b - 1) / P := by
      rw [Nat.mul_comm P m]
      exact ⟨fun h => Nat.le_of_mul_le_mul_right h hP, fun h => Nat.mul_le_mul_right P h⟩
    have e3 : a / P ≤ m ↔ a < P * m + P := by
      constructor
      · intro h
        have := Nat.mul_le_mul_right P h
        rw [Nat.mul_comm m P] at this
        omega
      · intro h
        by_contra hn
        have h4 : m + 1 ≤ a / P := by omega
        have := Nat.mul_le_mul_right P h4
        rw [Nat.succ_mul, Nat.mul_comm m P] at this
        omega
    have e4 : m ≤ (b - 1) / P ↔ P * m < b := by
      rw [Nat.le_div_iff_mul_le hP, Nat.mul_comm m P]
      omega
    rw [e1, e2, e3, e4]

theorem dvd_nextMapSize_iterate (P : Nat) :
    ∀ (n m : Nat), P ∣ m → P ∣ nextMapSize^[n] m := by
  intro n
  induction n with
  | zero => intro m h; exact h
  | succ n ih =>
    intro m h
    rw [Function.iterate_succ_apply]
    apply ih
    unfold nextMapSize
    split_ifs
    · exact Dvd.dvd.mul_right h 2
    · exact h

/-- Every mapped state reached from the constructor with page size `2 ^ j`
satisfies the hypotheses under which the `msync` range is analysed: the page
size is unchanged, it divides the window length, and the cursors are ordered
inside the window. -/
theorem mapped_reachable_page_facts (j : Nat) (fname : String) (fd : Int)
    (iov_max fuel : Nat) (calls : List MmapCall) (sts : List Status) (s1 : PosixMmapFile)
    (hsane : ∀ c ∈ calls, c.Sane)
    (hrun : PosixMmapFile.run iov_max fuel calls (create fname fd (2 ^ j)) = some (sts, s1))
    (hb : s1.base ≠ NULL) :
    s1.page_size = 2 ^ j ∧ s1.page_size ∣ s1.limit - s1.base ∧
    s1.base ≤ s1.last_sync ∧ s1.last_sync ≤ s1.dst ∧ s1.dst ≤ s1.limit := by
  have hp : s1.page_size = 2 ^ j := run_page_size iov_max fuel calls _ s1 sts hrun
  have hc := run_CursorInv iov_max fuel calls _ s1 sts
    (createWithWindow_CursorInv fname fd (2 ^ j) (Roundup 65536 (2 ^ j))) hsane hrun
  obtain ⟨n, hn⟩ := run_Grown iov_max fuel calls _ s1 sts hrun
  have hd : 2 ^ j ∣ s1.map_size := by
    rw [hn]
    apply dvd_nextMapSize_iterate
    exact Dvd.intro_left _ rfl
  rcases hc with ⟨h0, _⟩ | ⟨_, h1, h2, h3, h4⟩
  · exact absurd h0 hb
  · exact ⟨hp, by rw [hp, h4]; exact hd, h1, h2, h3⟩

/-- C14: for a page size `2 ^ k` and a state with
`base ≤ last_sync < dst ≤ limit` whose window length is a multiple of the page
size (so every mapped state reached from the constructor,
`mapped_reachable_page_facts`), `Sync()` calls `msync` on the range
`[p1, p2 + page_size)` relative to `base`, where `p1` and `p2` are the
truncations of `last_sync - base` and `dst - base - 1`; the range starts and
ends on page boundaries, contains every unsynced byte, a page `[q, q +
page_size)` lies in the range exactly when it holds an unsynced byte, the
range ends at or before `limit - base`, and afterwards `last_sync = dst`. -/
theorem C14_msync_page_range (k : Nat) (s : PosixMmapFile) (fdatasync msync : SysRet)
    (hps : s.page_size = 2 ^ k)
    (h1 : s.base ≤ s.last_sync) (h2 : s.last_sync < s.dst) (h3 : s.dst ≤ s.limit)
    (hw : s.page_size ∣ s.limit - s.base) :
    ∃ p1 p2 : Nat,
      p1 = TruncateToPageBoundary s.page_size (s.last_sync - s.base) ∧
      p2 = TruncateToPageBoundary s.page_size (s.dst - s.base - 1) ∧
      (Sync fdatasync msync s).2.2 = some (p1, p2 - p1 + s.page_size) ∧
      p1 + (p2 - p1 + s.page_size) = p2 + s.page_size ∧
      s.page_size ∣ p1 ∧ s.page_size ∣ p2 + s.page_size ∧
      (∀ x, s.last_sync - s.base ≤ x → x < s.dst - s.base → p1 ≤ x ∧ x < p2 + s.page_size) ∧
      (∀ q, s.page_size ∣ q →
        ((p1 ≤ q ∧ q + s.page_size ≤ p2 + s.page_size) ↔
          ∃ x, q ≤ x ∧ x < q + s.page_size ∧ s.last_sync - s.base ≤ x ∧ x < s.dst - s.base)) ∧
      p2 + s.page_size ≤ s.limit - s.base ∧
      (Sync fdatasync msync s).2.1.last_sync = s.dst ∧
      (Sync fdatasync msync s).2.1.dst = s.dst := by
  have hP : 0 < 2 ^ k := Nat.two_pow_pos k
  obtain ⟨f1, f2, f3, f4, f5, f6, f7⟩ :=
    page_range_facts (2 ^ k) (s.last_sync - s.base) (s.dst - s.base) (s.limit - s.base) hP
      (by omega) (by omega) (hps ▸ hw)
  refine ⟨_, _, rfl, rfl, ?_, ?_⟩
  · unfold Sync
    cases fdatasync <;> cases msync <;> cases hp : s.pending_sync <;>
      simp only [h2, gt_iff_lt, if_true, if_false, Bool.false_eq_true]
  · rw [hps, TruncateToPageBoundary_pow, TruncateToPageBoundary_pow]
    refine ⟨by omega, Dvd.intro_left _ rfl, ?_, ?_, ?_, f6, ?_, ?_⟩
    · exact (Nat.dvd_add_right (Dvd.intro_left _ rfl)).mpr (dvd_refl _)
    · intro x hx1 hx2
      omega
    · intro q hq
      have h := f7 q hq
      constructor
      · intro hqq
        have h5 := h.mp ⟨hqq.1, by omega⟩
        exact ⟨max q (s.last_sync - s.base), by omega, by omega, by omega, by omega⟩
      · rintro ⟨x, hx1, hx2, hx3, hx4⟩
        have h5 := h.mpr ⟨by omega, by omega⟩
        exact ⟨h5.1, by omega⟩
    · unfold Sync
      cases fdatasync <;> cases msync <;> cases hp : s.pending_sync <;>
        simp only [h2, gt_iff_lt, if_true, if_false, Bool.false_eq_true]
    · unfold Sync
      cases fdatasync <;> cases msync <;> cases hp : s.pending_sync <;>
        simp only [h2, gt_iff_lt, if_true, if_false, Bool.false_eq_true]


theorem C14_witness :
    (PosixMmapFile.run 1024 14
      [MmapCall.Append (fun _ => RemapRet.mk (SysRet.ok 0) (SysRet.ok 0) (SysRet.ok 4096))
          [104, 101, 108, 108, 111],
       MmapCall.Sync (SysRet.ok 0) (SysRet.ok 0),
       MmapCall.Append (fun _ => RemapRet.mk (SysRet.ok 0) (SysRet.ok 0) (SysRet.ok 4096))
          [119, 111]]
      (createWithWindow "f" 3 4 8)).map Prod.snd = some exampleUnsynced ∧
    (Sync (SysRet.ok 0) (SysRet.ok 0) exampleUnsynced).2.2 = some (4, 4) ∧
    ∃ p1 p2 : Nat,
      p1 = TruncateToPageBoundary 4 (4101 - 4096) ∧
      p2 = TruncateToPageBoundary 4 (4103 - 4096 - 1) ∧
      (Sync (SysRet.ok 0) (SysRet.ok 0) exampleUnsynced).2.2 = some (p1, p2 - p1 + 4) ∧
      p1 + (p2 - p1 + 4) = p2 + 4 ∧
      4 ∣ p1 ∧ 4 ∣ p2 + 4 ∧
      (∀ x, 4101 - 4096 ≤ x → x < 4103 - 4096 → p1 ≤ x ∧ x < p2 + 4) ∧
      (∀ q, 4 ∣ q →
        ((p1 ≤ q ∧ q + 4 ≤ p2 + 4) ↔
          ∃ x, q ≤ x ∧ x < q + 4 ∧ 4101 - 4096 ≤ x ∧ x < 4103 - 4096)) ∧
      p2 + 4 ≤ 4104 - 4096 ∧
      (Sync (SysRet.ok 0) (SysRet.ok 0) exampleUnsynced).2.1.last_sync = 4103 ∧
      (Sync (SysRet.ok 0) (SysRet.ok 0) exampleUnsynced).2.1.dst = 4103 :=
  ⟨by decide, by decide,
    C14_msync_page_range 2 exampleUnsynced (SysRet.ok 0) (SysRet.ok 0)
      (by decide) (by decide) (by decide) (by decide) (by decide)⟩

end

namespace PosixMmapFile

theorem windowBytes_add (n : Nat) :
    ∀ (m k : Nat), windowBytes m (n + k) = windowBytes m n + windowBytes (nextMapSize^[n] m) k := by
  induction n with
  | zero => intro m k; simp [windowBytes]
  | succ n ih =>
    intro m k
    rw [Nat.succ_add, windowBytes, windowBytes, ih, Function.iterate_succ_apply, Nat.add_assoc]

theorem nextMapSize_pos {m : Nat} (h : 0 < m) : 0 < nextMapSize m :=
  lt_of_lt_of_le h (le_nextMapSize m)

theorem windowBytes_lt_succ (n : Nat) :
    ∀ m, 0 < m → windowBytes m n < windowBytes m (n + 1) := by
  induction n with
  | zero => intro m h; simp [windowBytes, h]
  | succ n ih =>
    intro m h
    have := ih (nextMapSize m) (nextMapSize_pos h)
    have e1 : windowBytes m (n + 1) = m + windowBytes (nextMapSize m) n := rfl
    have e2 : windowBytes m (n + 1 + 1) = m + windowBytes (nextMapSize m) (n + 1) := rfl
    rw [e1, e2]
    omega

theorem windowBytes_strictMono {m : Nat} (h : 0 < m) : StrictMono (windowBytes m) :=
  strictMono_nat_of_lt_succ (fun n => windowBytes_lt_succ n m h)

theorem Released.zero (m o : Nat) : Released m o m o := ⟨0, rfl, rfl⟩

theorem Released.comp {m o m1 o1 m2 o2 : Nat} (h1 : Released m o m1 o1)
    (h2 : Released m1 o1 m2 o2) : Released m o m2 o2 := by
  obtain ⟨n, rfl, rfl⟩ := h1
  obtain ⟨k, rfl, rfl⟩ := h2
  refine ⟨n + k, ?_, ?_⟩
  · rw [Nat.add_comm n k, Function.iterate_add_apply]
  · rw [windowBytes_add, Nat.add_assoc]

theorem UnmapCurrentRegion_mapped (m : SysRet) (s : PosixMmapFile) (hb : s.base ≠ NULL) :
    (UnmapCurrentRegion m s).2.map_size = nextMapSize s.map_size ∧
    (UnmapCurrentRegion m s).2.file_offset = s.file_offset + (s.limit - s.base) ∧
    (UnmapCurrentRegion m s).2.base = NULL := by
  unfold UnmapCurrentRegion nextMapSize
  simp only [ne_eq, hb, not_false_eq_true, if_true, and_self]

theorem UnmapCurrentRegion_unmapped (m : SysRet) (s : PosixMmapFile) (hb : s.base = NULL) :
    (UnmapCurrentRegion m s).2 = s := by
  unfold UnmapCurrentRegion
  simp only [ne_eq, hb, not_true_eq_false, if_false]

theorem UnmapCurrentRegion_Released {s : PosixMmapFile} (hs : s.CursorInv) (m : SysRet) :
    Released s.map_size s.file_offset (UnmapCurrentRegion m s).2.map_size
      (UnmapCurrentRegion m s).2.file_offset := by
  by_cases hb : s.base = NULL
  · rw [UnmapCurrentRegion_unmapped m s hb]; exact Released.zero _ _
  · obtain ⟨e1, e2, _⟩ := UnmapCurrentRegion_mapped m s hb
    have hw : s.limit - s.base = s.map_size := by
      rcases hs with h | h
      · exact absurd h.1 hb
      · exact h.2.2.2.2
    refine ⟨1, ?_, ?_⟩
    · rw [e1]; rfl
    · rw [e2, hw]; simp [windowBytes]

theorem MapNewRegion_file_offset (f mm : SysRet) (s : PosixMmapFile) :
    (MapNewRegion f mm s).2.file_offset = s.file_offset := by
  unfold MapNewRegion
  simp only
  by_cases hc : s.file_offset + s.map_size ≥ s.pre_allocated_size ∧ f.isFail = true
  · rw [if_pos hc]
  · rw [if_neg hc]
    cases mm <;> rfl

theorem remapFails_Released {s : PosixMmapFile} (hs : s.CursorInv) (r : RemapRet) :
    Released s.map_size s.file_offset (remapFails r s).2.map_size
      (remapFails r s).2.file_offset := by
  have hu := UnmapCurrentRegion_Released hs r.munmap
  unfold remapFails
  simp only
  split_ifs
  · exact hu
  · rw [MapNewRegion_map_size, MapNewRegion_file_offset]; exact hu

theorem AppendLoop_Released (os : Nat → RemapRet) (hos : ∀ i, (os i).Sane) :
    ∀ (fuel i : Nat) (s : PosixMmapFile) (src : List Byte) (st : Status) (s1 : PosixMmapFile),
      s.CursorInv → AppendLoop os fuel i s src = some (st, s1) →
      Released s.map_size s.file_offset s1.map_size s1.file_offset := by
  intro fuel
  induction fuel with
  | zero => intro i s src st s1 _ h; simp [AppendLoop] at h
  | succ fuel ih =>
    intro i s src st s1 hs h
    rw [AppendLoop] at h
    by_cases hl : src.length > 0
    · simp only [hl, if_true] at h
      by_cases ha : s.limit - s.dst = 0
      · simp only [ha, if_true] at h
        have hc2 := remapFails_CursorInv hs (hos i)
        have hr2 := remapFails_Released hs (os i)
        by_cases hr : (remapFails (os i) s).1 = true
        · simp only [hr, if_true, Option.some.injEq, Prod.mk.injEq] at h
          obtain ⟨_, rfl⟩ := h
          exact hr2
        · have hn : (if src.length ≤ 0 then src.length else 0) = 0 := by
            split_ifs <;> omega
          simp only [hr, Bool.false_eq_true, if_false, hn, List.take_zero, storeAt_nil,
            List.drop_zero, Nat.add_zero] at h
          have h2 := ih _ _ _ _ _ hc2 h
          exact hr2.comp h2
      · simp only [ha, if_false, Bool.false_eq_true] at h
        have hn3 : (if src.length ≤ s.limit - s.dst then src.length else s.limit - s.dst)
            ≤ s.limit - s.dst := by
          split_ifs <;> omega
        generalize (if src.length ≤ s.limit - s.dst then src.length else s.limit - s.dst) = n at *
        have h2 := ih _ _ _ _ _ (CursorInv_advance hs n hn3 _) h
        exact h2
    · simp only [hl, if_false, Option.some.injEq, Prod.mk.injEq] at h
      obtain ⟨_, rfl⟩ := h
      exact Released.zero _ _

theorem AdvanceLoop_Released (os : Nat → RemapRet) (hos : ∀ i, (os i).Sane) :
    ∀ (fuel i : Nat) (s : PosixMmapFile) (left : Nat) (b : Bool) (s1 : PosixMmapFile),
      s.CursorInv → AdvanceLoop os fuel i s left = some (b, s1) →
      Released s.map_size s.file_offset s1.map_size s1.file_offset := by
  intro fuel
  induction fuel with
  | zero => intro i s left b s1 _ h; simp [AdvanceLoop] at h
  | succ fuel ih =>
    intro i s left b s1 hs h
    rw [AdvanceLoop] at h
    by_cases hl : left > 0
    · simp only [hl, if_true] at h
      by_cases ha : s.limit - s.dst = 0
      · simp only [ha, if_true] at h
        have hc2 := remapFails_CursorInv hs (hos i)
        have hr2 := remapFails_Released hs (os i)
        by_cases hr : (remapFails (os i) s).1 = true
        · simp only [hr, if_true, Option.some.injEq, Prod.mk.injEq] at h
          obtain ⟨_, rfl⟩ := h
          exact hr2
        · have hn : (if left ≤ 0 then left else 0) = 0 := by
            split_ifs <;> omega
          simp only [hr, Bool.false_eq_true, if_false, hn, Nat.add_zero, Nat.sub_zero] at h
          have h2 := ih _ _ _ _ _ hc2 h
          exact hr2.comp h2
      · simp only [ha, if_false, Bool.false_eq_true] at h
        have hn3 : (if left ≤ s.limit - s.dst then left else s.limit - s.dst)
            ≤ s.limit - s.dst := by
          split_ifs <;> omega
        generalize (if left ≤ s.limit - s.dst then left else s.limit - s.dst) = n at *
        have h2 := ih _ _ _ _ _ (CursorInv_advance hs n hn3 s.disk) h
        exact h2
    · simp only [hl, if_false, Option.some.injEq, Prod.mk.injEq] at h
      obtain ⟨_, rfl⟩ := h
      exact Released.zero _ _

theorem DoWritev_Released {w : WritevRet} (hw : ∀ i, (w.remap i).Sane) {fuel : Nat}
    {slices : List (List Byte)} {s s1 : PosixMmapFile} {st : Status} (hs : s.CursorInv)
    (h : DoWritev w fuel slices s = some (st, s1)) :
    Released s.map_size s.file_offset s1.map_size s1.file_offset := by
  unfold DoWritev at h
  simp only at h
  cases ha : AdvanceLoop w.remap fuel 0 s (slices.map List.length).sum with
  | none => rw [ha] at h; simp at h
  | some r =>
    obtain ⟨b, s2⟩ := r
    have hs2 := AdvanceLoop_Released w.remap hw _ _ _ _ _ _ hs ha
    rw [ha] at h
    cases b with
    | false =>
      simp only [Option.some.injEq, Prod.mk.injEq] at h
      obtain ⟨_, rfl⟩ := h
      exact hs2
    | true =>
      simp only at h
      cases hp : w.pwritev (slices.map List.length).sum with
      | fail e =>
        rw [hp] at h
        simp only [Option.some.injEq, Prod.mk.injEq] at h
        obtain ⟨_, rfl⟩ := h
        exact hs2
      | ok written =>
        rw [hp] at h
        simp only at h
        split_ifs at h <;>
        · simp only [Option.some.injEq, Prod.mk.injEq] at h
          obtain ⟨_, rfl⟩ := h
          exact hs2

theorem AppendVectorLoop_Released (iov_max : Nat) (os : Nat → WritevRet)
    (hos : ∀ b i, ((os b).remap i).Sane) (fuel : Nat) :
    ∀ (k b : Nat) (rest : List (List Byte)) (s s1 : PosixMmapFile) (st : Status),
      s.CursorInv → AppendVectorLoop iov_max os fuel k b rest s = some (st, s1) →
      Released s.map_size s.file_offset s1.map_size s1.file_offset := by
  intro k
  induction k with
  | zero => intro b rest s s1 st _ h; simp [AppendVectorLoop] at h
  | succ k ih =>
    intro b rest s s1 st hs h
    rw [AppendVectorLoop] at h
    simp only at h
    split_ifs at h with hl
    · cases hd : DoWritev (os b) fuel (rest.take (min rest.length iov_max)) s with
      | none => rw [hd] at h; simp at h
      | some r =>
        obtain ⟨st2, s2⟩ := r
        have hs2 := DoWritev_Released (hos b) hs hd
        have hc2 := DoWritev_CursorInv (hos b) hs hd
        rw [hd] at h
        simp only at h
        split_ifs at h
        · have h2 := ih _ _ _ _ _ hc2 h
          exact hs2.comp h2
        · simp only [Option.some.injEq, Prod.mk.injEq] at h
          obtain ⟨_, rfl⟩ := h
          exact hs2
    · simp only [Option.some.injEq, Prod.mk.injEq] at h
      obtain ⟨_, rfl⟩ := h
      exact Released.zero _ _

theorem PreAllocate_map_size (r : SysRet) (size : Nat) (s : PosixMmapFile) :
    (PreAllocate r size s).2.map_size = s.map_size ∧
    (PreAllocate r size s).2.file_offset = s.file_offset := by
  cases r <;> exact ⟨rfl, rfl⟩

theorem Sync_file_offset (a b : SysRet) (s : PosixMmapFile) :
    (Sync a b s).2.1.file_offset = s.file_offset := by
  unfold Sync
  cases a <;> cases b <;> cases hp : s.pending_sync <;>
    by_cases hd : s.dst > s.last_sync <;>
    simp only [hd, if_true, if_false, Bool.false_eq_true]

theorem Close_map_size (m f c : SysRet) (s : PosixMmapFile) :
    (Close m f c s).2.map_size = (UnmapCurrentRegion m s).2.map_size ∧
    (Close m f c s).2.file_offset = (UnmapCurrentRegion m s).2.file_offset := by
  unfold Close
  simp only
  constructor <;> (cases f <;> cases c <;> split_ifs <;> rfl)

theorem exec_Released {iov_max fuel : Nat} {c : MmapCall} (hsane : c.Sane)
    {s s1 : PosixMmapFile} {st : Status} (hs : s.CursorInv)
    (h : c.exec iov_max fuel s = some (st, s1)) :
    Released s.map_size s.file_offset s1.map_size s1.file_offset := by
  cases c with
  | PreAllocate r size =>
    simp only [MmapCall.exec, Option.some.injEq] at h
    cases r <;>
    · simp only [PreAllocate, Prod.mk.injEq] at h
      obtain ⟨_, rfl⟩ := h
      exact Released.zero _ _
  | Append os data => exact AppendLoop_Released os hsane _ _ _ _ _ _ hs h
  | AppendVector os dv =>
    simp only [MmapCall.exec, AppendVector] at h
    cases hl : AppendVectorLoop iov_max os fuel fuel 0 dv s with
    | none => rw [hl] at h; simp at h
    | some r =>
      obtain ⟨st2, s2⟩ := r
      have hs2 := AppendVectorLoop_Released iov_max os hsane fuel _ _ _ _ _ _ hs hl
      rw [hl] at h
      simp only at h
      split_ifs at h <;>
      · simp only [Option.some.injEq, Prod.mk.injEq] at h
        obtain ⟨_, rfl⟩ := h
        exact hs2
  | Sync a b =>
    simp only [MmapCall.exec, Option.some.injEq, Prod.mk.injEq] at h
    obtain ⟨_, rfl⟩ := h
    rw [Sync_map_size, Sync_file_offset]
    exact Released.zero _ _
  | Close a b c =>
    simp only [MmapCall.exec, Option.some.injEq, Prod.mk.injEq] at h
    obtain ⟨_, rfl⟩ := h
    have hu := UnmapCurrentRegion_Released hs a
    rw [← (Close_map_size a b c s).1, ← (Close_map_size a b c s).2] at hu
    exact hu

theorem run_Released (iov_max fuel : Nat) :
    ∀ (calls : List MmapCall) (s s1 : PosixMmapFile) (sts : List Status), s.CursorInv →
      (∀ c ∈ calls, c.Sane) →
      run iov_max fuel calls s = some (sts, s1) →
      Released s.map_size s.file_offset s1.map_size s1.file_offset := by
  intro calls
  induction calls with
  | nil =>
    intro s s1 sts _ _ h
    simp only [run, Option.some.injEq, Prod.mk.injEq] at h
    obtain ⟨_, rfl⟩ := h
    exact Released.zero _ _
  | cons c cs ih =>
    intro s s1 sts hs hc h
    rw [run] at h
    cases he : c.exec iov_max fuel s with
    | none => rw [he] at h; simp at h
    | some r =>
      obtain ⟨st, s2⟩ := r
      have hc2 := exec_CursorInv (hc c (List.mem_cons_self _ _)) hs he
      have hs2 := exec_Released (hc c (List.mem_cons_self _ _)) hs he
      rw [he] at h
      simp only at h
      cases hr : run iov_max fuel cs s2 with
      | none => rw [hr] at h; simp at h
      | some r2 =>
        obtain ⟨sts2, s3⟩ := r2
        rw [hr] at h
        simp only [Option.some.injEq, Prod.mk.injEq] at h
        obtain ⟨_, rfl⟩ := h
        exact hs2.comp
          (ih s2 s3 sts2 hc2 (fun c hc' => hc c (List.mem_cons_of_mem _ hc')) hr)

end PosixMmapFile

section
open PosixMmapFile

/-- C12, as the code has it: for every page size `2 ^ j` of at most 2 MiB,
`map_size_` starts at 65536 rounded up to a multiple of the page size, with
`file_offset_ = 0`.  The only place that changes it is `UnmapCurrentRegion`
when a window is mapped: it then adds the window length to `file_offset_` and
doubles `map_size_` if it is below `2 ^ 20`; with no window mapped it changes
nothing, and `MapNewRegion`, `PreAllocate` and `Sync` leave both fields as
they are; `Close` changes them as its `UnmapCurrentRegion` does.  So over any
calls `map_size_` never decreases, and between two states of a run some
number `n` of windows were released: `file_offset_` grew by the total length
of `n` successive windows and `map_size_` went through `n` updates.  In a
state reached from the constructor, `file_offset_` is the total length of the
first `n` windows for exactly one `n`, and `map_size_` is the start value
after `n` updates; it is at most the larger of 1 MiB and the page size, hence
never more than 2,097,152; once four windows or more have been released it is
that larger value (1,048,576 for page sizes up to 1 MiB), and a state that
holds it keeps it. -/
theorem C12_map_size_growth (j : Nat) (hj : j ≤ 21) (fname : String) (fd : Int)
    (iov_max fuel : Nat) :
    (create fname fd (2 ^ j)).map_size = Roundup 65536 (2 ^ j) ∧
    (create fname fd (2 ^ j)).file_offset = 0 ∧
    Roundup 65536 (2 ^ j) = max 65536 (2 ^ j) ∧ 2 ^ j ∣ Roundup 65536 (2 ^ j) ∧
    (∀ m s, s.base ≠ NULL →
      (UnmapCurrentRegion m s).2.map_size =
        (if s.map_size < 2 ^ 20 then s.map_size * 2 else s.map_size) ∧
      (UnmapCurrentRegion m s).2.file_offset = s.file_offset + (s.limit - s.base) ∧
      (UnmapCurrentRegion m s).2.base = NULL) ∧
    (∀ m s, s.base = NULL → (UnmapCurrentRegion m s).2 = s) ∧
    (∀ f mm s, (MapNewRegion f mm s).2.map_size = s.map_size ∧
      (MapNewRegion f mm s).2.file_offset = s.file_offset) ∧
    (∀ r size s, (PreAllocate r size s).2.map_size = s.map_size ∧
      (PreAllocate r size s).2.file_offset = s.file_offset) ∧
    (∀ a b s, (Sync a b s).2.1.map_size = s.map_size ∧
      (Sync a b s).2.1.file_offset = s.file_offset) ∧
    (∀ m f c s, (Close m f c s).2.map_size = (UnmapCurrentRegion m s).2.map_size ∧
      (Close m f c s).2.file_offset = (UnmapCurrentRegion m s).2.file_offset) ∧
    (∀ calls s sts s1, PosixMmapFile.run iov_max fuel calls s = some (sts, s1) →
      s.map_size ≤ s1.map_size) ∧
    (∀ calls s sts s1, s.CursorInv → (∀ c ∈ calls, c.Sane) →
      PosixMmapFile.run iov_max fuel calls s = some (sts, s1) →
      ∃ n, s1.map_size = nextMapSize^[n] s.map_size ∧
        s1.file_offset = s.file_offset + windowBytes s.map_size n) ∧
    (∀ calls sts s1, (∀ c ∈ calls, c.Sane) →
      PosixMmapFile.run iov_max fuel calls (create fname fd (2 ^ j)) = some (sts, s1) →
      (∃ n, s1.file_offset = windowBytes (Roundup 65536 (2 ^ j)) n ∧
        s1.map_size = nextMapSize^[n] (Roundup 65536 (2 ^ j))) ∧
      (∀ n, s1.file_offset = windowBytes (Roundup 65536 (2 ^ j)) n →
        s1.map_size = nextMapSize^[n] (Roundup 65536 (2 ^ j))) ∧
      (windowBytes (Roundup 65536 (2 ^ j)) 4 ≤ s1.file_offset →
        s1.map_size = max (2 ^ 20) (2 ^ j))) ∧
    (∀ calls sts s1, PosixMmapFile.run iov_max fuel calls (create fname fd (2 ^ j))
        = some (sts, s1) →
      s1.map_size ≤ max (2 ^ 20) (2 ^ j) ∧ s1.map_size ≤ 2097152) ∧
    (∀ calls s sts s1, s.map_size = max (2 ^ 20) (2 ^ j) →
      PosixMmapFile.run iov_max fuel calls s = some (sts, s1) → s1.map_size = s.map_size) := by
  have hpow : Roundup 65536 (2 ^ j) = 2 ^ max 16 j := Roundup_pow j
  have hpos : 0 < Roundup 65536 (2 ^ j) := by rw [hpow]; exact Nat.two_pow_pos _
  refine ⟨rfl, rfl, ?_, ?_, UnmapCurrentRegion_mapped, UnmapCurrentRegion_unmapped,
    fun f mm s => ⟨MapNewRegion_map_size f mm s, MapNewRegion_file_offset f mm s⟩,
    PreAllocate_map_size,
    fun a b s => ⟨Sync_map_size a b s, Sync_file_offset a b s⟩,
    Close_map_size, ?_, ?_, ?_, ?_, ?_⟩
  · rw [hpow]
    by_cases h16 : j ≤ 16
    · rw [Nat.max_eq_left h16, Nat.max_eq_left (Nat.pow_le_pow_right (by decide) h16 :
        (2 : Nat) ^ j ≤ 2 ^ 16)]
    · rw [Nat.max_eq_right (by omega), Nat.max_eq_right (Nat.pow_le_pow_right (by decide)
        (by omega) : (2 : Nat) ^ 16 ≤ 2 ^ j)]
  · rw [hpow]
    exact pow_dvd_pow 2 (le_max_right _ _)
  · intro calls s sts s1 hrun
    exact (run_Grown iov_max fuel calls s s1 sts hrun).le
  · intro calls s sts s1 hs hsane hrun
    exact run_Released iov_max fuel calls s s1 sts hs hsane hrun
  · intro calls sts s1 hsane hrun
    obtain ⟨n, hm, ho⟩ := run_Released iov_max fuel calls _ s1 sts
      (createWithWindow_CursorInv fname fd (2 ^ j) (Roundup 65536 (2 ^ j))) hsane hrun
    have hm2 : s1.map_size = nextMapSize^[n] (Roundup 65536 (2 ^ j)) := hm
    have ho2 : s1.file_offset = windowBytes (Roundup 65536 (2 ^ j)) n := by
      rw [ho]; exact Nat.zero_add _
    have hmono := windowBytes_strictMono hpos
    refine ⟨⟨n, ho2, hm2⟩, ?_, ?_⟩
    · intro k hk
      have : k = n := hmono.injective (hk.symm.trans ho2)
      rw [this]; exact hm2
    · intro h4
      rw [ho2] at h4
      rw [hm2]
      exact iterate_create_eq hj n (hmono.le_iff_le.mp h4)
  · intro calls sts s1 hrun
    exact Grown_of_create_le hj (run_Grown iov_max fuel calls _ s1 sts hrun)
  · intro calls s sts s1 hs hrun
    have hg := run_Grown iov_max fuel calls s s1 sts hrun
    exact hg.eq_of_ge (by rw [hs]; exact le_max_left _ _)

theorem C12_witness :
    (12 ≤ 21) ∧ (create "f" 3 (2 ^ 12)).map_size = Roundup 65536 (2 ^ 12) ∧
    (∀ calls sts s1, (∀ c ∈ calls, c.Sane) →
      PosixMmapFile.run 1024 14 calls (create "f" 3 (2 ^ 12)) = some (sts, s1) →
      (∃ n, s1.file_offset = windowBytes (Roundup 65536 (2 ^ 12)) n ∧
        s1.map_size = nextMapSize^[n] (Roundup 65536 (2 ^ 12))) ∧
      (∀ n, s1.file_offset = windowBytes (Roundup 65536 (2 ^ 12)) n →
        s1.map_size = nextMapSize^[n] (Roundup 65536 (2 ^ 12))) ∧
      (windowBytes (Roundup 65536 (2 ^ 12)) 4 ≤ s1.file_offset →
        s1.map_size = max (2 ^ 20) (2 ^ 12))) ∧
    (∀ calls sts s1, PosixMmapFile.run 1024 14 calls (create "f" 3 (2 ^ 12))
        = some (sts, s1) →
      s1.map_size ≤ max (2 ^ 20) (2 ^ 12) ∧ s1.map_size ≤ 2097152) ∧
    (∃ n, (8 : Nat) = nextMapSize^[n] 4 ∧ (4 : Nat) = 0 + windowBytes 4 n) :=
  ⟨by decide, (C12_map_size_growth 12 (by decide) "f" 3 1024 14).1,
    (C12_map_size_growth 12 (by decide) "f" 3 1024 14).2.2.2.2.2.2.2.2.2.2.2.2.1,
    (C12_map_size_growth 12 (by decide) "f" 3 1024 14).2.2.2.2.2.2.2.2.2.2.2.2.2.1,
    (C12_map_size_growth 12 (by decide) "f" 3 1024 14).2.2.2.2.2.2.2.2.2.2.2.1
      [MmapCall.Append (fun _ => RemapRet.mk (SysRet.ok 0) (SysRet.ok 0) (SysRet.ok 4096))
          [104, 101, 108, 108, 111],
       MmapCall.Append (fun _ => RemapRet.mk (SysRet.ok 0) (SysRet.ok 0) (SysRet.ok 4096))
          [32, 119, 111, 114, 108, 100],
       MmapCall.Sync (SysRet.ok 0) (SysRet.fail 5)]
      (createWithWindow "f" 3 4096 4)
      [Status.OK, Status.OK, Status.IOError "f" 5]
      { filename := "f", fd := 3, page_size := 4096, map_size := 8, base := 4096,
        limit := 4104, dst := 4103, last_sync := 4103, file_offset := 4,
        pre_allocated_size := 0, pending_sync := false,
        disk := [104, 101, 108, 108, 111, 32, 119, 111, 114, 108, 100, 0], errno := 5 }
      (createWithWindow_CursorInv "f" 3 4096 4)
      (by
        intro c hc
        simp only [List.mem_cons, List.mem_singleton, List.not_mem_nil, or_false] at hc
        rcases hc with rfl | rfl | rfl
        · exact fun _ => okRemap_Sane
        · exact fun _ => okRemap_Sane
        · trivial)
      (by decide)⟩

end

end kudu
